import Mathlib

/-!
# jstransform: the transform engine

A shallow embedding of the rule evaluation (`transform/transform.go`), of the
path-addressed output assembler (`transform/transformer.go`), of the JSON
references of a schema (`jsonschema/reference.go`) and of the path items of the
struct generator (`generate/generate.go`), followed by the properties proved (or
refuted) about them.

Conventions of the embedding

* A Go `interface{}` is a `Value`; the nil interface is `Value.null`.
* A Go `map[string]interface{}` is an association list read with `mget` (first
  entry of a key) and written with `mset` (overwrite the entry of the key, or add
  one); Go maps hold one entry per key, and the iteration order is not observable.
* A function that mutates the map it is given returns the map after the call.
* A Go `(x, error)` result is a `Result`: `ok x`, `error msg` or `panic msg`, the
  last standing for a run-time failure of the Go program.
-/

namespace JsTransform

/-! ## Values -/

/-- Stand-in for `*xmlquery.Node` of the external XML library: only the identity of
a node is used by the code embedded here. -/
structure XmlNode where
  id : Nat

/-- Dynamic values held by a Go `interface{}`: nil, scalars, the node list returned
by `xmlquery.Find`, `[]interface{}` and `map[string]interface{}`. A nil slice and an
empty slice are both `seq []`. -/
inductive Value where
  | null
  | str (s : String)
  | num (n : Int)
  | bool (b : Bool)
  | nodes (ns : List XmlNode)
  | seq (xs : List Value)
  | map (m : List (String × Value))

/-- A `map[string]interface{}`. -/
abbrev Tree := List (String × Value)

/-- Go `v == nil` on an interface value. -/
def Value.isNil : Value → Bool
  | Value.null => true
  | _ => false

/-- Go `_, ok := v.(map[string]interface{})`. -/
def Value.isMap : Value → Bool
  | Value.map _ => true
  | _ => false

/-- Outcome of a Go function returning `(α, error)`; `panic` is a run-time failure. -/
inductive Result (α : Type) where
  | ok (a : α)
  | error (msg : String)
  | panic (msg : String)

/-- Outcome of a Go function returning only `error`. -/
inductive Status where
  | ok
  | error (msg : String)
  | panic (msg : String)

/-- Whether the status is an `error` value (not success, not a run-time failure). -/
def Status.isError : Status → Bool
  | Status.error _ => true
  | _ => false

/-! ## Maps -/

/-- Go `v, ok := m[k]`. -/
def mget : Tree → String → Option Value
  | [], _ => none
  | (k1, v1) :: rest, k => if k1 = k then some v1 else mget rest k

/-- Go `m[k] = v`. -/
def mset : Tree → String → Value → Tree
  | [], k, v => [(k, v)]
  | (k1, v1) :: rest, k, v => if k1 = k then (k, v) :: rest else (k1, v1) :: mset rest k v

/-! ## Strings -/

/-- Go `strings.Split(s, sep)` for a one-byte separator, on the characters of `s`. -/
def splitChars (sep : Char) : List Char → List (List Char)
  | [] => [[]]
  | c :: cs =>
    if c = sep then [] :: splitChars sep cs
    else
      match splitChars sep cs with
      | [] => [[c]]
      | s :: ss => (c :: s) :: ss

/-- Go `strings.Split(s, sep)` for a one-byte separator. -/
def split (s : String) (sep : Char) : List String :=
  (splitChars sep s.data).map String.mk

/-- Go `strings.TrimLeft(s, string(c))` on characters. -/
def trimLeftChars (c : Char) : List Char → List Char
  | [] => []
  | d :: ds => if d = c then trimLeftChars c ds else d :: ds

/-- Go `strings.Trim(s, string(c))`: drops every leading and trailing `c`. -/
def trim (s : String) (c : Char) : String :=
  String.mk (trimLeftChars c (trimLeftChars c s.data).reverse).reverse

/-- Value of a decimal digit. -/
def digitVal (c : Char) : Option Nat :=
  if 48 ≤ c.toNat ∧ c.toNat ≤ 57 then some (c.toNat - 48) else none

/-- Reads a run of decimal digits, most significant first, onto `acc`. -/
def parseDigits : List Char → Nat → Option Nat
  | [], acc => some acc
  | c :: cs, acc =>
    match digitVal c with
    | some d => parseDigits cs (acc * 10 + d)
    | none => none

/-- Go `strconv.Atoi` on a 64-bit platform: optional sign, at least one decimal
digit, and a value in the range of `int`; `none` is the error result. -/
def atoi (s : String) : Option Int :=
  let body (neg : Bool) (ds : List Char) : Option Int :=
    match ds with
    | [] => none
    | _ :: _ =>
      match parseDigits ds 0 with
      | none => none
      | some n =>
        if neg then (if n ≤ 2 ^ 63 then some (-(n : Int)) else none)
        else (if n < 2 ^ 63 then some (n : Int) else none)
  match s.data with
  | [] => none
  | c :: cs =>
    if c = '-' then body true cs
    else if c = '+' then body false cs
    else body false (c :: cs)

/-- Go `fmt` verb `%q` (escape sequences inside the string are not modelled). -/
def quote (s : String) : String := "\"" ++ s ++ "\""

/-! ## The output assembler (`transform/transformer.go`) -/

/-- Go `for k, v := range oldValue { if _, ok := newValue[k]; !ok { newValue[k] = v } }`. -/
def mergeInto (oldValue newValue : Tree) : Tree :=
  oldValue.foldl (fun acc kv => match mget acc kv.1 with
    | some _ => acc
    | none => mset acc kv.1 kv.2) newValue

/-- Go `for j := len(current); j <= index; j++ { current = append(current, nil) }`. -/
def grow (current : List Value) (i : Nat) : List Value :=
  current ++ List.replicate (i + 1 - current.length) Value.null

/-- The value `saveInSlice` stores in the last addressed slot, which holds `old`: a
mapping stored over a mapping first takes the entries of `old` whose key it lacks. -/
def mergeValue (value old : Value) : Value :=
  match value, old with
  | Value.map newValue, Value.map oldValue => Value.map (mergeInto oldValue newValue)
  | _, _ => value

/-- What `saveInSlice` hands back on success. The slice it returns holds, at the
addressed slot, the very object it was given as `value` (a Go map is a reference):
`slice x` is the returned slice when that object finally has the content `x`, and
`value` is the content of the object when `saveInSlice` returns (after the merge of
an existing mapping into it). -/
structure SliceSave where
  slice : Value → List Value
  value : Value

/-- Go `saveInSlice(current, arraySplits, value)`. -/
def saveInSlice : List String → List Value → Value → Result SliceSave
  | [], _, _ => Result.panic "index out of range"
  | s :: rest, current, value =>
    match atoi (trim s ']') with
    | none => Result.error ("failed to determine index of " ++ quote s)
    | some index =>
      if index < 0 then Result.panic "index out of range"
      else
        let i := index.toNat
        -- fill up the slice slots with nil if the slice isn't the right size
        let current := grow current i
        match rest with
        | [] =>
          -- if this is the last array split save the value
          Result.ok ⟨fun x => current.set i x, mergeValue value (current.getD i Value.null)⟩
        | _ :: _ =>
          let nested :=
            match current.getD i Value.null with
            | Value.seq xs => xs
            | _ => []
          -- the error of the nested call is dropped by the source
          match saveInSlice rest nested value with
          | Result.ok r => Result.ok ⟨fun x => current.set i (Value.seq (r.slice x)), r.value⟩
          | Result.error _ => Result.ok ⟨fun _ => current.set i (Value.seq []), value⟩
          | Result.panic m => Result.panic m

/-- Go `sValue` of `saveLeaf` and `saveInTree`: the slice under `key`, nil when the
key is absent; the unchecked type assertion fails at run time on any other value. -/
def sliceAt (tree : Tree) (key : String) : Result (List Value) :=
  match mget tree key with
  | none => Result.ok []
  | some (Value.seq xs) => Result.ok xs
  | some _ => Result.panic "interface conversion: not a []interface"

/-- Go `saveLeaf(tree, path, value)`; returns the tree after the call. -/
def saveLeaf (tree : Tree) (path : String) (value : Value) : Tree × Status :=
  match split path '[' with
  | [] => (tree, Status.panic "index out of range")
  | [_] => (mset tree path value, Status.ok)
  | a0 :: idx =>
    match sliceAt tree a0 with
    | Result.panic m => (tree, Status.panic m)
    | Result.error m => (tree, Status.error m)
    | Result.ok sValue =>
      match saveInSlice idx sValue value with
      | Result.panic m => (tree, Status.panic m)
      | Result.error m => (tree, Status.error m)
      | Result.ok r => (mset tree a0 (Value.seq (r.slice r.value)), Status.ok)

/-- One level of `saveInTree` below the root marker: `seg` is `splits[0]`, `isLast`
says `len(splits) == 1`, and `recurse t` is the recursive call
`saveInTree(t, strings.Join(splits[1:], "."), value)`. -/
def saveInTreeStep (seg : String) (isLast : Bool) (recurse : Tree → Tree × Status)
    (tree : Tree) (value : Value) : Tree × Status :=
  if isLast then saveLeaf tree seg value
  else
    match split seg '[' with
    | [] => (tree, Status.panic "index out of range")
    | [_] =>
      match mget tree seg with
      | none =>
        let r := recurse []
        (mset tree seg (Value.map r.1), r.2)
      | some Value.null =>
        let r := recurse []
        (mset tree seg (Value.map r.1), r.2)
      | some (Value.map newTreeMap) =>
        let r := recurse newTreeMap
        (mset tree seg (Value.map r.1), r.2)
      | some _ => (tree, Status.error ("value at " ++ quote seg ++ " is not a map[string]interface\x7b\x7d"))
    | a0 :: idx =>
      -- the case of an array or nested arrays with an object in them
      match sliceAt tree a0 with
      | Result.panic m => (tree, Status.panic m)
      | Result.error m => (tree, Status.error m)
      | Result.ok sValue =>
        match saveInSlice idx sValue (Value.map []) with
        | Result.panic m => (tree, Status.panic m)
        | Result.error m => (tree, Status.error m)
        | Result.ok s =>
          let newTreeMap : Tree :=
            match s.value with
            | Value.map m => m
            | _ => []
          let r := recurse newTreeMap
          (mset tree a0 (Value.seq (s.slice (Value.map r.1))), r.2)

/-- Go `saveInTree` on the already split path. The source re-joins `splits[1:]` with
"." and splits it again in the recursive call, which gives `splits[1:]` back
(`split_join`), so the recursion is on the list of segments. -/
def saveInTreeSplits : List String → Tree → Value → Tree × Status
  | [], tree, value =>
    if value.isNil then (tree, Status.ok) else (tree, Status.panic "index out of range")
  | s0 :: rest0, tree, value =>
    if value.isNil then (tree, Status.ok)
    else if s0 = "$" then
      -- path = path[2:]; splits = splits[1:]
      match rest0 with
      | [] => (tree, Status.panic "slice bounds out of range")
      | s :: rest =>
        saveInTreeStep s rest.isEmpty (fun t => saveInTreeSplits rest t value) tree value
    else
      saveInTreeStep s0 rest0.isEmpty (fun t => saveInTreeSplits rest0 t value) tree value

/-- Go `saveInTree(tree, path, value)`; returns the tree after the call. -/
def saveInTree (tree : Tree) (path : String) (value : Value) : Tree × Status :=
  saveInTreeSplits (split path '.') tree value

/-! ## Reading a tree -/

/-- Go `strings.Join(elems, sep)`. -/
def join : List String → String → String
  | [], _ => ""
  | [a], _ => a
  | a :: b :: rest, sep => a ++ sep ++ join (b :: rest) sep

/-- One step down a value: into a mapping by key, or into a sequence by index. -/
inductive Step where
  | key (k : String)
  | idx (i : Nat)

/-- The value reached from `v` by the steps, `none` when a step does not apply. -/
def Value.get : Value → List Step → Option Value
  | v, [] => some v
  | Value.map m, Step.key k :: ps =>
    match mget m k with
    | some v => v.get ps
    | none => none
  | Value.seq xs, Step.idx i :: ps =>
    match xs[i]? with
    | some v => v.get ps
    | none => none
  | _, _ :: _ => none

/-- Every proper prefix of the key path is absent, null or a mapping in the tree. -/
def plainParents : Tree → List String → Bool
  | _, [] => true
  | _, [_] => true
  | tree, k :: k2 :: ks =>
    match mget tree k with
    | none => true
    | some Value.null => true
    | some (Value.map m) => plainParents m (k2 :: ks)
    | some _ => false

/-- The path "$.k[i]" with the index in decimal. -/
def indexPath (k : String) (i : Nat) : String := "$." ++ k ++ "[" ++ toString i ++ "]"

/-- The text "[i1][i2]…" of a list of indices, in decimal. -/
def renderIdxs : List Nat → String
  | [] => ""
  | i :: rest => "[" ++ (toString i ++ "]") ++ renderIdxs rest

/-- A path segment `name[i1]…[in]` (n >= 0) in structured form. -/
structure Seg where
  name : String
  idxs : List Nat

/-- The text of a segment. -/
def Seg.render (sg : Seg) : String := sg.name ++ renderIdxs sg.idxs

/-- The steps a segment stands for: its key, then its indices. -/
def Seg.steps (sg : Seg) : List Step := Step.key sg.name :: sg.idxs.map Step.idx

/-- The name of a segment holds no "." and no "[", its indices are Go `int`s, and a
segment without index is not the root marker "$". -/
def Seg.wf (sg : Seg) : Prop :=
  '.' ∉ sg.name.data ∧ '[' ∉ sg.name.data ∧ (∀ i ∈ sg.idxs, i < 2 ^ 63) ∧
    (sg.idxs = [] → sg.name ≠ "$")

/-- The steps of a list of segments. -/
def pathSteps : List Seg → List Step
  | [] => []
  | sg :: rest => sg.steps ++ pathSteps rest

/-- A path segment that is a plain key: no ".", no "[", and not the root marker. -/
def plainKey (k : String) : Prop := '.' ∉ k.data ∧ '[' ∉ k.data ∧ k ≠ "$"

/-! ## Rule evaluation (`transform/transform.go`) -/

/-- Go `transformMethod`. -/
inductive transformMethod where
  | first
  | last
  | concatenate

/-- Go interface `transformOperation`, reduced to the method used at call time. -/
structure transformOperation where
  transform : Value → Result Value

/-- Go `transformInstructionXML`. -/
structure transformInstructionXML where
  xmlPath : String
  Operations : List transformOperation

/-- Go `methodOptions`. -/
structure methodOptions where
  ConcatenateDelimiter : String

/-- Go `transformInstructions`. -/
structure transformInstructions where
  From : List transformInstructionXML
  Method : transformMethod
  MethodOptions : methodOptions

/-- The argument `in` of the `transform` methods: a parsed JSON value or an XML node. -/
inductive Context where
  | json (v : Value)
  | xml (node : XmlNode)

/-- Go `pathModifier`, a `func(string) string` that may be nil. -/
abbrev pathModifier := Option (String → String)

/-- What the embedded code calls but does not define. `find` is `xmlquery.Find` of the
external library (`none`: it panics on a malformed expression; the empty list is its
nil result); `convert` is the conversion of the matched nodes to the declared type;
`text` is the textual form of a value that is not text already. -/
structure Env where
  find : XmlNode → String → Option (List XmlNode)
  convert : List XmlNode → String → Result Value
  text : Value → String

/-- Modelled from the spec: the text of a result, as joined by Concatenate; a text
value is its own text, any other value has the text the environment gives it. -/
def asText (env : Env) : Value → String
  | Value.str s => s
  | v => env.text v

/-- Modelled from the spec: `concat(a, b, delimiter)`, which is not in the sources.
The spec has Concatenate "join all non-nil results (as text) with the configured
delimiter; if every source is nil, result is nil": a nil `b` leaves the accumulated
`a`, a nil `a` starts the text with `b`, otherwise `b` is appended after the
delimiter. -/
def concat (env : Env) (a b : Value) (delimiter : String) : Result Value :=
  if b.isNil then Result.ok a
  else if a.isNil then Result.ok (Value.str (asText env b))
  else Result.ok (Value.str (asText env a ++ delimiter ++ asText env b))

/-- Go loop `for _, op := range ti.Operations` of `transformInstructionXML.transform`. -/
def applyOperations (path : String) : List transformOperation → Value → Result Value
  | [], value => Result.ok value
  | op :: ops, value =>
    match op.transform value with
    | Result.ok v => applyOperations path ops v
    | Result.error e =>
      Result.error ("failed operation on value from JSONPath " ++ quote path ++ ": " ++ e)
    | Result.panic m => Result.panic m

/-- Go `(ti *transformInstructionXML) transform(in, fieldType, modifier)`. -/
def transformInstructionXML.transform (env : Env) (ti : transformInstructionXML)
    (input : Context) (fieldType : String) (modifier : pathModifier) : Result Value :=
  let path :=
    match modifier with
    | some f => f ti.xmlPath
    | none => ti.xmlPath
  match input with
  | Context.json _ => Result.panic "interface conversion: interface is not *xmlquery.Node"
  | Context.xml node =>
    match env.find node path with
    | none => Result.panic "xmlquery.Find: malformed expression"
    | some [] => Result.ok Value.null
    | some (n :: ns) =>
      let rawValue := n :: ns
      match
        (match env.convert rawValue fieldType with
          | Result.ok v => Result.ok v
          -- In some cases the conversion is helpful but in others it isn't
          | Result.error _ => Result.ok (Value.nodes rawValue)
          | Result.panic m => Result.panic m : Result Value) with
      | Result.panic m => Result.panic m
      | Result.error e => Result.error e
      | Result.ok value =>
        if value.isNil then Result.ok Value.null
        else applyOperations path ti.Operations value

/-- Go loop `for _, from := range tis.From` of `transformInstructions.transform`;
`result` is the variable of that name. -/
def combine (env : Env) (concatResult : Bool) (delimiter : String) (input : Context)
    (fieldType : String) (modifier : pathModifier) :
    List transformInstructionXML → Value → Result Value
  | [], result => Result.ok result
  | src :: rest, result =>
    match src.transform env input fieldType modifier with
    | Result.error e => Result.error e
    | Result.panic m => Result.panic m
    | Result.ok value =>
      if concatResult then
        match concat env result value delimiter with
        | Result.error e => Result.error ("failed to concat values: " ++ e)
        | Result.panic m => Result.panic m
        | Result.ok r => combine env concatResult delimiter input fieldType modifier rest r
      else if value.isNil then
        combine env concatResult delimiter input fieldType modifier rest result
      else Result.ok value

/-- Go `(tis *transformInstructions) transform(in, fieldType, modifier)`: the
returned pair is the result and the receiver after the call (the method assigns to
`tis.From` when the method is `last`). -/
def transformInstructions.transform (env : Env) (tis : transformInstructions)
    (input : Context) (fieldType : String) (modifier : pathModifier) :
    Result Value × transformInstructions :=
  let tis1 : transformInstructions :=
    match tis.Method with
    | transformMethod.last => ⟨tis.From.reverse, tis.Method, tis.MethodOptions⟩
    | _ => tis
  let concatResult : Bool :=
    match tis.Method with
    | transformMethod.concatenate => true
    | _ => false
  (combine env concatResult tis.MethodOptions.ConcatenateDelimiter input fieldType modifier
    tis1.From Value.null, tis1)

/-- The non-nil results joined as text by the delimiter, nil when there is none:
what the spec has Concatenate return. -/
def joinNonNil (env : Env) (delimiter : String) (vs : List Value) : Value :=
  match vs.filter (fun v => !v.isNil) with
  | [] => Value.null
  | w :: ws => Value.str (delimiter.intercalate ((w :: ws).map (asText env)))

/-! ## The key a path writes -/

/-- The key of the tree a segment writes: the part of the segment before its first
"[" (`arraySplits[0]`), the whole segment when it has none. -/
def segKey (seg : String) : String :=
  match split seg '[' with
  | a0 :: _ => a0
  | [] => seg

/-- The segment `saveInTree` works on: `splits[0]`, or `splits[1]` when `splits[0]`
is the root marker "$". -/
def firstSegment : List String → Option String
  | [] => none
  | s0 :: rest => if s0 = "$" then rest.head? else some s0

/-- The key of the tree that `saveInTree` writes for a path, if any. -/
def rootKey (path : String) : Option String :=
  (firstSegment (split path '.')).map segKey

/-! ## Operation pipeline and construction (`transform/transform.go`) -/

/-- The path of a source after the path rewrite of the call. -/
def rewrittenPath (ti : transformInstructionXML) (modifier : pathModifier) : String :=
  match modifier with
  | some f => f ti.xmlPath
  | none => ti.xmlPath

/-- The operations applied left to right, `opn(…op1(v))`; `none` when one of them
does not return a value. -/
def chain : List transformOperation → Value → Option Value
  | [], v => some v
  | op :: ops, v =>
    match op.transform v with
    | Result.ok w => chain ops w
    | _ => none

/-- Go `transformInstructionsJSON`, the decoded form of a rule; an absent "method"
decodes to the empty string. -/
structure transformInstructionsJSON where
  From : List transformInstructionXML
  Method : String
  MethodOptions : methodOptions

/-- Go `(tis *transformInstructions) UnmarshalJSON(data)`, on the outcome of
`json.Unmarshal(data, &jtis)` (standard library); the result is the receiver on
success. -/
def transformInstructions.UnmarshalJSON (decoded : Except String transformInstructionsJSON) :
    Except String transformInstructions :=
  match decoded with
  | Except.error e => Except.error ("failed to extract transform from JSON: " ++ e)
  | Except.ok jtis =>
    if jtis.Method = "" then
      Except.ok ⟨jtis.From, transformMethod.first, jtis.MethodOptions⟩
    else if jtis.Method = "first" then
      Except.ok ⟨jtis.From, transformMethod.first, jtis.MethodOptions⟩
    else if jtis.Method = "last" then
      Except.ok ⟨jtis.From, transformMethod.last, jtis.MethodOptions⟩
    else if jtis.Method = "concatenate" then
      Except.ok ⟨jtis.From, transformMethod.concatenate, jtis.MethodOptions⟩
    else Except.error ("unknown method " ++ quote jtis.Method)

/-- Go `transformOperationJSON`; `Args` is a `map[string]string`. -/
structure transformOperationJSON where
  Name : String
  Args : List (String × String)

/-- Go `transformInstructionJSON`, the decoded form of a source. -/
structure transformInstructionJSON where
  XmlPath : String
  Operations : List transformOperationJSON

/-- The operation types the `switch toj.Name` of `UnmarshalJSON` knows. -/
inductive OpKind where
  | changeCase
  | duration
  | inverse
  | max
  | replace
  | split

/-- Go `switch toj.Name` of `transformInstructionXML.UnmarshalJSON`; `none` is the
default case. -/
def opKind (name : String) : Option OpKind :=
  if name = "changeCase" then some OpKind.changeCase
  else if name = "duration" then some OpKind.duration
  else if name = "inverse" then some OpKind.inverse
  else if name = "max" then some OpKind.max
  else if name = "replace" then some OpKind.replace
  else if name = "split" then some OpKind.split
  else none

/-- The `init` methods of the operation types, which the sources do not define:
`init kind args` is the error of `op.init(args)`, or the operation it has configured. -/
abbrev OpInit := OpKind → List (String × String) → Except String transformOperation

/-- Go loop `for _, toj := range jti.Operations` of
`transformInstructionXML.UnmarshalJSON`; `acc` is `ti.Operations`. -/
def initOperations (init : OpInit) :
    List transformOperationJSON → List transformOperation →
      Except String (List transformOperation)
  | [], acc => Except.ok acc
  | toj :: rest, acc =>
    match opKind toj.Name with
    | none => Except.error ("unsupported operation " ++ quote toj.Name)
    | some kind =>
      match init kind toj.Args with
      | Except.error e => Except.error ("failed initializing transform operation: " ++ e)
      | Except.ok op => initOperations init rest (acc ++ [op])

/-- Go `(ti *transformInstructionXML) UnmarshalJSON(data)`, on the outcome of
`json.Unmarshal(data, &jti)` (standard library); the result is the receiver on
success. -/
def transformInstructionXML.UnmarshalJSON (init : OpInit)
    (decoded : Except String transformInstructionJSON) :
    Except String transformInstructionXML :=
  match decoded with
  | Except.error e => Except.error ("failed to extract transform from JSON: " ++ e)
  | Except.ok jti =>
    match initOperations init jti.Operations [] with
    | Except.error e => Except.error e
    | Except.ok ops => Except.ok ⟨jti.XmlPath, ops⟩

/-! ## The transformers (`json_transformer.go`, `xml_transformer.go`) -/

/-- The library calls of `Transform`: `json.Unmarshal`, `xmlquery.Parse` and
`json.Marshal`. -/
structure Codec where
  jsonUnmarshal : String → Result Value
  xmlParse : String → Result XmlNode
  jsonMarshal : Value → Result String

/-- Go `JSONTransformer`, reduced to what `Transform` uses: `validate` is
`tr.schema.Validate` and `root ctx` is `tr.root.transform(ctx, nil)`. -/
structure JSONTransformer where
  validate : String → Result Bool
  root : Context → Result Value

/-- Go `XMLTransformer`, reduced like `JSONTransformer`. -/
structure XMLTransformer where
  validate : String → Result Bool
  root : Context → Result Value

/-- The error `Transform` returns when the schema reports the result as not valid. -/
def validationFailure : String := "schema validation of the transformed result reports invalid"

/-- The part of `Transform` that both transformers share: transformation of the
parsed input, encoding and validation. -/
def transformAndValidate (c : Codec) (validate : String → Result Bool)
    (root : Context → Result Value) (input : Context) : Result String :=
  match root input with
  | Result.panic m => Result.panic m
  | Result.error e => Result.error ("failed transformation: " ++ e)
  | Result.ok transformed =>
    match c.jsonMarshal transformed with
    | Result.panic m => Result.panic m
    | Result.error e => Result.error ("failed to JSON marsal transformed data: " ++ e)
    | Result.ok out =>
      match validate out with
      | Result.panic m => Result.panic m
      | Result.error e => Result.error ("transformed result validation error: " ++ e)
      | Result.ok false => Result.error validationFailure
      | Result.ok true => Result.ok out

/-- Go `(tr *JSONTransformer) Transform(raw)`. -/
def JSONTransformer.Transform (c : Codec) (tr : JSONTransformer) (raw : String) :
    Result String :=
  match c.jsonUnmarshal raw with
  | Result.panic m => Result.panic m
  | Result.error e => Result.error ("failed to parse input JSON: " ++ e)
  | Result.ok v => transformAndValidate c tr.validate tr.root (Context.json v)

/-- Go `(tr *XMLTransformer) Transform(raw)`. -/
def XMLTransformer.Transform (c : Codec) (tr : XMLTransformer) (raw : String) :
    Result String :=
  match c.xmlParse raw with
  | Result.panic m => Result.panic m
  | Result.error e => Result.error ("failed to parse input XML: " ++ e)
  | Result.ok node => transformAndValidate c tr.validate tr.root (Context.xml node)

/-! ## Decoding a source (`encoding/json` on `transformInstructionJSON`) -/

/-- The rule of `encoding/json` that binds a member of a JSON object to the struct
field with the given tag: the key equals the tag, or equals it when case is ignored
(ASCII letters here). -/
def keyBinds (tag key : String) : Bool :=
  key = tag || key.data.map Char.toLower = tag.data.map Char.toLower

/-- The decoding of a JSON value into a Go `string` field holding `cur`: a text is
stored, null leaves the field as it is, anything else is a type error. -/
def decodeStringField (v : Value) (cur : String) : Except String String :=
  match v with
  | Value.str s => Except.ok s
  | Value.null => Except.ok cur
  | _ => Except.error "json: cannot unmarshal into Go struct field of type string"

/-- The members of a JSON object decoded in order into a `transformInstructionJSON`,
by the tags `json:"xmlPath"` and `json:"operations"` of its fields; members that bind
to no field are ignored. `decodeOps` is the decoding of the operations array
(standard library). -/
def decodeMembers (decodeOps : Value → Except String (List transformOperationJSON)) :
    Tree → transformInstructionJSON → Except String transformInstructionJSON
  | [], acc => Except.ok acc
  | (key, v) :: rest, acc =>
    if keyBinds "xmlPath" key then
      match decodeStringField v acc.XmlPath with
      | Except.error e => Except.error e
      | Except.ok s => decodeMembers decodeOps rest ⟨s, acc.Operations⟩
    else if keyBinds "operations" key then
      match decodeOps v with
      | Except.error e => Except.error e
      | Except.ok ops => decodeMembers decodeOps rest ⟨acc.XmlPath, ops⟩
    else decodeMembers decodeOps rest acc

/-- Go `json.Unmarshal(data, &jti)` for `var jti transformInstructionJSON`, on the
parsed JSON value. -/
def decodeInstructionJSON (decodeOps : Value → Except String (List transformOperationJSON))
    (data : Value) : Except String transformInstructionJSON :=
  match data with
  | Value.map obj => decodeMembers decodeOps obj ⟨"", []⟩
  | Value.null => Except.ok ⟨"", []⟩
  | _ => Except.error "json: cannot unmarshal into Go value of type transformInstructionJSON"

/-- The construction of a source from the JSON value that declares it: decoding, then
`transformInstructionXML.UnmarshalJSON`. -/
def constructSource (init : OpInit)
    (decodeOps : Value → Except String (List transformOperationJSON)) (data : Value) :
    Except String transformInstructionXML :=
  transformInstructionXML.UnmarshalJSON init (decodeInstructionJSON decodeOps data)

/-! ## Path rewriting and parents (`transform.go`, `json_transformer.go`, `xml_transformer.go`) -/

/-- Go `strings.HasPrefix` on characters. -/
def startsWith : List Char → List Char → Bool
  | _, [] => true
  | [], _ :: _ => false
  | c :: cs, d :: ds => c = d && startsWith cs ds

/-- Go `strings.Replace(s, old, new, 1)` on characters: the first occurrence of `old`
is replaced (an empty `old` occurs at the start). -/
def replaceOnce : List Char → List Char → List Char → List Char
  | [], old, new => if startsWith [] old then new else []
  | c :: cs, old, new =>
    if startsWith (c :: cs) old then new ++ (c :: cs).drop old.length
    else c :: replaceOnce cs old new

/-- Go `(tis *transformInstructions) replaceJSONPathPrefix(old, new)`; the result is
the receiver after the call (the instructions are updated in place). -/
def transformInstructions.replaceJSONPathPrefix (tis : transformInstructions)
    (old new : String) : transformInstructions :=
  ⟨tis.From.map (fun instruction =>
      if startsWith instruction.xmlPath.data old.data then
        ⟨String.mk (replaceOnce instruction.xmlPath.data old.data new.data),
          instruction.Operations⟩
      else instruction),
    tis.Method, tis.MethodOptions⟩

/-- Go `strings.Replace(path, "[", ".[", -1)` on characters. -/
def dotBrackets : List Char → List Char
  | [] => []
  | c :: cs => if c = '[' then '.' :: '[' :: dotBrackets cs else c :: dotBrackets cs

/-- The segments `findParent` works on: `strings.Split` at "." of the path in which
every "[" has become ".[". -/
def parentSegments (path : String) : List String :=
  split (String.mk (dotBrackets path.data)) '.'

/-- Go loop `for _, sp := range parentSplits` of `findParent`; `child` and
`selectChild` are the methods of `instanceTransformer`, which the sources do not
define. -/
def walkParents {N : Type} (child : N → N) (selectChild : N → String → N) :
    List String → N → N
  | [], parent => parent
  | sp :: rest, parent =>
    if sp = "[*]" then walkParents child selectChild rest (child parent)
    else walkParents child selectChild rest (selectChild parent sp)

/-- Go `(tr *JSONTransformer) findParent(path)`, for the root `tr.root`. -/
def JSONTransformer.findParent {N : Type} (child : N → N) (selectChild : N → String → N)
    (root : N) (path : String) : Result N :=
  match parentSegments path with
  | [] => Result.panic "index out of range"
  | s0 :: rest =>
    if s0 ≠ "$" then Result.error "paths must start with \x27$\x27"
    else
      match rest with
      | [] => Result.panic "slice bounds out of range"
      | _ :: _ => Result.ok (walkParents child selectChild rest.dropLast root)

/-- Go `(tr *XMLTransformer) findParent(path)`, for the root `tr.root`. -/
def XMLTransformer.findParent {N : Type} (child : N → N) (selectChild : N → String → N)
    (root : N) (path : String) : Result N :=
  match parentSegments path with
  | [] => Result.panic "index out of range"
  | s0 :: rest =>
    if s0 ≠ "$" then Result.error "paths must start with \x27$\x27"
    else
      match rest with
      | [] => Result.panic "slice bounds out of range"
      | _ :: _ => Result.ok (walkParents child selectChild rest.dropLast root)

/-! ## JSON references (`jsonschema/reference.go`) -/

/-- Go `jsonRef`. -/
structure jsonRef where
  Source : List String
  Target : String

mutual
/-- Go `walkInterface(node, source, refs)`. The `range` over the map visits the
entries in the order of the list (Go fixes no order); `reflect.TypeOf(val).Kind()` on
a nil member is a run-time failure. -/
def walkInterface : Value → List String → List jsonRef → Result (List jsonRef)
  | Value.map nodeMap, source, refs => walkMembers nodeMap source refs
  | _, _, _ => Result.error "failed assertion of node"
/-- Go loop `for key, val := range nodeMap` of `walkInterface`. -/
def walkMembers : List (String × Value) → List String → List jsonRef → Result (List jsonRef)
  | [], _, refs => Result.ok refs
  | (_, Value.null) :: _, _, _ => Result.panic "invalid memory address or nil pointer dereference"
  | (key, Value.str target) :: rest, source, refs =>
    if key = "$ref" then walkMembers rest source (refs ++ [⟨source, target⟩])
    else walkMembers rest source refs
  | (key, Value.seq valMap) :: rest, source, refs =>
    match walkItems valMap 0 key source refs with
    | Result.ok refs1 => walkMembers rest source refs1
    | Result.error e => Result.error e
    | Result.panic m => Result.panic m
  | (key, Value.map m) :: rest, source, refs =>
    match walkInterface (Value.map m) (source ++ [key]) refs with
    | Result.ok refs1 => walkMembers rest source refs1
    | Result.error e => Result.error ("unable to walk map interface: " ++ e)
    | Result.panic m => Result.panic m
  | (_, _) :: rest, source, refs => walkMembers rest source refs
/-- Go loop `for i, item := range valMap` of `walkInterface`, from index `i` on. -/
def walkItems : List Value → Nat → String → List String → List jsonRef →
    Result (List jsonRef)
  | [], _, _, _, refs => Result.ok refs
  | Value.map m :: rest, i, key, source, refs =>
    match walkInterface (Value.map m) (source ++ [key, toString i]) refs with
    | Result.ok refs1 => walkItems rest (i + 1) key source refs1
    | Result.error e => Result.error ("unable to walk slice interface: " ++ e)
    | Result.panic m => Result.panic m
  | _ :: rest, i, key, source, refs => walkItems rest (i + 1) key source refs
end

mutual
/-- No object that `walkInterface` reaches from the value has a null member. -/
def noNilMember : Value → Bool
  | Value.map m => noNilMembers m
  | _ => true
/-- The members of an object, for `noNilMember`. -/
def noNilMembers : List (String × Value) → Bool
  | [] => true
  | (_, Value.null) :: _ => false
  | (_, Value.seq xs) :: rest => noNilItems xs && noNilMembers rest
  | (_, Value.map m) :: rest => noNilMember (Value.map m) && noNilMembers rest
  | (_, _) :: rest => noNilMembers rest
/-- The elements of an array, for `noNilMember`. -/
def noNilItems : List Value → Bool
  | [] => true
  | Value.map m :: rest => noNilMember (Value.map m) && noNilItems rest
  | _ :: rest => noNilItems rest
end

/-- Go `m[k]` read as a value: nil when the key is absent. -/
def mgetD (m : Tree) (k : String) : Value :=
  match mget m k with
  | some v => v
  | none => Value.null

/-- Go `parseReference(source, refPaths)`. -/
def parseReference : Value → List String → Result Value
  | Value.map _, [] => Result.panic "index out of range"
  | Value.map sourceMap, [k] =>
    if k ≠ "" then Result.ok (mgetD sourceMap k) else Result.ok (Value.map sourceMap)
  | Value.map sourceMap, k :: k2 :: rest => parseReference (mgetD sourceMap k) (k2 :: rest)
  | _, _ => Result.ok Value.null

/-- Go `strings.Contains` on characters. -/
def containsChars : List Char → List Char → Bool
  | [], sub => startsWith [] sub
  | c :: cs, sub => startsWith (c :: cs) sub || containsChars cs sub

/-- What `dereference` uses besides the reference walk. The decoded document is a
graph of maps and slices that `dereference` updates in place, and a target stored in
it is shared, not copied: `H` is the state of that graph and `C` a position in it
(the variable `top`). `unmarshal` is `json.Unmarshal` into `data` (its error is
ignored by the code), `content` the document that `data` holds, `top` the
assignment `top := data`, `marshal` is `json.Marshal(data)`, and `body` is one pass
of the loop `for i, item := range ref.Source`: the `continue` for a top-level allOf
or oneOf, a step of `top`, or the replacement through `buildReference`, which may
read files and URLs. -/
structure RefGraph (H C : Type) where
  unmarshal : String → H
  content : H → Value
  top : H → C
  body : String → Bool → jsonRef → Nat → String → H × C → Result (H × C)
  marshal : H → Result String

/-- Go loop `for i, item := range ref.Source` of `dereference`, from index `i` on. -/
def dereferenceSource {H C : Type} (g : RefGraph H C) (schemaPath : String) (isTop : Bool)
    (ref : jsonRef) : List String → Nat → H × C → Result (H × C)
  | [], _, st => Result.ok st
  | item :: rest, i, st =>
    match g.body schemaPath isTop ref i item st with
    | Result.ok st1 => dereferenceSource g schemaPath isTop ref rest (i + 1) st1
    | Result.error e => Result.error e
    | Result.panic m => Result.panic m

/-- Go loop `for _, ref := range refs` of `dereference`. -/
def dereferenceRefs {H C : Type} (g : RefGraph H C) (schemaPath : String) (isTop : Bool) :
    List jsonRef → H → Result H
  | [], data => Result.ok data
  | ref :: rest, data =>
    match dereferenceSource g schemaPath isTop ref ref.Source 0 (data, g.top data) with
    | Result.ok st => dereferenceRefs g schemaPath isTop rest st.1
    | Result.error e => Result.error e
    | Result.panic m => Result.panic m

/-- Go `dereference(schemaPath, input, isTop)`. An error stands for the pair of the
input and the error that the code returns. -/
def dereference {H C : Type} (g : RefGraph H C) (schemaPath input : String)
    (isTop : Bool) : Result String :=
  if containsChars input.data "$ref".data = false then Result.ok input
  else
    match walkInterface (g.content (g.unmarshal input)) [] [] with
    | Result.error e =>
      Result.error ("unable to walk interface " ++ schemaPath ++ ": " ++ e)
    | Result.panic m => Result.panic m
    | Result.ok refs =>
      match dereferenceRefs g schemaPath isTop refs (g.unmarshal input) with
      | Result.ok data => g.marshal data
      | Result.error e => Result.error e
      | Result.panic m => Result.panic m

/-- The object reached from a JSON object by the key path `p` has a member
"$ref" whose value is the string `t`. A step of the path is the key of a member
object, or the key of a member array followed by the decimal position of an
element of it that is an object. -/
inductive RefAt : Value → List String → String → Prop
  | here (m : Tree) (t : String) :
      ("$ref", Value.str t) ∈ m → RefAt (Value.map m) [] t
  | member (m : Tree) (k : String) (e : Tree) (p : List String) (t : String) :
      (k, Value.map e) ∈ m → RefAt (Value.map e) p t → RefAt (Value.map m) (k :: p) t
  | item (m : Tree) (k : String) (xs : List Value) (i : Nat) (e : Tree)
      (p : List String) (t : String) :
      (k, Value.seq xs) ∈ m → xs[i]? = some (Value.map e) → RefAt (Value.map e) p t →
      RefAt (Value.map m) (k :: toString i :: p) t

/-- What the walk of the members of an object without null member returns: no
run-time failure and no error; the references it was given; and the reference
of every object reached from it, with the key path to that object after the
path of the object itself. -/
def MembersWalked (m : List (String × Value)) : Prop :=
  ∀ (source : List String) (refs : List jsonRef), noNilMembers m = true →
    ∃ r, walkMembers m source refs = Result.ok r ∧
      (∀ x ∈ refs, x ∈ r) ∧
      (∀ (p : List String) (t : String), RefAt (Value.map m) p t →
        (⟨source ++ p, t⟩ : jsonRef) ∈ r)

/-- What the walk of the elements of an array returns, from position `i0` on: no
run-time failure and no error, whatever the elements that are not objects; the
references it was given; and the references of every element that is an object. -/
def ItemsWalked (xs : List Value) : Prop :=
  ∀ (i0 : Nat) (key : String) (source : List String) (refs : List jsonRef),
    noNilItems xs = true →
    ∃ r, walkItems xs i0 key source refs = Result.ok r ∧
      (∀ x ∈ refs, x ∈ r) ∧
      (∀ (j : Nat) (e : Tree) (p : List String) (t : String),
        xs[j]? = some (Value.map e) → RefAt (Value.map e) p t →
        (⟨source ++ key :: toString (i0 + j) :: p, t⟩ : jsonRef) ∈ r)

/-- What `buildReference` reads outside the document: `http` is the request of the
URL and the decoding of its body, `file` the default case (the path of the file
next to `schemaPath`, the check against a loop, the read, `dereference` and the
decoding), each with the source it gives or the error it returns. -/
structure RefLoader where
  http : String → Result Value
  file : String → String → Result Value

/-- Go `buildReference(schemaPath, top, ref)`. -/
def buildReference (loader : RefLoader) (schemaPath : String) (top : Value) (ref : String) :
    Result Value :=
  let target := split ref '#'
  let target := if target.length < 2 then target ++ ["/"] else target
  match target with
  | t0 :: t1 :: _ =>
    let source :=
      if t0.length = 0 then Result.ok top
      else if startsWith t0.data "http".data then loader.http t0
      else loader.file schemaPath t0
    match source with
    | Result.panic m => Result.panic m
    | Result.error e => Result.error e
    | Result.ok (Value.map sourceMap) =>
      parseReference (Value.map sourceMap) ((split t1 '/').drop 1)
    | Result.ok _ => Result.error "failed assertion of source"
  | _ => Result.panic "index out of range"

/-! ## Struct generation (`generate/generate.go`) -/

/-- Go `strings.HasSuffix` on characters. -/
def hasSuffix (s suffix : List Char) : Bool :=
  decide (suffix.length ≤ s.length) && decide (s.drop (s.length - suffix.length) = suffix)

/-- Go loop `for _, split := range strings.Split(path, ".")` of `splitJSONPath`;
`tree` is the slice built so far. -/
def splitJSONPathItems : List String → List String → List String
  | [], tree => tree
  | sp :: rest, tree =>
    if sp = "$" then splitJSONPathItems rest tree
    else if hasSuffix sp.data "[*]".data then
      splitJSONPathItems rest (tree ++ [String.mk (sp.data.take (sp.data.length - 3))])
    else splitJSONPathItems rest (tree ++ [sp])

/-- Go `splitJSONPath(path)`. -/
def splitJSONPath (path : String) : List String :=
  splitJSONPathItems (split path '.') []

/-! ## Concrete inputs used below -/

/-- An environment in which the path "/none" matches nothing and any other path
matches one node, converted to the length of the path. -/
def exampleEnv : Env where
  find := fun _ p => if p = "/none" then some [] else some [⟨p.length⟩]
  convert := fun ns _ =>
    match ns with
    | n :: _ => Result.ok (Value.num n.id)
    | [] => Result.ok Value.null
  text := fun v =>
    match v with
    | Value.num n => toString n
    | _ => ""

/-- A source with path "/a", no operations. -/
def srcA : transformInstructionXML := ⟨"/a", []⟩

/-- A source with path "/bb", no operations. -/
def srcBB : transformInstructionXML := ⟨"/bb", []⟩

/-- A source whose path matches nothing. -/
def srcNone : transformInstructionXML := ⟨"/none", []⟩

/-- A source with path "/a" whose only operation rejects its input. -/
def srcFail : transformInstructionXML := ⟨"/a", [⟨fun _ => Result.error "rejected"⟩]⟩

/-- The rule `from: [/a, /bb], method: last`. -/
def lastSpec : transformInstructions := ⟨[srcA, srcBB], transformMethod.last, ⟨","⟩⟩

/-- The context of the examples. -/
def exampleCtx : Context := Context.xml ⟨0⟩

/-- Library calls for the examples: the input "bad" does not parse, any other input
parses to itself (JSON) or to a node numbered by its length (XML); only text is
encoded. -/
def exampleCodec : Codec where
  jsonUnmarshal := fun raw => if raw = "bad" then Result.error "syntax" else Result.ok (Value.str raw)
  xmlParse := fun raw => if raw = "bad" then Result.error "syntax" else Result.ok ⟨raw.length⟩
  jsonMarshal := fun v =>
    match v with
    | Value.str s => Result.ok s
    | _ => Result.error "unsupported"

/-- The validator of the examples: "invalid" is not valid, "broken" cannot be
validated, anything else is valid. -/
def exampleValidate (out : String) : Result Bool :=
  if out = "invalid" then Result.ok false
  else if out = "broken" then Result.error "schema"
  else Result.ok true

/-- A JSON transformer whose tree fails on "fail", yields a number on "num" and
copies any other text. -/
def exampleJSONTransformer : JSONTransformer where
  validate := exampleValidate
  root := fun ctx =>
    match ctx with
    | Context.json (Value.str s) =>
      if s = "fail" then Result.error "operation"
      else if s = "num" then Result.ok (Value.num 1)
      else Result.ok (Value.str s)
    | _ => Result.ok Value.null

/-- An XML transformer whose tree fails on node 4, yields a number on node 3, and
yields the texts "invalid", "broken" and "doc" on the nodes 7, 6 and any other. -/
def exampleXMLTransformer : XMLTransformer where
  validate := exampleValidate
  root := fun ctx =>
    match ctx with
    | Context.xml n =>
      if n.id = 4 then Result.error "operation"
      else if n.id = 3 then Result.ok (Value.num 1)
      else if n.id = 7 then Result.ok (Value.str "invalid")
      else if n.id = 6 then Result.ok (Value.str "broken")
      else Result.ok (Value.str "doc")
    | _ => Result.ok Value.null

/-- An environment in which every path matches node 1 and no conversion succeeds. -/
def convertFailsEnv : Env where
  find := fun _ _ => some [⟨1⟩]
  convert := fun _ _ => Result.error "cannot convert"
  text := fun _ => ""

/-- An operation that adds one to a number and rejects anything else. -/
def opInc : transformOperation :=
  ⟨fun v =>
    match v with
    | Value.num n => Result.ok (Value.num (n + 1))
    | _ => Result.error "not a number"⟩

/-- An operation that doubles a number and rejects anything else. -/
def opDouble : transformOperation :=
  ⟨fun v =>
    match v with
    | Value.num n => Result.ok (Value.num (2 * n))
    | _ => Result.error "not a number"⟩

/-- An operation that rejects every input. -/
def opReject : transformOperation := ⟨fun _ => Result.error "rejected"⟩

/-- A path rewrite that roots a relative path under "/root/". -/
def underRoot : pathModifier := some (fun p => "/root/" ++ p)

/-- An `init` that accepts every operation but `replace`, and configures `opInc`. -/
def exampleInit : OpInit := fun kind _ =>
  match kind with
  | OpKind.replace => Except.error "missing argument"
  | _ => Except.ok opInc

/-- The operation names `transformInstructionXML.UnmarshalJSON` accepts. -/
def knownOperations : List String :=
  ["changeCase", "duration", "inverse", "max", "replace", "split"]

/-- A decoding of the operations array for the examples: each element gives an
operation with its "type" and no arguments. -/
def exampleDecodeOps (v : Value) : Except String (List transformOperationJSON) :=
  match v with
  | Value.seq items =>
    Except.ok (items.map (fun item =>
      match item with
      | Value.map obj =>
        match mget obj "type" with
        | some (Value.str name) => ⟨name, []⟩
        | _ => ⟨"", []⟩
      | _ => ⟨"", []⟩))
  | Value.null => Except.ok []
  | _ => Except.error "json: cannot unmarshal into Go struct field of type []transformOperationJSON"

/-- The rule `from: [/a], method: first`. -/
def firstSpec : transformInstructions := ⟨[srcA], transformMethod.first, ⟨","⟩⟩

/-- The rule `from: [$.a.b, $.c], method: first`. -/
def pathsSpec : transformInstructions :=
  ⟨[⟨"$.a.b", [opInc]⟩, ⟨"$.c", []⟩], transformMethod.first, ⟨","⟩⟩

/-- The document `{"a": [null, {"$ref": "#/x"}, "s", 7]}`: an array with a null,
an object and two scalars. -/
def nilInArrayDoc : Tree :=
  [("a", Value.seq [Value.null, Value.map [("$ref", Value.str "#/x")], Value.str "s",
    Value.num 7])]

/-- The document `{"a": [[{"$ref": "#/x"}]], "x": {"type": "string"}}`: an object
with a reference, in an array that is an element of an array. -/
def nestedArrayDoc : Value :=
  Value.map [("a", Value.seq [Value.seq [Value.map [("$ref", Value.str "#/x")]]]),
    ("x", Value.map [("type", Value.str "string")])]

/-- The document `{"$ref": "#/definitions/a", "definitions": {"a": {"type":
"string"}}}`: a reference at the document root, internal and resolvable. -/
def rootRefDoc : Value :=
  Value.map [("$ref", Value.str "#/definitions/a"),
    ("definitions", Value.map [("a", Value.map [("type", Value.str "string")])])]

/-- The text of `rootRefDoc`. -/
def rootRefText : String :=
  "\x7b\"$ref\":\"#/definitions/a\",\"definitions\":\x7b\"a\":\x7b\"type\":\"string\"\x7d\x7d\x7d"

/-- A graph for `rootRefDoc` in which nothing is shared: the state is the document,
decoding gives `rootRefDoc`, and encoding gives `rootRefText` for a document that
has a "$ref" member at its root. -/
def rootRefGraph : RefGraph Value Value where
  unmarshal := fun _ => rootRefDoc
  content := fun data => data
  top := fun data => data
  body := fun _ _ _ _ _ st => Result.ok st
  marshal := fun data =>
    match data with
    | Value.map m =>
      match mget m "$ref" with
      | some _ => Result.ok rootRefText
      | none => Result.ok "\x7b\x7d"
    | _ => Result.ok "null"

/-- A loader for documents that refer to nothing outside: every request and every
file read fails. -/
def noLoader : RefLoader where
  http := fun uri => Result.error ("unable to get reference from " ++ uri)
  file := fun _ name => Result.error ("failed to read reference file " ++ quote name)

/-- A loader that knows one file, "defs.json", holding `{"type": "string"}`. -/
def oneFileLoader : RefLoader where
  http := fun uri => Result.error ("unable to get reference from " ++ uri)
  file := fun _ name =>
    if name = "defs.json" then Result.ok (Value.map [("type", Value.str "string")])
    else Result.error ("failed to read reference file " ++ quote name)

/-- The schema `{"type": "string", "default": null}`: an object with a null member. -/
def nullMemberDoc : Value :=
  Value.map [("type", Value.str "string"), ("default", Value.null)]

/-! # Properties -/

/-! ## Rule evaluation -/

/-- C1, evaluated at the rule `from: [/a, /bb], method: last`: the first call returns
the result of "/bb" and leaves the source list reversed, and the second call on the
same rule and input returns the result of "/a". -/
theorem transform_last_reverses_From :
    (lastSpec.transform exampleEnv exampleCtx "number" none).1 = Result.ok (Value.num 3) ∧
    (lastSpec.transform exampleEnv exampleCtx "number" none).2.From.map
      (fun s => s.xmlPath) = ["/bb", "/a"] ∧
    lastSpec.From.map (fun s => s.xmlPath) = ["/a", "/bb"] ∧
    ((lastSpec.transform exampleEnv exampleCtx "number" none).2.transform
      exampleEnv exampleCtx "number" none).1 = Result.ok (Value.num 2) :=
  ⟨rfl, rfl, rfl, rfl⟩

theorem combine_skip_nil (env : Env) (d : String) (input : Context) (ft : String)
    (md : pathModifier) (rest : List transformInstructionXML) :
    ∀ pre : List transformInstructionXML,
      (∀ e ∈ pre, e.transform env input ft md = Result.ok Value.null) →
      combine env false d input ft md (pre ++ rest) Value.null
        = combine env false d input ft md rest Value.null := by
  intro pre
  induction pre with
  | nil => intro _; rfl
  | cons e pre ih =>
    intro h
    have he := h e (List.mem_cons_self _ _)
    have hpre : ∀ x ∈ pre, x.transform env input ft md = Result.ok Value.null :=
      fun x hx => h x (List.mem_cons_of_mem _ hx)
    simp [combine, he, Value.isNil, ih hpre]

/-- C3: with method First, if every source before `s` yields nil without error and
`s` yields the non-nil `v`, the call returns `v` whatever the later sources `post`
are (they are not evaluated), and the rule is left as it was; and if every source
yields nil, the call returns nil with no error. -/
theorem transform_first (env : Env) (tis : transformInstructions) (input : Context)
    (ft : String) (md : pathModifier) (hm : tis.Method = transformMethod.first) :
    (∀ (pre post : List transformInstructionXML) (s : transformInstructionXML) (v : Value),
      tis.From = pre ++ s :: post →
      (∀ e ∈ pre, e.transform env input ft md = Result.ok Value.null) →
      s.transform env input ft md = Result.ok v → v.isNil = false →
      tis.transform env input ft md = (Result.ok v, tis)) ∧
    ((∀ e ∈ tis.From, e.transform env input ft md = Result.ok Value.null) →
      tis.transform env input ft md = (Result.ok Value.null, tis)) := by
  constructor
  · intro pre post s v hF hpre hs hv
    simp only [transformInstructions.transform, hm, hF]
    rw [combine_skip_nil env _ input ft md (s :: post) pre hpre]
    simp [combine, hs, hv]
  · intro hall
    simp only [transformInstructions.transform, hm]
    have := combine_skip_nil env tis.MethodOptions.ConcatenateDelimiter input ft md [] tis.From hall
    rw [List.append_nil] at this
    rw [this]
    rfl

/-- Witness of C3 on `from: [/none, /a, /bb]` and on `from: [/none]`. -/
theorem transform_first_witness :
    (transformInstructions.mk [srcNone, srcA, srcBB] transformMethod.first ⟨","⟩).transform
        exampleEnv exampleCtx "number" none
      = (Result.ok (Value.num 2),
          transformInstructions.mk [srcNone, srcA, srcBB] transformMethod.first ⟨","⟩) ∧
    (transformInstructions.mk [srcNone] transformMethod.first ⟨","⟩).transform
        exampleEnv exampleCtx "number" none
      = (Result.ok Value.null, transformInstructions.mk [srcNone] transformMethod.first ⟨","⟩) :=
  ⟨(transform_first exampleEnv ⟨[srcNone, srcA, srcBB], transformMethod.first, ⟨","⟩⟩
      exampleCtx "number" none rfl).1 [srcNone] [srcBB] srcA (Value.num 2) rfl
      (by intro e he; simp at he; subst he; rfl) rfl rfl,
   (transform_first exampleEnv ⟨[srcNone], transformMethod.first, ⟨","⟩⟩
      exampleCtx "number" none rfl).2 (by intro e he; simp at he; subst he; rfl)⟩

/-- A call on a rule with method Last whose source list is `[s0, s1]` when the call
starts: it returns the result of `s1` when it is non-nil, and the result of `s0`
when `s1` yields nil. -/
theorem transform_last_two (env : Env) (s0 s1 : transformInstructionXML)
    (opts : methodOptions) (input : Context) (ft : String) (md : pathModifier) :
    (∀ v, s1.transform env input ft md = Result.ok v → v.isNil = false →
      ((transformInstructions.mk [s0, s1] transformMethod.last opts).transform
        env input ft md).1 = Result.ok v) ∧
    (s1.transform env input ft md = Result.ok Value.null →
      ((transformInstructions.mk [s0, s1] transformMethod.last opts).transform
        env input ft md).1 = s0.transform env input ft md) := by
  constructor
  · intro v h1 hv
    simp [transformInstructions.transform, combine, h1, hv]
  · intro h1
    simp only [transformInstructions.transform, List.reverse_cons, List.reverse_nil,
      List.nil_append, List.singleton_append, combine, h1, Value.isNil]
    cases h0 : s0.transform env input ft md with
    | ok v =>
      cases v <;> simp [Value.isNil]
    | error e => simp
    | panic m => simp

/-- The call on `from: [/a, /bb]` and on `from: [/a, /none]`, from the list as
declared. -/
theorem transform_last_two_witness :
    ((transformInstructions.mk [srcA, srcBB] transformMethod.last ⟨","⟩).transform
        exampleEnv exampleCtx "number" none).1 = Result.ok (Value.num 3) ∧
    ((transformInstructions.mk [srcA, srcNone] transformMethod.last ⟨","⟩).transform
        exampleEnv exampleCtx "number" none).1
      = srcA.transform exampleEnv exampleCtx "number" none :=
  ⟨(transform_last_two exampleEnv srcA srcBB ⟨","⟩ exampleCtx "number" none).1
      (Value.num 3) rfl rfl,
   (transform_last_two exampleEnv srcA srcNone ⟨","⟩ exampleCtx "number" none).2 rfl⟩

/-- C4, evaluated on a rule that is used again: a rule with method Last declared
with the sources `s0`, `s1`, both of which yield a non-nil result. The first call
returns the result of `s1` and leaves the source list of the rule reversed, so the
second call on the same rule and input tries `s0` first and returns its result,
although the last-declared `s1` still yields a non-nil result. -/
theorem transform_last_second_call (env : Env) (s0 s1 : transformInstructionXML)
    (opts : methodOptions) (input : Context) (ft : String) (md : pathModifier)
    (v0 v1 : Value)
    (h0 : s0.transform env input ft md = Result.ok v0) (hv0 : v0.isNil = false)
    (h1 : s1.transform env input ft md = Result.ok v1) (hv1 : v1.isNil = false) :
    ((transformInstructions.mk [s0, s1] transformMethod.last opts).transform
      env input ft md).1 = Result.ok v1 ∧
    ((transformInstructions.mk [s0, s1] transformMethod.last opts).transform
      env input ft md).2 = transformInstructions.mk [s1, s0] transformMethod.last opts ∧
    (((transformInstructions.mk [s0, s1] transformMethod.last opts).transform
      env input ft md).2.transform env input ft md).1 = Result.ok v0 ∧
    ((((transformInstructions.mk [s0, s1] transformMethod.last opts).transform
      env input ft md).2.transform env input ft md).2.transform env input ft md).1
      = Result.ok v1 := by
  refine ⟨?_, rfl, ?_, ?_⟩
  · simp [transformInstructions.transform, combine, h1, hv1]
  · simp [transformInstructions.transform, combine, h0, hv0]
  · simp [transformInstructions.transform, combine, h1, hv1]

/-- The rule `from: [/a, /bb], method: last` on an input where "/a" gives 2 and
"/bb" gives 3: the first call returns 3, the second call 2, the third call 3. -/
theorem transform_last_second_call_witness :
    srcA.transform exampleEnv exampleCtx "number" none = Result.ok (Value.num 2) ∧
    srcBB.transform exampleEnv exampleCtx "number" none = Result.ok (Value.num 3) ∧
    (((transformInstructions.mk [srcA, srcBB] transformMethod.last ⟨","⟩).transform
      exampleEnv exampleCtx "number" none).1 = Result.ok (Value.num 3) ∧
    ((transformInstructions.mk [srcA, srcBB] transformMethod.last ⟨","⟩).transform
      exampleEnv exampleCtx "number" none).2
      = transformInstructions.mk [srcBB, srcA] transformMethod.last ⟨","⟩ ∧
    (((transformInstructions.mk [srcA, srcBB] transformMethod.last ⟨","⟩).transform
      exampleEnv exampleCtx "number" none).2.transform
      exampleEnv exampleCtx "number" none).1 = Result.ok (Value.num 2) ∧
    ((((transformInstructions.mk [srcA, srcBB] transformMethod.last ⟨","⟩).transform
      exampleEnv exampleCtx "number" none).2.transform
      exampleEnv exampleCtx "number" none).2.transform
      exampleEnv exampleCtx "number" none).1 = Result.ok (Value.num 3)) :=
  ⟨rfl, rfl,
   transform_last_second_call exampleEnv srcA srcBB ⟨","⟩ exampleCtx "number" none
      (Value.num 2) (Value.num 3) rfl rfl rfl rfl⟩

theorem isNil_null : Value.null.isNil = true := rfl

theorem isNil_str (a : String) : (Value.str a).isNil = false := rfl

theorem concat_ok (env : Env) (a b : Value) (d : String) :
    ∃ r, concat env a b d = Result.ok r := by
  unfold concat
  split
  · exact ⟨_, rfl⟩
  · split <;> exact ⟨_, rfl⟩

theorem combine_concat_text (env : Env) (d : String) (input : Context) (ft : String)
    (md : pathModifier) (srcs : List transformInstructionXML) (vs : List Value)
    (h : List.Forall₂ (fun s v => s.transform env input ft md = Result.ok v) srcs vs) :
    ∀ a : String, combine env true d input ft md srcs (Value.str a)
      = Result.ok (Value.str (String.intercalate.go a d
          ((vs.filter (fun v => !v.isNil)).map (asText env)))) := by
  induction h with
  | nil => intro a; rfl
  | @cons s v srcs vs hsv _ ih =>
    intro a
    cases hv : v.isNil with
    | true =>
      simp [combine, hsv, concat, hv, ih a]
    | false =>
      simp [combine, hsv, concat, hv, isNil_str, asText, ih, String.intercalate.go]

theorem combine_concat_nil (env : Env) (d : String) (input : Context) (ft : String)
    (md : pathModifier) (srcs : List transformInstructionXML) (vs : List Value)
    (h : List.Forall₂ (fun s v => s.transform env input ft md = Result.ok v) srcs vs) :
    combine env true d input ft md srcs Value.null = Result.ok (joinNonNil env d vs) := by
  induction h with
  | nil => rfl
  | @cons s v srcs vs hsv hrest ih =>
    cases hv : v.isNil with
    | true =>
      simp [combine, hsv, concat, hv, ih, joinNonNil]
    | false =>
      simp [combine, hsv, concat, hv, isNil_null, joinNonNil,
        combine_concat_text env d input ft md srcs vs hrest, String.intercalate]

theorem combine_concat_error (env : Env) (d : String) (input : Context) (ft : String)
    (md : pathModifier) (s : transformInstructionXML) (post : List transformInstructionXML)
    (e : String) (hs : s.transform env input ft md = Result.error e) :
    ∀ (pre : List transformInstructionXML) (acc : Value),
      (∀ x ∈ pre, ∃ v, x.transform env input ft md = Result.ok v) →
      combine env true d input ft md (pre ++ s :: post) acc = Result.error e := by
  intro pre
  induction pre with
  | nil => intro acc _; simp [combine, hs]
  | cons x pre ih =>
    intro acc h
    obtain ⟨v, hx⟩ := h x (List.mem_cons_self _ _)
    obtain ⟨r, hr⟩ := concat_ok env acc v d
    have hpre : ∀ y ∈ pre, ∃ v, y.transform env input ft md = Result.ok v :=
      fun y hy => h y (List.mem_cons_of_mem _ hy)
    simp [combine, hx, hr, ih r hpre]

/-- C5: with method Concatenate, if the sources yield `vs` (in declared order, none
failing) the call returns the non-nil values of `vs` joined as text by the
configured delimiter, nil when all of them are nil; and if a source fails after
sources that did not, the call returns its error. -/
theorem transform_concatenate (env : Env) (tis : transformInstructions) (input : Context)
    (ft : String) (md : pathModifier) (hm : tis.Method = transformMethod.concatenate) :
    (∀ vs : List Value,
      List.Forall₂ (fun s v => s.transform env input ft md = Result.ok v) tis.From vs →
      tis.transform env input ft md
        = (Result.ok (joinNonNil env tis.MethodOptions.ConcatenateDelimiter vs), tis)) ∧
    (∀ vs : List Value,
      List.Forall₂ (fun s v => s.transform env input ft md = Result.ok v) tis.From vs →
      (∀ v ∈ vs, v.isNil = true) →
      tis.transform env input ft md = (Result.ok Value.null, tis)) ∧
    (∀ (pre post : List transformInstructionXML) (s : transformInstructionXML) (e : String),
      tis.From = pre ++ s :: post →
      (∀ x ∈ pre, ∃ v, x.transform env input ft md = Result.ok v) →
      s.transform env input ft md = Result.error e →
      (tis.transform env input ft md).1 = Result.error e) := by
  refine ⟨?_, ?_, ?_⟩
  · intro vs h
    simp only [transformInstructions.transform, hm]
    rw [combine_concat_nil env _ input ft md tis.From vs h]
  · intro vs h hnil
    simp only [transformInstructions.transform, hm]
    rw [combine_concat_nil env _ input ft md tis.From vs h]
    have : vs.filter (fun v => !v.isNil) = [] := by
      rw [List.filter_eq_nil_iff]
      intro v hv
      simp [hnil v hv]
    simp [joinNonNil, this]
  · intro pre post s e hF hpre hs
    simp only [transformInstructions.transform, hm, hF]
    exact combine_concat_error env _ input ft md s post e hs pre Value.null hpre

/-- Witness of C5 on `from: [/a, /none, /bb]`, on `from: [/none, /none]` and on a
rule whose second source fails. -/
theorem transform_concatenate_witness :
    (transformInstructions.mk [srcA, srcNone, srcBB] transformMethod.concatenate ⟨","⟩).transform
        exampleEnv exampleCtx "number" none
      = (Result.ok (Value.str "2,3"),
          transformInstructions.mk [srcA, srcNone, srcBB] transformMethod.concatenate ⟨","⟩) ∧
    (transformInstructions.mk [srcNone, srcNone] transformMethod.concatenate ⟨","⟩).transform
        exampleEnv exampleCtx "number" none
      = (Result.ok Value.null,
          transformInstructions.mk [srcNone, srcNone] transformMethod.concatenate ⟨","⟩) ∧
    ((transformInstructions.mk [srcA, srcFail, srcBB] transformMethod.concatenate ⟨","⟩).transform
        exampleEnv exampleCtx "number" none).1
      = Result.error "failed operation on value from JSONPath \"/a\": rejected" :=
  ⟨(transform_concatenate exampleEnv ⟨[srcA, srcNone, srcBB], transformMethod.concatenate, ⟨","⟩⟩
      exampleCtx "number" none rfl).1 [Value.num 2, Value.null, Value.num 3]
      (List.Forall₂.cons rfl (List.Forall₂.cons rfl (List.Forall₂.cons rfl List.Forall₂.nil))),
   (transform_concatenate exampleEnv ⟨[srcNone, srcNone], transformMethod.concatenate, ⟨","⟩⟩
      exampleCtx "number" none rfl).2.1 [Value.null, Value.null]
      (List.Forall₂.cons rfl (List.Forall₂.cons rfl List.Forall₂.nil))
      (by intro v hv; simp at hv; subst hv; rfl),
   (transform_concatenate exampleEnv ⟨[srcA, srcFail, srcBB], transformMethod.concatenate, ⟨","⟩⟩
      exampleCtx "number" none rfl).2.2 [srcA] [srcBB] srcFail _ rfl
      (by intro x hx; simp at hx; subst hx; exact ⟨_, rfl⟩) rfl⟩

/-! ## The output assembler -/

/-- C6: storing the nil value returns no error and leaves the tree unchanged, for
every tree and every path. -/
theorem saveInTree_nil (tree : Tree) (path : String) :
    saveInTree tree path Value.null = (tree, Status.ok) := by
  unfold saveInTree
  rcases split path '.' with _ | ⟨s0, _ | ⟨s, rest⟩⟩ <;> simp [saveInTreeSplits, isNil_null]

/-! ### Maps and strings -/

theorem mget_mset_same (m : Tree) (k : String) (v : Value) : mget (mset m k v) k = some v := by
  induction m with
  | nil => simp [mset, mget]
  | cons kv m ih =>
    obtain ⟨k1, v1⟩ := kv
    by_cases h : k1 = k
    · simp [mset, mget, h]
    · simp [mset, mget, h, ih]

theorem mget_mset_other (m : Tree) (k k2 : String) (v : Value) (hne : k2 ≠ k) :
    mget (mset m k v) k2 = mget m k2 := by
  induction m with
  | nil => simp [mset, mget, Ne.symm hne]
  | cons kv m ih =>
    obtain ⟨k1, v1⟩ := kv
    by_cases h : k1 = k
    · subst h
      simp [mset, mget, Ne.symm hne]
    · by_cases h2 : k1 = k2
      · subst h2
        simp [mset, mget, h]
      · simp [mset, mget, h, h2, ih]

theorem splitChars_not_mem (sep : Char) (a : List Char) (h : sep ∉ a) :
    splitChars sep a = [a] := by
  induction a with
  | nil => rfl
  | cons c cs ih =>
    have hc : c ≠ sep := fun e => h (by simp [e])
    have hcs : sep ∉ cs := fun e => h (List.mem_cons_of_mem _ e)
    simp [splitChars, hc, ih hcs]

theorem splitChars_append_sep (sep : Char) (a b : List Char) (h : sep ∉ a) :
    splitChars sep (a ++ sep :: b) = a :: splitChars sep b := by
  induction a with
  | nil => simp [splitChars]
  | cons c cs ih =>
    have hc : c ≠ sep := fun e => h (by simp [e])
    have hcs : sep ∉ cs := fun e => h (List.mem_cons_of_mem _ e)
    simp [splitChars, hc, ih hcs]

theorem split_not_mem (sep : Char) (k : String) (h : sep ∉ k.data) : split k sep = [k] := by
  simp [split, splitChars_not_mem sep k.data h]

theorem splitChars_join (keys : List String) (hne : keys ≠ [])
    (hk : ∀ k ∈ keys, '.' ∉ k.data) :
    splitChars '.' (join keys ".").data = keys.map String.data := by
  induction keys with
  | nil => exact absurd rfl hne
  | cons a rest ih =>
    cases rest with
    | nil => simp [join, splitChars_not_mem '.' a.data (hk a (by simp))]
    | cons b rest =>
      have ha : '.' ∉ a.data := hk a (by simp)
      have hrest : ∀ k ∈ b :: rest, '.' ∉ k.data := fun k hk2 => hk k (List.mem_cons_of_mem _ hk2)
      have := ih (by simp) hrest
      simp only [join, String.data_append, List.append_assoc]
      have hd : (".") = String.mk ['.'] := rfl
      rw [hd]
      simp only [List.singleton_append]
      rw [splitChars_append_sep '.' a.data _ ha, this]
      simp

/-- The recursive call of `saveInTree` on `strings.Join(splits[1:], ".")` splits into
`splits[1:]` again. -/
theorem split_join (keys : List String) (hne : keys ≠ []) (hk : ∀ k ∈ keys, '.' ∉ k.data) :
    split (join keys ".") '.' = keys := by
  simp only [split, splitChars_join keys hne hk, List.map_map]
  conv_rhs => rw [← List.map_id keys]
  apply List.map_congr_left
  intro k _
  rfl

theorem split_root_join (keys : List String) (hne : keys ≠ [])
    (hk : ∀ k ∈ keys, '.' ∉ k.data) :
    split ("$." ++ join keys ".") '.' = "$" :: keys := by
  have h0 : ("$." : String) = String.mk ('$' :: '.' :: []) := rfl
  have h1 : splitChars '.' ('$' :: '.' :: (join keys ".").data)
      = ['$'] :: splitChars '.' (join keys ".").data :=
    splitChars_append_sep '.' ['$'] _ (by decide)
  simp only [split, String.data_append, h0, List.cons_append, List.nil_append, h1,
    splitChars_join keys hne hk, List.map_cons, List.map_map]
  congr 1
  conv_rhs => rw [← List.map_id keys]
  apply List.map_congr_left
  intro k _
  rfl

/-! ### Plain paths -/

theorem saveLeaf_plain (tree : Tree) (k : String) (v : Value) (hk : '[' ∉ k.data) :
    saveLeaf tree k v = (mset tree k v, Status.ok) := by
  simp [saveLeaf, split_not_mem '[' k hk]

theorem saveInTreeSplits_root (k : String) (rest : List String) (tree : Tree) (v : Value) :
    saveInTreeSplits ("$" :: k :: rest) tree v = saveInTreeSplits (k :: rest) tree v ∨
    k = "$" := by
  by_cases hk : k = "$"
  · exact Or.inr hk
  · left
    cases hv : v.isNil with
    | true => cases rest <;> simp [saveInTreeSplits, hv]
    | false => cases rest <;> simp [saveInTreeSplits, hv, hk]

theorem plainParents_nil (keys : List String) : plainParents [] keys = true := by
  rcases keys with _ | ⟨k, _ | ⟨k2, ks⟩⟩ <;> simp [plainParents, mget]

theorem get_mset_key (tree : Tree) (k : String) (x : Value) (ps : List Step) :
    (Value.map (mset tree k x)).get (Step.key k :: ps) = x.get ps := by
  simp [Value.get, mget_mset_same]

theorem saveInTreeSplits_plain (v : Value) (hv : v.isNil = false) :
    ∀ (keys : List String) (tree : Tree), keys ≠ [] →
      (∀ k ∈ keys, '[' ∉ k.data ∧ k ≠ "$") → plainParents tree keys = true →
      (saveInTreeSplits keys tree v).2 = Status.ok ∧
      (Value.map (saveInTreeSplits keys tree v).1).get (keys.map Step.key) = some v := by
  intro keys
  induction keys with
  | nil => intro _ h; exact absurd rfl h
  | cons k rest ih =>
    intro tree _ hk hp
    obtain ⟨hkb, hkd⟩ := hk k (by simp)
    cases rest with
    | nil =>
      simp [saveInTreeSplits, hv, hkd, saveInTreeStep, saveLeaf_plain tree k v hkb,
        Value.get, mget_mset_same]
    | cons k2 ks =>
      have hrest : ∀ x ∈ k2 :: ks, '[' ∉ x.data ∧ x ≠ "$" :=
        fun x hx => hk x (List.mem_cons_of_mem _ hx)
      have hstep : saveInTreeSplits (k :: k2 :: ks) tree v
          = saveInTreeStep k false (fun t => saveInTreeSplits (k2 :: ks) t v) tree v := by
        simp [saveInTreeSplits, hv, hkd]
      rw [hstep]
      simp only [saveInTreeStep, split_not_mem '[' k hkb]
      cases hg : mget tree k with
      | none =>
        have := ih [] (by simp) hrest (plainParents_nil _)
        simpa [get_mset_key] using this
      | some x =>
        cases x with
        | null =>
          have := ih [] (by simp) hrest (plainParents_nil _)
          simpa [get_mset_key] using this
        | map m =>
          have hpm : plainParents m (k2 :: ks) = true := by
            simpa [plainParents, hg] using hp
          have := ih m (by simp) hrest hpm
          simpa [get_mset_key] using this
        | str _ => simp [plainParents, hg] at hp
        | num _ => simp [plainParents, hg] at hp
        | bool _ => simp [plainParents, hg] at hp
        | nodes _ => simp [plainParents, hg] at hp
        | seq _ => simp [plainParents, hg] at hp

/-- C7: read-after-write for plain paths. For keys `k1..kn` (n >= 1) that hold no
"." and no "[" and are not "$", a tree in which every proper prefix of the key path
is absent, null or a mapping, and a non-nil `v`, `saveInTree` on the path
"$.k1.….kn" returns no error, and following `k1..kn` from the root of the tree it
leaves yields `v`. -/
theorem saveInTree_plain_read_after_write (tree : Tree) (keys : List String) (v : Value)
    (hne : keys ≠ []) (hk : ∀ k ∈ keys, plainKey k)
    (hp : plainParents tree keys = true) (hv : v.isNil = false) :
    (saveInTree tree ("$." ++ join keys ".") v).2 = Status.ok ∧
    (Value.map (saveInTree tree ("$." ++ join keys ".") v).1).get (keys.map Step.key)
      = some v := by
  have hsplit := split_root_join keys hne (fun k h => (hk k h).1)
  unfold saveInTree
  rw [hsplit]
  obtain ⟨k, rest, rfl⟩ := List.exists_cons_of_ne_nil hne
  have hkk := hk k (by simp)
  rcases saveInTreeSplits_root k rest tree v with h | h
  · rw [h]
    exact saveInTreeSplits_plain v hv (k :: rest) tree hne
      (fun x hx => ⟨(hk x hx).2.1, (hk x hx).2.2⟩) hp
  · exact absurd h hkk.2.2

/-- Witness of C7: "$.test1.testB" in a tree whose "test1" is a mapping. -/
theorem saveInTree_plain_read_after_write_witness :
    (saveInTree [("test1", Value.map [("testA", Value.str "a")])]
      ("$." ++ join ["test1", "testB"] ".") (Value.str "B")).2 = Status.ok ∧
    (Value.map (saveInTree [("test1", Value.map [("testA", Value.str "a")])]
      ("$." ++ join ["test1", "testB"] ".") (Value.str "B")).1).get
        (["test1", "testB"].map Step.key) = some (Value.str "B") :=
  saveInTree_plain_read_after_write [("test1", Value.map [("testA", Value.str "a")])]
    ["test1", "testB"] (Value.str "B") (by simp)
    (by
      intro k hk
      simp at hk
      rcases hk with rfl | rfl <;> (unfold plainKey; decide))
    rfl rfl

/-! ### Decimal indices -/

theorem digitVal_digitChar (k : Nat) (hk : k < 10) : digitVal (Nat.digitChar k) = some k := by
  interval_cases k <;> rfl

theorem toDigitsCore_append (fuel : Nat) :
    ∀ (n : Nat) (ds : List Char),
      Nat.toDigitsCore 10 fuel n ds = Nat.toDigitsCore 10 fuel n [] ++ ds := by
  induction fuel with
  | zero => intro n ds; simp [Nat.toDigitsCore]
  | succ fuel ih =>
    intro n ds
    simp only [Nat.toDigitsCore]
    split
    · simp
    · rw [ih (n / 10) (Nat.digitChar (n % 10) :: ds), ih (n / 10) [Nat.digitChar (n % 10)]]
      simp

theorem parseDigits_append (xs ys : List Char) :
    ∀ acc, parseDigits (xs ++ ys) acc = (parseDigits xs acc).bind (parseDigits ys) := by
  induction xs with
  | nil => intro acc; simp [parseDigits]
  | cons c cs ih =>
    intro acc
    simp only [List.cons_append, parseDigits]
    cases digitVal c with
    | none => simp
    | some d => simp [ih]

theorem parseDigits_toDigitsCore (fuel : Nat) :
    ∀ n, n < fuel → parseDigits (Nat.toDigitsCore 10 fuel n []) 0 = some n := by
  induction fuel with
  | zero => intro n h; omega
  | succ fuel ih =>
    intro n h
    simp only [Nat.toDigitsCore]
    have hd := digitVal_digitChar (n % 10) (Nat.mod_lt _ (by decide))
    split
    · rename_i h0
      simp only [parseDigits, hd]
      congr 1
      omega
    · rename_i h0
      rw [toDigitsCore_append, parseDigits_append, ih (n / 10) (by omega)]
      simp only [Option.bind, parseDigits, hd]
      congr 1
      omega

theorem toDigitsCore_digits (fuel : Nat) :
    ∀ (n : Nat) (ds : List Char), (∀ c ∈ ds, (digitVal c).isSome = true) →
      ∀ c ∈ Nat.toDigitsCore 10 fuel n ds, (digitVal c).isSome = true := by
  induction fuel with
  | zero => intro n ds h; simpa [Nat.toDigitsCore] using h
  | succ fuel ih =>
    intro n ds h
    have hd := digitVal_digitChar (n % 10) (Nat.mod_lt _ (by decide))
    have hcons : ∀ c ∈ Nat.digitChar (n % 10) :: ds, (digitVal c).isSome = true := by
      intro c hc
      rcases List.mem_cons.mp hc with rfl | hc
      · simp [hd]
      · exact h c hc
    simp only [Nat.toDigitsCore]
    split
    · exact hcons
    · exact ih _ _ hcons

theorem toDigits_ne_nil (n : Nat) : Nat.toDigits 10 n ≠ [] := by
  simp only [Nat.toDigits, Nat.toDigitsCore]
  split
  · simp
  · rw [toDigitsCore_append]
    simp

theorem toString_data (n : Nat) : (toString n).data = Nat.toDigits 10 n := rfl

theorem toDigits_digits (n : Nat) : ∀ c ∈ Nat.toDigits 10 n, (digitVal c).isSome = true :=
  toDigitsCore_digits (n + 1) n [] (by simp)

theorem toDigits_not_mem (n : Nat) (c : Char) (hc : digitVal c = none) :
    c ∉ Nat.toDigits 10 n := by
  intro h
  have := toDigits_digits n c h
  simp [hc] at this

theorem atoi_toString (n : Nat) (hn : n < 2 ^ 63) : atoi (toString n) = some (n : Int) := by
  have hp : parseDigits (Nat.toDigits 10 n) 0 = some n :=
    parseDigits_toDigitsCore (n + 1) n (by omega)
  have hne := toDigits_ne_nil n
  have hminus : '-' ∉ Nat.toDigits 10 n := toDigits_not_mem n '-' (by decide)
  have hplus : '+' ∉ Nat.toDigits 10 n := toDigits_not_mem n '+' (by decide)
  unfold atoi
  rw [toString_data]
  cases hds : Nat.toDigits 10 n with
  | nil => exact absurd hds hne
  | cons c cs =>
    rw [hds] at hp hminus hplus
    have h1 : c ≠ '-' := fun e => hminus (by simp [e])
    have h2 : c ≠ '+' := fun e => hplus (by simp [e])
    have hn2 : n < 9223372036854775808 := by simpa using hn
    simp [h1, h2, hp, hn2]

theorem trimLeftChars_not_mem (c : Char) (l : List Char) (h : c ∉ l) :
    trimLeftChars c l = l := by
  cases l with
  | nil => rfl
  | cons d ds =>
    have : d ≠ c := fun e => h (by simp [e])
    simp [trimLeftChars, this]

theorem trim_index (n : Nat) : trim (toString n ++ "]") ']' = toString n := by
  have hnot : ']' ∉ Nat.toDigits 10 n := toDigits_not_mem n ']' (by decide)
  have hne := toDigits_ne_nil n
  have hb : ("]" : String).data = [']'] := rfl
  unfold trim
  rw [String.data_append, toString_data, hb]
  cases hds : Nat.toDigits 10 n with
  | nil => exact absurd hds hne
  | cons c cs =>
    rw [hds] at hnot
    have hc : c ≠ ']' := fun e => hnot (by simp [e])
    have hrev : ']' ∉ (c :: cs).reverse := fun h => hnot (List.mem_reverse.mp h)
    have h1 : trimLeftChars ']' (c :: cs ++ [']']) = c :: cs ++ [']'] := by
      simp [trimLeftChars, hc]
    have h2 : (c :: cs ++ [']']).reverse = ']' :: (c :: cs).reverse := by simp
    rw [h1, h2]
    have h3 : trimLeftChars ']' (']' :: (c :: cs).reverse) = (c :: cs).reverse := by
      rw [trimLeftChars]
      simp only [if_true]
      exact trimLeftChars_not_mem _ _ hrev
    rw [h3, List.reverse_reverse]
    show String.mk (c :: cs) = toString n
    rw [← hds]
    rfl

/-! ### Paths "$.k[i]" -/

theorem split_root_segment (seg : String) (h : '.' ∉ seg.data) :
    split ("$." ++ seg) '.' = ["$", seg] := by
  have h0 : ("$." : String).data = '$' :: '.' :: [] := rfl
  have h1 := splitChars_append_sep '.' ['$'] seg.data (by decide)
  simp only [List.cons_append, List.nil_append] at h1
  simp only [split, String.data_append, h0, List.cons_append, List.nil_append]
  rw [h1, splitChars_not_mem '.' _ h]
  rfl

theorem split_bracket (k t : String) (hk : '[' ∉ k.data) (ht : '[' ∉ t.data) :
    split (k ++ ("[" ++ t)) '[' = [k, t] := by
  have h1 : ("[" : String).data = ['['] := rfl
  simp only [split, String.data_append, h1, List.singleton_append]
  rw [splitChars_append_sep '[' k.data _ hk, splitChars_not_mem '[' _ ht]
  rfl

theorem split_indexPath (k : String) (i : Nat) (hk : '.' ∉ k.data) :
    split (indexPath k i) '.' = ["$", k ++ "[" ++ toString i ++ "]"] := by
  have hdot : '.' ∉ (k ++ "[" ++ toString i ++ "]").data := by
    have hd : '.' ∉ Nat.toDigits 10 i := toDigits_not_mem i '.' (by decide)
    have h1 : ("[" : String).data = ['['] := rfl
    have h2 : ("]" : String).data = [']'] := rfl
    simp only [String.data_append, toString_data, h1, h2, List.mem_append, List.mem_singleton]
    rintro (((h | h) | h) | h)
    · exact hk h
    · exact absurd h (by decide)
    · exact hd h
    · exact absurd h (by decide)
  have hp : indexPath k i = "$." ++ (k ++ "[" ++ toString i ++ "]") := by
    simp [indexPath, String.append_assoc]
  rw [hp]
  exact split_root_segment _ hdot

theorem split_indexSegment (k : String) (i : Nat) (hk : '[' ∉ k.data) :
    split (k ++ "[" ++ toString i ++ "]") '[' = [k, toString i ++ "]"] := by
  have hb : '[' ∉ (toString i ++ "]").data := by
    have hd : '[' ∉ Nat.toDigits 10 i := toDigits_not_mem i '[' (by decide)
    have h2 : ("]" : String).data = [']'] := rfl
    simp only [String.data_append, toString_data, h2, List.mem_append, List.mem_singleton]
    rintro (h | h)
    · exact hd h
    · exact absurd h (by decide)
  have hp : k ++ "[" ++ toString i ++ "]" = k ++ ("[" ++ (toString i ++ "]")) := by
    simp [String.append_assoc]
  rw [hp]
  exact split_bracket k _ hk hb

theorem saveInSlice_last (s : List Value) (i : Nat) (v : Value) (hi : i < 2 ^ 63) :
    saveInSlice [toString i ++ "]"] s v
      = Result.ok ⟨fun x => (grow s i).set i x, mergeValue v ((grow s i).getD i Value.null)⟩ := by
  simp [saveInSlice, trim_index, atoi_toString i hi]

/-- Storing at "$.k[i]": the slice under `k` is grown to hold the index and slot `i`
receives the value, merged with the mapping the slot held if both are mappings. -/
theorem saveInTree_indexPath (tree : Tree) (k : String) (i : Nat) (v : Value) (s : List Value)
    (hk1 : '.' ∉ k.data) (hk2 : '[' ∉ k.data) (hi : i < 2 ^ 63)
    (hs : sliceAt tree k = Result.ok s) (hv : v.isNil = false) :
    saveInTree tree (indexPath k i) v
      = (mset tree k (Value.seq ((grow s i).set i
          (mergeValue v ((grow s i).getD i Value.null)))), Status.ok) := by
  unfold saveInTree
  rw [split_indexPath k i hk1]
  simp [saveInTreeSplits, hv, saveInTreeStep, saveLeaf, split_indexSegment k i hk2, hs,
    saveInSlice_last s i v hi]

theorem sliceAt_of (tree : Tree) (k : String) (s : List Value)
    (hs : (mget tree k = none ∧ s = []) ∨ mget tree k = some (Value.seq s)) :
    sliceAt tree k = Result.ok s := by
  rcases hs with ⟨h, rfl⟩ | h <;> simp [sliceAt, h]

theorem mergeValue_not_map (v old : Value) (hm : v.isMap = false) : mergeValue v old = v := by
  cases v <;> first | rfl | simp [Value.isMap] at hm

theorem grow_length (s : List Value) (i : Nat) : (grow s i).length = max s.length (i + 1) := by
  simp only [grow, List.length_append, List.length_replicate]
  omega

/-- C8: array growth. When key `k` (a plain key of the path) is absent (`s = []`) or
holds the sequence `s`, and `v` is neither nil nor a mapping, storing `v` at
"$.k[i]" returns no error and leaves under `k` a sequence of length
`max (len s) (i+1)` whose element `i` is `v`, whose other elements below `len s` are
those of `s`, and whose elements from `len s` up to `i` are nil. The index is a Go
`int`, hence below 2^63. -/
theorem saveInTree_array_growth (tree : Tree) (k : String) (i : Nat) (v : Value)
    (s : List Value) (hk : '.' ∉ k.data ∧ '[' ∉ k.data) (hi : i < 2 ^ 63)
    (hs : (mget tree k = none ∧ s = []) ∨ mget tree k = some (Value.seq s))
    (hv : v.isNil = false) (hm : v.isMap = false) :
    (saveInTree tree (indexPath k i) v).2 = Status.ok ∧
    ∃ s1 : List Value,
      mget (saveInTree tree (indexPath k i) v).1 k = some (Value.seq s1) ∧
      s1.length = max s.length (i + 1) ∧
      s1[i]? = some v ∧
      (∀ j, j < s.length → j ≠ i → s1[j]? = s[j]?) ∧
      (∀ j, s.length ≤ j → j < i → s1[j]? = some Value.null) := by
  rw [saveInTree_indexPath tree k i v s hk.1 hk.2 hi (sliceAt_of tree k s hs) hv,
    mergeValue_not_map v _ hm]
  refine ⟨rfl, (grow s i).set i v, mget_mset_same _ _ _, ?_, ?_, ?_, ?_⟩
  · simp [grow_length]
  · have : i < (grow s i).length := by rw [grow_length]; omega
    simp [List.getElem?_set, this]
  · intro j hj hji
    rw [List.getElem?_set_ne (Ne.symm hji)]
    simp [grow, List.getElem?_append_left hj]
  · intro j hj hji
    rw [List.getElem?_set_ne (by omega)]
    simp only [grow]
    rw [List.getElem?_append_right hj, List.getElem?_replicate]
    have : j - s.length < i + 1 - s.length := by omega
    simp [this]

/-- Witness of C8: "$.test1[3]" in a tree whose "test1" holds two elements. -/
theorem saveInTree_array_growth_witness :
    (saveInTree [("test1", Value.seq [Value.str "a", Value.str "b"])] (indexPath "test1" 3)
      (Value.str "c")).2 = Status.ok ∧
    ∃ s1 : List Value,
      mget (saveInTree [("test1", Value.seq [Value.str "a", Value.str "b"])]
        (indexPath "test1" 3) (Value.str "c")).1 "test1" = some (Value.seq s1) ∧
      s1.length = max [Value.str "a", Value.str "b"].length (3 + 1) ∧
      s1[3]? = some (Value.str "c") ∧
      (∀ j, j < [Value.str "a", Value.str "b"].length → j ≠ 3 →
        s1[j]? = [Value.str "a", Value.str "b"][j]?) ∧
      (∀ j, [Value.str "a", Value.str "b"].length ≤ j → j < 3 → s1[j]? = some Value.null) :=
  saveInTree_array_growth [("test1", Value.seq [Value.str "a", Value.str "b"])] "test1" 3
    (Value.str "c") [Value.str "a", Value.str "b"] (by decide) (by decide)
    (Or.inr rfl) rfl rfl

/-! ### Merging mappings in an array slot -/

theorem mget_cons (k1 : String) (v1 : Value) (m : Tree) (k : String) :
    mget ((k1, v1) :: m) k = if k1 = k then some v1 else mget m k := rfl

theorem mget_mergeInto (old : Tree) :
    ∀ (new : Tree) (key : String),
      mget (mergeInto old new) key
        = match mget new key with
          | some x => some x
          | none => mget old key := by
  induction old with
  | nil =>
    intro new key
    cases h : mget new key <;> simp [mergeInto, h, mget]
  | cons kv old ih =>
    obtain ⟨k1, v1⟩ := kv
    intro new key
    have hstep : mergeInto ((k1, v1) :: old) new
        = mergeInto old (match mget new k1 with
            | some _ => new
            | none => mset new k1 v1) := by
      simp [mergeInto]
    rw [hstep, ih, mget_cons]
    cases h1 : mget new k1 with
    | some y =>
      by_cases hk : k1 = key
      · subst hk
        simp [h1]
      · simp [hk]
    | none =>
      by_cases hk : k1 = key
      · subst hk
        simp [h1, mget_mset_same]
      · simp [hk, mget_mset_other new k1 key v1 (Ne.symm hk)]

theorem mergeValue_map (m1 : Tree) (old : Value) :
    ∃ e1, mergeValue (Value.map m1) old = Value.map e1 ∧
      (∀ key x, mget m1 key = some x → mget e1 key = some x) ∧
      (old.isMap = false → e1 = m1) := by
  cases old with
  | map o =>
    refine ⟨mergeInto o m1, rfl, ?_, ?_⟩
    · intro key x h
      rw [mget_mergeInto, h]
    · intro h
      simp [Value.isMap] at h
  | null => exact ⟨m1, rfl, fun _ _ h => h, fun _ => rfl⟩
  | str _ => exact ⟨m1, rfl, fun _ _ h => h, fun _ => rfl⟩
  | num _ => exact ⟨m1, rfl, fun _ _ h => h, fun _ => rfl⟩
  | bool _ => exact ⟨m1, rfl, fun _ _ h => h, fun _ => rfl⟩
  | nodes _ => exact ⟨m1, rfl, fun _ _ h => h, fun _ => rfl⟩
  | seq _ => exact ⟨m1, rfl, fun _ _ h => h, fun _ => rfl⟩

theorem grow_of_le (s : List Value) (i : Nat) (h : i < s.length) : grow s i = s := by
  have : i + 1 - s.length = 0 := by omega
  simp [grow, this]

/-- Storing the mapping `m1` and then the mapping `m2` at "$.k[i]": the first store
puts `e1` (`m1`, with the entries of a mapping already in the slot whose key `m1`
lacks) in slot `i` of the sequence `s1`, and the second replaces it by the merge of
`e1` into `m2` without changing the length. -/
theorem saveInTree_twice (tree : Tree) (k : String) (i : Nat) (m1 m2 : Tree) (s : List Value)
    (hk : '.' ∉ k.data ∧ '[' ∉ k.data) (hi : i < 2 ^ 63)
    (hs : (mget tree k = none ∧ s = []) ∨ mget tree k = some (Value.seq s)) :
    ∃ (e1 : Tree) (s1 : List Value),
      (∀ key x, mget m1 key = some x → mget e1 key = some x) ∧
      (((grow s i).getD i Value.null).isMap = false → e1 = m1) ∧
      i < s1.length ∧ s1[i]? = some (Value.map e1) ∧
      saveInTree tree (indexPath k i) (Value.map m1)
        = (mset tree k (Value.seq s1), Status.ok) ∧
      saveInTree (mset tree k (Value.seq s1)) (indexPath k i) (Value.map m2)
        = (mset (mset tree k (Value.seq s1)) k
            (Value.seq (s1.set i (Value.map (mergeInto e1 m2)))), Status.ok) := by
  obtain ⟨e1, he1, hkeep, hfresh⟩ := mergeValue_map m1 ((grow s i).getD i Value.null)
  have hlen : i < (grow s i).length := by rw [grow_length]; omega
  have hlen1 : i < ((grow s i).set i (Value.map e1)).length := by simpa using hlen
  have hget1 : ((grow s i).set i (Value.map e1))[i]? = some (Value.map e1) := by
    simp [List.getElem?_set, hlen]
  refine ⟨e1, (grow s i).set i (Value.map e1), hkeep, hfresh, hlen1, hget1, ?_, ?_⟩
  · rw [saveInTree_indexPath tree k i (Value.map m1) s hk.1 hk.2 hi (sliceAt_of tree k s hs) rfl,
      he1]
  · have hs1 : sliceAt (mset tree k (Value.seq ((grow s i).set i (Value.map e1)))) k
        = Result.ok ((grow s i).set i (Value.map e1)) := by
      simp [sliceAt, mget_mset_same]
    rw [saveInTree_indexPath _ k i (Value.map m2) _ hk.1 hk.2 hi hs1 rfl, grow_of_le _ i hlen1]
    have hd : ((grow s i).set i (Value.map e1)).getD i Value.null = Value.map e1 := by
      rw [List.getD_eq_getElem?_getD, hget1]
      rfl
    rw [hd]
    rfl

/-- C2, refuted as stated: after storing `a: "1"` and then `a: "2"` at "$.x[0]", element
0 of `x` maps `a` to "2", the value of the second mapping, and not to the value "1" of
the first. -/
theorem saveInTree_merge_first_write_wins_counterexample :
    (Value.map (saveInTree (saveInTree [] "$.x[0]" (Value.map [("a", Value.str "1")])).1
        "$.x[0]" (Value.map [("a", Value.str "2")])).1).get
      [Step.key "x", Step.idx 0, Step.key "a"] = some (Value.str "2") ∧
    (Value.map (saveInTree (saveInTree [] "$.x[0]" (Value.map [("a", Value.str "1")])).1
        "$.x[0]" (Value.map [("a", Value.str "2")])).1).get
      [Step.key "x", Step.idx 0, Step.key "a"] ≠ mget [("a", Value.str "1")] "a" :=
  ⟨rfl, by
    have h1 : (Value.map (saveInTree (saveInTree [] "$.x[0]"
        (Value.map [("a", Value.str "1")])).1
        "$.x[0]" (Value.map [("a", Value.str "2")])).1).get
        [Step.key "x", Step.idx 0, Step.key "a"] = some (Value.str "2") := rfl
    have h2 : mget [("a", Value.str "1")] "a" = some (Value.str "1") := rfl
    rw [h1, h2]
    intro h
    injection h with h
    injection h with h
    exact absurd h (by decide)⟩

/-- C2, amended: when the mapping `m1` and then the mapping `m2` are stored at
"$.x[i]" (`x` a plain key that is absent or holds a sequence), element `i` of `x` is
a mapping in which every key of `m2`, and so every key present in both, has the
value of `m2` (the last write wins per key), and every key of `m1` that `m2` lacks
keeps the value of `m1`. -/
theorem saveInTree_merge_last_write_wins (tree : Tree) (x : String) (i : Nat) (m1 m2 : Tree)
    (s : List Value) (hx : '.' ∉ x.data ∧ '[' ∉ x.data) (hi : i < 2 ^ 63)
    (hs : (mget tree x = none ∧ s = []) ∨ mget tree x = some (Value.seq s)) :
    (saveInTree tree (indexPath x i) (Value.map m1)).2 = Status.ok ∧
    (saveInTree (saveInTree tree (indexPath x i) (Value.map m1)).1 (indexPath x i)
      (Value.map m2)).2 = Status.ok ∧
    ∃ e : Tree,
      (Value.map (saveInTree (saveInTree tree (indexPath x i) (Value.map m1)).1
        (indexPath x i) (Value.map m2)).1).get [Step.key x, Step.idx i] = some (Value.map e) ∧
      (∀ k v2, mget m2 k = some v2 → mget e k = some v2) ∧
      (∀ k v1, mget m1 k = some v1 → mget m2 k = none → mget e k = some v1) := by
  obtain ⟨e1, s1, hkeep, _, hlen, _, h1, h2⟩ := saveInTree_twice tree x i m1 m2 s hx hi hs
  have ht1 : (saveInTree tree (indexPath x i) (Value.map m1)).1 = mset tree x (Value.seq s1) := by
    rw [h1]
  rw [ht1, h2]
  refine ⟨by rw [h1], rfl, mergeInto e1 m2, ?_, ?_, ?_⟩
  · simp [Value.get, mget_mset_same, List.getElem?_set, hlen]
  · intro k v2 hk
    rw [mget_mergeInto, hk]
  · intro k v1 hk1 hk2
    rw [mget_mergeInto, hk2]
    exact hkeep k v1 hk1

/-- Witness of C2 amended: `a: "1", c: "3"` then `a: "2"` at "$.x[0]" of the empty
tree. -/
theorem saveInTree_merge_last_write_wins_witness :
    (saveInTree [] (indexPath "x" 0)
      (Value.map [("a", Value.str "1"), ("c", Value.str "3")])).2 = Status.ok ∧
    (saveInTree (saveInTree [] (indexPath "x" 0)
      (Value.map [("a", Value.str "1"), ("c", Value.str "3")])).1 (indexPath "x" 0)
      (Value.map [("a", Value.str "2")])).2 = Status.ok ∧
    ∃ e : Tree,
      (Value.map (saveInTree (saveInTree [] (indexPath "x" 0)
        (Value.map [("a", Value.str "1"), ("c", Value.str "3")])).1
        (indexPath "x" 0) (Value.map [("a", Value.str "2")])).1).get
          [Step.key "x", Step.idx 0] = some (Value.map e) ∧
      (∀ k v2, mget [("a", Value.str "2")] k = some v2 → mget e k = some v2) ∧
      (∀ k v1, mget [("a", Value.str "1"), ("c", Value.str "3")] k = some v1 →
        mget [("a", Value.str "2")] k = none → mget e k = some v1) :=
  saveInTree_merge_last_write_wins [] "x" 0 [("a", Value.str "1"), ("c", Value.str "3")]
    [("a", Value.str "2")] [] (by decide) (by decide) (Or.inl ⟨rfl, rfl⟩)

theorem grow_getD (s : List Value) (i : Nat) :
    (grow s i).getD i Value.null = s.getD i Value.null := by
  by_cases h : i < s.length
  · rw [grow_of_le s i h]
  · have h1 : s.length ≤ i := by omega
    have h2 : i - s.length < i + 1 - s.length := by omega
    rw [List.getD_eq_getElem?_getD, List.getD_eq_getElem?_getD]
    simp only [grow]
    rw [List.getElem?_append_right h1, List.getElem?_replicate,
      List.getElem?_eq_none h1]
    simp [h2]

/-- C9: merge law. For mappings `m1`, `m2` with disjoint key sets, a plain key `k`
that is absent or holds a sequence `s` whose slot `i` is not a mapping, storing `m1`
and then `m2` at "$.k[i]" returns no error twice and leaves at index `i` one mapping
whose entries are exactly those of `m1` together with those of `m2`; the sequence
has the same length after the second store as after the first. -/
theorem saveInTree_merge_union (tree : Tree) (k : String) (i : Nat) (m1 m2 : Tree)
    (s : List Value) (hk : '.' ∉ k.data ∧ '[' ∉ k.data) (hi : i < 2 ^ 63)
    (hs : (mget tree k = none ∧ s = []) ∨ mget tree k = some (Value.seq s))
    (hslot : (s.getD i Value.null).isMap = false)
    (hdisj : ∀ key, mget m1 key = none ∨ mget m2 key = none) :
    (saveInTree tree (indexPath k i) (Value.map m1)).2 = Status.ok ∧
    (saveInTree (saveInTree tree (indexPath k i) (Value.map m1)).1 (indexPath k i)
      (Value.map m2)).2 = Status.ok ∧
    ∃ (s1 s2 : List Value) (e : Tree),
      mget (saveInTree tree (indexPath k i) (Value.map m1)).1 k = some (Value.seq s1) ∧
      mget (saveInTree (saveInTree tree (indexPath k i) (Value.map m1)).1 (indexPath k i)
        (Value.map m2)).1 k = some (Value.seq s2) ∧
      s2.length = s1.length ∧
      s1[i]? = some (Value.map m1) ∧
      s2[i]? = some (Value.map e) ∧
      (∀ key x, mget e key = some x ↔ (mget m1 key = some x ∨ mget m2 key = some x)) := by
  obtain ⟨e1, s1, _, hfresh, hlen, hget1, h1, h2⟩ := saveInTree_twice tree k i m1 m2 s hk hi hs
  have he1 : e1 = m1 := hfresh (by rw [grow_getD]; exact hslot)
  subst he1
  have ht1 : (saveInTree tree (indexPath k i) (Value.map e1)).1 = mset tree k (Value.seq s1) := by
    rw [h1]
  rw [ht1, h2]
  refine ⟨by rw [h1], rfl, s1, s1.set i (Value.map (mergeInto e1 m2)), mergeInto e1 m2,
    mget_mset_same _ _ _, mget_mset_same _ _ _, by simp, hget1, ?_, ?_⟩
  · simp [List.getElem?_set, hlen]
  · intro key x
    rw [mget_mergeInto]
    rcases hdisj key with h | h
    · rw [h]
      cases h2k : mget m2 key <;> simp
    · rw [h]
      simp

/-- Witness of C9: `a: "1"` then `b: "2"` at "$.test1[0]" of the empty tree. -/
theorem saveInTree_merge_union_witness :
    (saveInTree [] (indexPath "test1" 0) (Value.map [("a", Value.str "1")])).2 = Status.ok ∧
    (saveInTree (saveInTree [] (indexPath "test1" 0) (Value.map [("a", Value.str "1")])).1
      (indexPath "test1" 0) (Value.map [("b", Value.str "2")])).2 = Status.ok ∧
    ∃ (s1 s2 : List Value) (e : Tree),
      mget (saveInTree [] (indexPath "test1" 0) (Value.map [("a", Value.str "1")])).1 "test1"
        = some (Value.seq s1) ∧
      mget (saveInTree (saveInTree [] (indexPath "test1" 0)
        (Value.map [("a", Value.str "1")])).1 (indexPath "test1" 0)
        (Value.map [("b", Value.str "2")])).1 "test1" = some (Value.seq s2) ∧
      s2.length = s1.length ∧
      s1[0]? = some (Value.map [("a", Value.str "1")]) ∧
      s2[0]? = some (Value.map e) ∧
      (∀ key x, mget e key = some x ↔
        (mget [("a", Value.str "1")] key = some x ∨ mget [("b", Value.str "2")] key = some x)) :=
  saveInTree_merge_union [] "test1" 0 [("a", Value.str "1")] [("b", Value.str "2")] []
    (by decide) (by decide) (Or.inl ⟨rfl, rfl⟩) rfl
    (by
      intro key
      by_cases h : "a" = key
      · subst h
        right
        rfl
      · left
        simp [mget, h])

/-! ### Shape conflicts -/

theorem get_append (p : List Step) :
    ∀ (v : Value) (q : List Step), v.get (p ++ q) = (v.get p).bind (fun y => y.get q) := by
  induction p with
  | nil => intro v q; simp [Value.get]
  | cons st p ih =>
    intro v q
    cases st with
    | key k =>
      cases v with
      | map m =>
        simp only [List.cons_append, Value.get]
        cases mget m k with
        | none => rfl
        | some y => exact ih y q
      | null => simp [Value.get]
      | str _ => simp [Value.get]
      | num _ => simp [Value.get]
      | bool _ => simp [Value.get]
      | nodes _ => simp [Value.get]
      | seq _ => simp [Value.get]
    | idx i =>
      cases v with
      | seq xs =>
        simp only [List.cons_append, Value.get]
        cases xs[i]? with
        | none => rfl
        | some y => exact ih y q
      | null => simp [Value.get]
      | str _ => simp [Value.get]
      | num _ => simp [Value.get]
      | bool _ => simp [Value.get]
      | nodes _ => simp [Value.get]
      | map _ => simp [Value.get]

theorem get_key_some (y x : Value) (k : String) (ps : List Step)
    (h : y.get (Step.key k :: ps) = some x) :
    ∃ m z, y = Value.map m ∧ mget m k = some z ∧ z.get ps = some x := by
  cases y with
  | map m =>
    simp only [Value.get] at h
    cases hz : mget m k with
    | none => simp [hz] at h
    | some z =>
      rw [hz] at h
      exact ⟨m, z, rfl, hz, h⟩
  | null => simp [Value.get] at h
  | str _ => simp [Value.get] at h
  | num _ => simp [Value.get] at h
  | bool _ => simp [Value.get] at h
  | nodes _ => simp [Value.get] at h
  | seq _ => simp [Value.get] at h

theorem get_idx_some (y x : Value) (i : Nat) (ps : List Step)
    (h : y.get (Step.idx i :: ps) = some x) :
    ∃ xs z, y = Value.seq xs ∧ xs[i]? = some z ∧ z.get ps = some x := by
  cases y with
  | seq xs =>
    simp only [Value.get] at h
    cases hz : xs[i]? with
    | none => simp [hz] at h
    | some z =>
      rw [hz] at h
      exact ⟨xs, z, rfl, hz, h⟩
  | null => simp [Value.get] at h
  | str _ => simp [Value.get] at h
  | num _ => simp [Value.get] at h
  | bool _ => simp [Value.get] at h
  | nodes _ => simp [Value.get] at h
  | map _ => simp [Value.get] at h

theorem index_text_no_bracket (i : Nat) : '[' ∉ (toString i ++ "]").data := by
  have hd : '[' ∉ Nat.toDigits 10 i := toDigits_not_mem i '[' (by decide)
  have h2 : ("]" : String).data = [']'] := rfl
  simp only [String.data_append, toString_data, h2, List.mem_append, List.mem_singleton]
  rintro (h | h)
  · exact hd h
  · exact absurd h (by decide)

theorem renderIdxs_cons_data (i : Nat) (rest : List Nat) :
    (renderIdxs (i :: rest)).data
      = '[' :: ((toString i ++ "]").data ++ (renderIdxs rest).data) := by
  have h1 : ("[" : String).data = ['['] := rfl
  simp only [renderIdxs, String.data_append, h1, List.singleton_append, List.cons_append,
    List.nil_append]

theorem splitChars_renderIdxs (idxs : List Nat) :
    ∀ a : List Char, '[' ∉ a →
      splitChars '[' (a ++ (renderIdxs idxs).data)
        = a :: idxs.map (fun i => (toString i ++ "]").data) := by
  induction idxs with
  | nil =>
    intro a ha
    have h0 : (renderIdxs []).data = [] := rfl
    simp [h0, splitChars_not_mem '[' a ha]
  | cons i rest ih =>
    intro a ha
    rw [renderIdxs_cons_data, splitChars_append_sep '[' a _ ha,
      ih _ (index_text_no_bracket i)]
    simp

theorem split_render (sg : Seg) (h : '[' ∉ sg.name.data) :
    split sg.render '[' = sg.name :: sg.idxs.map (fun i => toString i ++ "]") := by
  simp only [split, Seg.render, String.data_append, splitChars_renderIdxs sg.idxs _ h,
    List.map_cons, List.map_map]
  congr 1

theorem renderIdxs_no_dot (idxs : List Nat) : '.' ∉ (renderIdxs idxs).data := by
  induction idxs with
  | nil => simp [renderIdxs]
  | cons i rest ih =>
    have hd : '.' ∉ Nat.toDigits 10 i := toDigits_not_mem i '.' (by decide)
    have h2 : ("]" : String).data = [']'] := rfl
    rw [renderIdxs_cons_data]
    simp only [String.data_append, toString_data, h2, List.mem_cons, List.mem_append,
      List.mem_singleton]
    rintro (h | (h | h) | h)
    · exact absurd h (by decide)
    · exact hd h
    · exact absurd h (by decide)
    · exact ih h

theorem render_no_dot (sg : Seg) (h : '.' ∉ sg.name.data) : '.' ∉ sg.render.data := by
  simp only [Seg.render, String.data_append, List.mem_append]
  rintro (h1 | h1)
  · exact h h1
  · exact renderIdxs_no_dot _ h1

theorem render_ne_root (sg : Seg) (h : sg.wf) : sg.render ≠ "$" := by
  obtain ⟨_, hb, _, hroot⟩ := h
  cases hi : sg.idxs with
  | nil =>
    have : sg.render = sg.name := by
      simp [Seg.render, hi, renderIdxs]
    rw [this]
    exact hroot hi
  | cons i rest =>
    intro heq
    have hmem : '[' ∈ sg.render.data := by
      simp only [Seg.render, hi, String.data_append, renderIdxs_cons_data]
      simp
    rw [heq] at hmem
    exact absurd hmem (by decide)

theorem saveInSlice_nested (s : List Value) (i : Nat) (t : String) (rest : List String)
    (v : Value) (hi : i < 2 ^ 63) :
    saveInSlice ((toString i ++ "]") :: t :: rest) s v
      = match saveInSlice (t :: rest)
          (match (grow s i).getD i Value.null with
            | Value.seq xs => xs
            | _ => []) v with
        | Result.ok r =>
          Result.ok ⟨fun x => (grow s i).set i (Value.seq (r.slice x)), r.value⟩
        | Result.error _ => Result.ok ⟨fun _ => (grow s i).set i (Value.seq []), v⟩
        | Result.panic m => Result.panic m := by
  simp [saveInSlice, trim_index, atoi_toString i hi]

theorem getElem?_lt (s : List Value) (i : Nat) (z : Value) (h : s[i]? = some z) :
    i < s.length := by
  by_contra hc
  rw [List.getElem?_eq_none (by omega)] at h
  exact absurd h (by simp)

theorem getD_of_getElem? (s : List Value) (i : Nat) (z : Value) (h : s[i]? = some z) :
    s.getD i Value.null = z := by
  rw [List.getD_eq_getElem?_getD, h]
  rfl

theorem get_set_idx (s : List Value) (i : Nat) (y : Value) (ps : List Step)
    (h : i < s.length) : (Value.seq (s.set i y)).get (Step.idx i :: ps) = y.get ps := by
  simp [Value.get, List.getElem?_set, h]

/-- `saveInSlice` along indices that address an existing mapping `old`: it succeeds,
the fresh mapping it was given has taken the entries of `old`, and the slot of the
returned slice holds that mapping. -/
theorem saveInSlice_existing :
    ∀ (idxs : List Nat) (s : List Value) (old : Tree), idxs ≠ [] →
      (∀ i ∈ idxs, i < 2 ^ 63) →
      (Value.seq s).get (idxs.map Step.idx) = some (Value.map old) →
      ∃ r, saveInSlice (idxs.map (fun i => toString i ++ "]")) s (Value.map []) = Result.ok r ∧
        r.value = Value.map (mergeInto old []) ∧
        ∀ x, (Value.seq (r.slice x)).get (idxs.map Step.idx) = some x := by
  intro idxs
  induction idxs with
  | nil => intro _ _ h; exact absurd rfl h
  | cons i rest ih =>
    intro s old _ hlt hget
    have hi : i < 2 ^ 63 := hlt i (by simp)
    obtain ⟨xs, z, hxs, hz, hzget⟩ := get_idx_some _ _ i _ hget
    injection hxs with hxs
    subst hxs
    have hlen := getElem?_lt s i z hz
    cases rest with
    | nil =>
      simp only [List.map_nil, Value.get] at hzget
      injection hzget with hzget
      subst hzget
      refine ⟨_, saveInSlice_last s i (Value.map []) hi, ?_, ?_⟩
      · simp only [grow_of_le s i hlen, getD_of_getElem? s i _ hz]
        rfl
      · intro x
        simp [Value.get, grow_of_le s i hlen, List.getElem?_set, hlen]
    | cons j js =>
      obtain ⟨ys, _, hys, _, _⟩ := get_idx_some _ _ j _ hzget
      subst hys
      obtain ⟨r, hr, hval, hslice⟩ := ih ys old (by simp)
        (fun a ha => hlt a (List.mem_cons_of_mem _ ha)) hzget
      refine ⟨⟨fun x => s.set i (Value.seq (r.slice x)), r.value⟩, ?_, hval, ?_⟩
      · simp only [List.map_cons] at hr ⊢
        rw [saveInSlice_nested s i _ _ _ hi, grow_of_le s i hlen, getD_of_getElem? s i _ hz]
        simp only [hr]
      · intro x
        rw [List.map_cons, get_set_idx s i _ _ hlen]
        exact hslice x

theorem saveInTreeSplits_cons (s0 : String) (rest : List String) (tree : Tree) (v : Value)
    (hrest : rest ≠ []) (hs0 : s0 ≠ "$") (hv : v.isNil = false) :
    saveInTreeSplits (s0 :: rest) tree v
      = saveInTreeStep s0 false (fun t => saveInTreeSplits rest t v) tree v := by
  cases rest with
  | nil => exact absurd rfl hrest
  | cons a rest => simp [saveInTreeSplits, hv, hs0]

theorem pathSteps_key_head (segs : List Seg) (k : String) :
    ∃ k1 ps, pathSteps segs ++ [Step.key k] = Step.key k1 :: ps := by
  cases segs with
  | nil => exact ⟨k, [], rfl⟩
  | cons sg rest => exact ⟨sg.name, _, rfl⟩

theorem get_mergeInto_nil (old : Tree) (k1 : String) (ps : List Step) :
    (Value.map (mergeInto old [])).get (Step.key k1 :: ps)
      = (Value.map old).get (Step.key k1 :: ps) := by
  simp [Value.get, mget_mergeInto, mget]

theorem saveInTreeSplits_conflict (k : String) (post : List String) (x v : Value)
    (hk : '[' ∉ k.data ∧ k ≠ "$") (hpost : post ≠ []) (hxn : x.isNil = false)
    (hxm : x.isMap = false) (hv : v.isNil = false) :
    ∀ (segs : List Seg) (tree : Tree), (∀ sg ∈ segs, sg.wf) →
      (Value.map tree).get (pathSteps segs ++ [Step.key k]) = some x →
      (saveInTreeSplits (segs.map Seg.render ++ k :: post) tree v).2.isError = true ∧
      (Value.map (saveInTreeSplits (segs.map Seg.render ++ k :: post) tree v).1).get
        (pathSteps segs ++ [Step.key k]) = some x := by
  intro segs
  induction segs with
  | nil =>
    intro tree _ hget
    obtain ⟨m, z, hm, hz, hzget⟩ := get_key_some _ _ k _ hget
    injection hm with hm
    subst hm
    simp only [Value.get] at hzget
    injection hzget with hzget
    subst hzget
    simp only [List.map_nil, List.nil_append, pathSteps]
    rw [saveInTreeSplits_cons k post tree v hpost hk.2 hv]
    simp only [saveInTreeStep, split_not_mem '[' k hk.1, hz]
    cases z with
    | null => simp [Value.isNil] at hxn
    | map _ => simp [Value.isMap] at hxm
    | str _ => exact ⟨rfl, hget⟩
    | num _ => exact ⟨rfl, hget⟩
    | bool _ => exact ⟨rfl, hget⟩
    | nodes _ => exact ⟨rfl, hget⟩
    | seq _ => exact ⟨rfl, hget⟩
  | cons sg segs ih =>
    intro tree hwf hget
    have hsg : sg.wf := hwf sg (by simp)
    have hsegs : ∀ a ∈ segs, a.wf := fun a ha => hwf a (List.mem_cons_of_mem _ ha)
    obtain ⟨k1, ps, hhead⟩ := pathSteps_key_head segs k
    have hsteps : pathSteps (sg :: segs) ++ [Step.key k]
        = Step.key sg.name :: (sg.idxs.map Step.idx ++ (pathSteps segs ++ [Step.key k])) := by
      simp [pathSteps, Seg.steps]
    rw [hsteps] at hget ⊢
    obtain ⟨m, z, hm, hz, hzget⟩ := get_key_some _ _ sg.name _ hget
    injection hm with hm
    subst hm
    rw [get_append] at hzget
    cases hy : z.get (sg.idxs.map Step.idx) with
    | none => simp [hy] at hzget
    | some y =>
      rw [hy] at hzget
      simp only [Option.bind] at hzget
      have hymap : ∃ old, y = Value.map old := by
        rw [hhead] at hzget
        obtain ⟨old, _, ho, _, _⟩ := get_key_some _ _ k1 _ hzget
        exact ⟨old, ho⟩
      obtain ⟨old, rfl⟩ := hymap
      simp only [List.map_cons, List.cons_append]
      rw [saveInTreeSplits_cons sg.render (segs.map Seg.render ++ k :: post) tree v (by simp)
        (render_ne_root sg hsg) hv]
      simp only [saveInTreeStep, split_render sg hsg.2.1, Bool.false_eq_true, if_false]
      cases hidx : sg.idxs with
      | nil =>
        rw [hidx] at hy
        simp only [List.map_nil, Value.get] at hy
        injection hy with hy
        subst hy
        have hren : sg.render = sg.name := by simp [Seg.render, hidx, renderIdxs]
        simp only [List.map_nil, hren, hz, List.nil_append]
        have := ih old hsegs hzget
        exact ⟨this.1, by rw [get_mset_key]; exact this.2⟩
      | cons i rest =>
        rw [hidx] at hy
        obtain ⟨s, _, hs, _, _⟩ := get_idx_some _ _ i _ hy
        subst hs
        have hlt : ∀ a ∈ i :: rest, a < 2 ^ 63 := by
          intro a ha
          exact hsg.2.2.1 a (by rw [hidx]; exact ha)
        obtain ⟨r, hr, hval, hslice⟩ := saveInSlice_existing (i :: rest) s old (by simp) hlt hy
        have hold : (Value.map (mergeInto old [])).get (pathSteps segs ++ [Step.key k])
            = some x := by
          rw [hhead, get_mergeInto_nil, ← hhead]
          exact hzget
        have := ih (mergeInto old []) hsegs hold
        simp only [List.map_cons] at hr hslice ⊢
        simp only [sliceAt, hz, hr, hval]
        refine ⟨this.1, ?_⟩
        rw [get_mset_key, get_append, hslice]
        exact this.2

/-- C10: shape conflict, object over non-object. When the path is
"$.s1.….sn.k.post" with `s1..sn` well-formed segments, `k` a plain key and `post` at
least one further segment, and following `s1..sn` and `k` in the tree reaches an
existing value `x` that is neither nil nor a mapping, storing a non-nil `v` returns an
error, and following `s1..sn` and `k` in the tree left by the call still reaches `x`. -/
theorem saveInTree_shape_conflict (tree : Tree) (segs : List Seg) (k : String)
    (post : List String) (x v : Value) (hsegs : ∀ sg ∈ segs, sg.wf) (hk : plainKey k)
    (hpost : post ≠ []) (hpostdot : ∀ a ∈ post, '.' ∉ a.data)
    (hx : (Value.map tree).get (pathSteps segs ++ [Step.key k]) = some x)
    (hxn : x.isNil = false) (hxm : x.isMap = false) (hv : v.isNil = false) :
    (saveInTree tree ("$." ++ join (segs.map Seg.render ++ k :: post) ".") v).2.isError = true ∧
    (Value.map (saveInTree tree ("$." ++ join (segs.map Seg.render ++ k :: post) ".") v).1).get
      (pathSteps segs ++ [Step.key k]) = some x := by
  have hdot : ∀ a ∈ segs.map Seg.render ++ k :: post, '.' ∉ a.data := by
    intro a ha
    rcases List.mem_append.mp ha with h | h
    · obtain ⟨sg, hsg, rfl⟩ := List.mem_map.mp h
      exact render_no_dot sg (hsegs sg hsg).1
    · rcases List.mem_cons.mp h with rfl | h
      · exact hk.1
      · exact hpostdot a h
  have hsplit := split_root_join (segs.map Seg.render ++ k :: post) (by simp) hdot
  have main := saveInTreeSplits_conflict k post x v ⟨hk.2.1, hk.2.2⟩ hpost hxn hxm hv
    segs tree hsegs hx
  unfold saveInTree
  rw [hsplit]
  cases segs with
  | nil =>
    simp only [List.map_nil, List.nil_append] at main ⊢
    rcases saveInTreeSplits_root k post tree v with h | h
    · rw [h]
      exact main
    · exact absurd h hk.2.2
  | cons sg rest =>
    simp only [List.map_cons, List.cons_append] at main ⊢
    rcases saveInTreeSplits_root sg.render (rest.map Seg.render ++ k :: post) tree v with h | h
    · rw [h]
      exact main
    · exact absurd h (render_ne_root sg (hsegs sg (by simp)))

/-- Witness of C10: "$.a[0].test1.test2" in a tree whose `a[0].test1` is the number 1. -/
theorem saveInTree_shape_conflict_witness :
    (saveInTree [("a", Value.seq [Value.map [("test1", Value.num 1)]])]
      ("$." ++ join ([Seg.mk "a" [0]].map Seg.render ++ "test1" :: ["test2"]) ".")
      (Value.str "string")).2.isError = true ∧
    (Value.map (saveInTree [("a", Value.seq [Value.map [("test1", Value.num 1)]])]
      ("$." ++ join ([Seg.mk "a" [0]].map Seg.render ++ "test1" :: ["test2"]) ".")
      (Value.str "string")).1).get
      (pathSteps [Seg.mk "a" [0]] ++ [Step.key "test1"]) = some (Value.num 1) :=
  saveInTree_shape_conflict [("a", Value.seq [Value.map [("test1", Value.num 1)]])]
    [Seg.mk "a" [0]] "test1" ["test2"] (Value.num 1) (Value.str "string")
    (by
      intro sg hsg
      simp at hsg
      subst hsg
      refine ⟨by decide, by decide, ?_, by simp⟩
      intro i hi
      simp at hi
      subst hi
      decide)
    (by unfold plainKey; decide) (by simp)
    (by
      intro a ha
      simp at ha
      subst ha
      decide)
    rfl rfl rfl rfl

/-- C11, evaluated at trees whose key `k` holds a scalar, a mapping and null: storing
at "$.k[0]" and at "$.k[0].c" ends in the run-time failure of the unchecked type
assertion `rawSlice.([]interface{})`, not in an error result, and the tree is as it
was. -/
theorem saveInTree_array_over_non_array_panics :
    saveInTree [("k", Value.str "s")] "$.k[0]" (Value.str "v")
      = ([("k", Value.str "s")], Status.panic "interface conversion: not a []interface") ∧
    saveInTree [("k", Value.str "s")] "$.k[0].c" (Value.str "v")
      = ([("k", Value.str "s")], Status.panic "interface conversion: not a []interface") ∧
    saveInTree [("k", Value.map [])] "$.k[0]" (Value.str "v")
      = ([("k", Value.map [])], Status.panic "interface conversion: not a []interface") ∧
    saveInTree [("k", Value.map [])] "$.k[0].c" (Value.str "v")
      = ([("k", Value.map [])], Status.panic "interface conversion: not a []interface") ∧
    saveInTree [("k", Value.null)] "$.k[0]" (Value.str "v")
      = ([("k", Value.null)], Status.panic "interface conversion: not a []interface") ∧
    saveInTree [("k", Value.null)] "$.k[0].c" (Value.str "v")
      = ([("k", Value.null)], Status.panic "interface conversion: not a []interface") ∧
    (Status.panic "interface conversion: not a []interface").isError = false :=
  ⟨rfl, rfl, rfl, rfl, rfl, rfl, rfl⟩

/-- C12, evaluated at trees whose element 0 of `k` is a scalar and a sequence: storing
at "$.k[0].c" returns no error and replaces the element by the new mapping holding
only `c`. -/
theorem saveInTree_array_slot_replaced :
    saveInTree [("k", Value.seq [Value.str "s"])] "$.k[0].c" (Value.str "v")
      = ([("k", Value.seq [Value.map [("c", Value.str "v")]])], Status.ok) ∧
    saveInTree [("k", Value.seq [Value.seq [Value.str "s"]])] "$.k[0].c" (Value.str "v")
      = ([("k", Value.seq [Value.map [("c", Value.str "v")]])], Status.ok) :=
  ⟨rfl, rfl⟩

/-! ### Frame of a save -/

theorem splitChars_ne_nil (sep : Char) (l : List Char) : splitChars sep l ≠ [] := by
  cases l with
  | nil => simp [splitChars]
  | cons c cs =>
    simp only [splitChars]
    split
    · simp
    · split <;> simp

theorem splitChars_singleton (sep : Char) :
    ∀ (l x : List Char), splitChars sep l = [x] → x = l := by
  intro l
  induction l with
  | nil =>
    intro x h
    simp [splitChars] at h
    exact h
  | cons c cs ih =>
    intro x h
    simp only [splitChars] at h
    split at h
    · simp only [List.cons.injEq] at h
      exact absurd h.2 (splitChars_ne_nil sep cs)
    · cases hs : splitChars sep cs with
      | nil => exact absurd hs (splitChars_ne_nil sep cs)
      | cons y ys =>
        rw [hs] at h
        simp only [List.cons.injEq] at h
        obtain ⟨h1, h2⟩ := h
        subst h2
        rw [ih y hs] at h1
        exact h1.symm

theorem split_singleton (sep : Char) (seg x : String) (h : split seg sep = [x]) : x = seg := by
  simp only [split] at h
  cases hs : splitChars sep seg.data with
  | nil => exact absurd hs (splitChars_ne_nil sep _)
  | cons y ys =>
    rw [hs] at h
    simp only [List.map_cons, List.cons.injEq, List.map_eq_nil_iff] at h
    obtain ⟨h1, h2⟩ := h
    subst h2
    have := splitChars_singleton sep seg.data y hs
    subst this
    exact h1.symm

theorem saveLeaf_frame (tree : Tree) (seg : String) (v : Value) (key : String)
    (hkey : key ≠ segKey seg) : mget (saveLeaf tree seg v).1 key = mget tree key := by
  unfold saveLeaf
  unfold segKey at hkey
  rcases hsp : split seg '[' with _ | ⟨a0, _ | ⟨i1, idx⟩⟩
  · rfl
  · have := split_singleton '[' seg a0 hsp
    subst this
    rw [hsp] at hkey
    exact mget_mset_other tree a0 key v hkey
  · rw [hsp] at hkey
    simp only []
    cases sliceAt tree a0 with
    | panic m => rfl
    | error m => rfl
    | ok sValue =>
      simp only []
      cases saveInSlice (i1 :: idx) sValue v with
      | panic m => rfl
      | error m => rfl
      | ok r => exact mget_mset_other tree a0 key _ hkey

theorem saveInTreeStep_frame (seg : String) (isLast : Bool) (recurse : Tree → Tree × Status)
    (tree : Tree) (v : Value) (key : String) (hkey : key ≠ segKey seg) :
    mget (saveInTreeStep seg isLast recurse tree v).1 key = mget tree key := by
  unfold saveInTreeStep
  cases isLast with
  | true => exact saveLeaf_frame tree seg v key hkey
  | false =>
    unfold segKey at hkey
    simp only [Bool.false_eq_true, if_false]
    rcases hsp : split seg '[' with _ | ⟨a0, _ | ⟨i1, idx⟩⟩
    · rfl
    · have := split_singleton '[' seg a0 hsp
      subst this
      rw [hsp] at hkey
      simp only []
      cases hg : mget tree a0 with
      | none => exact mget_mset_other tree a0 key _ hkey
      | some x =>
        cases x with
        | null => exact mget_mset_other tree a0 key _ hkey
        | map m => exact mget_mset_other tree a0 key _ hkey
        | str _ => rfl
        | num _ => rfl
        | bool _ => rfl
        | nodes _ => rfl
        | seq _ => rfl
    · rw [hsp] at hkey
      simp only []
      cases sliceAt tree a0 with
      | panic m => rfl
      | error m => rfl
      | ok sValue =>
        simp only []
        cases saveInSlice (i1 :: idx) sValue (Value.map []) with
        | panic m => rfl
        | error m => rfl
        | ok r => exact mget_mset_other tree a0 key _ hkey

theorem saveInTreeSplits_frame (splits : List String) (tree : Tree) (v : Value) (key : String)
    (hkey : ∀ s, firstSegment splits = some s → key ≠ segKey s) :
    mget (saveInTreeSplits splits tree v).1 key = mget tree key := by
  rcases splits with _ | ⟨s0, _ | ⟨s1, rest⟩⟩
  · simp only [saveInTreeSplits]
    split <;> rfl
  · simp only [saveInTreeSplits]
    split
    · rfl
    · split
      · rfl
      · rename_i h0
        exact saveInTreeStep_frame s0 _ _ tree v key (hkey s0 (by simp [firstSegment, h0]))
  · simp only [saveInTreeSplits]
    split
    · rfl
    · split
      · rename_i h0
        exact saveInTreeStep_frame s1 _ _ tree v key (hkey s1 (by simp [firstSegment, h0]))
      · rename_i h0
        exact saveInTreeStep_frame s0 _ _ tree v key (hkey s0 (by simp [firstSegment, h0]))

theorem get_pathSteps_map (segs : List Seg) (z : Value) (m : Tree)
    (h : z.get (pathSteps segs) = some (Value.map m)) : ∃ old, z = Value.map old := by
  cases segs with
  | nil =>
    simp only [pathSteps, Value.get, Option.some.injEq] at h
    exact ⟨m, h⟩
  | cons sg rest =>
    have hs : pathSteps (sg :: rest) = Step.key sg.name :: (sg.idxs.map Step.idx ++ pathSteps rest) := by
      simp [pathSteps, Seg.steps]
    rw [hs] at h
    obtain ⟨old, _, ho, _, _⟩ := get_key_some _ _ sg.name _ h
    exact ⟨old, ho⟩

theorem get_pathSteps_mergeInto (segs : List Seg) (old m : Tree)
    (h : (Value.map old).get (pathSteps segs) = some (Value.map m)) :
    ∃ m2, (Value.map (mergeInto old [])).get (pathSteps segs) = some (Value.map m2) ∧
      ∀ key, mget m2 key = mget m key := by
  cases segs with
  | nil =>
    simp only [pathSteps, Value.get, Option.some.injEq, Value.map.injEq] at h
    subst h
    refine ⟨mergeInto old [], rfl, ?_⟩
    intro key
    rw [mget_mergeInto]
    simp [mget]
  | cons sg rest =>
    have hs : pathSteps (sg :: rest) = Step.key sg.name :: (sg.idxs.map Step.idx ++ pathSteps rest) := by
      simp [pathSteps, Seg.steps]
    rw [hs] at h ⊢
    rw [get_mergeInto_nil]
    exact ⟨m, h, fun _ => rfl⟩

theorem saveInTreeSplits_isNil (splits : List String) (tree : Tree) (v : Value)
    (hv : v.isNil = true) : saveInTreeSplits splits tree v = (tree, Status.ok) := by
  rcases splits with _ | ⟨s0, _ | ⟨s, rest⟩⟩ <;> simp [saveInTreeSplits, hv]

theorem saveInTreeSplits_path_frame (nxt : String) (post : List String) (v : Value)
    (hn : nxt ≠ "$") (hv : v.isNil = false) :
    ∀ (segs : List Seg) (tree m : Tree), (∀ sg ∈ segs, sg.wf) →
      (Value.map tree).get (pathSteps segs) = some (Value.map m) →
      ∃ m1, (Value.map (saveInTreeSplits (segs.map Seg.render ++ nxt :: post) tree v).1).get
          (pathSteps segs) = some (Value.map m1) ∧
        ∀ key, key ≠ segKey nxt → mget m1 key = mget m key := by
  intro segs
  induction segs with
  | nil =>
    intro tree m _ hget
    simp only [pathSteps, Value.get, Option.some.injEq, Value.map.injEq] at hget
    subst hget
    refine ⟨_, rfl, ?_⟩
    intro key hkey
    apply saveInTreeSplits_frame
    intro s hs
    simp only [List.map_nil, List.nil_append, firstSegment, hn, if_false,
      Option.some.injEq] at hs
    subst hs
    exact hkey
  | cons sg segs ih =>
    intro tree m hwf hget
    have hsg : sg.wf := hwf sg (by simp)
    have hsegs : ∀ a ∈ segs, a.wf := fun a ha => hwf a (List.mem_cons_of_mem _ ha)
    have hsteps : pathSteps (sg :: segs)
        = Step.key sg.name :: (sg.idxs.map Step.idx ++ pathSteps segs) := by
      simp [pathSteps, Seg.steps]
    rw [hsteps] at hget ⊢
    obtain ⟨t0, z, ht0, hz, hzget⟩ := get_key_some _ _ sg.name _ hget
    injection ht0 with ht0
    subst ht0
    rw [get_append] at hzget
    cases hy : z.get (sg.idxs.map Step.idx) with
    | none => simp [hy] at hzget
    | some y =>
      rw [hy] at hzget
      simp only [Option.bind] at hzget
      obtain ⟨old, rfl⟩ := get_pathSteps_map segs y m hzget
      simp only [List.map_cons, List.cons_append]
      rw [saveInTreeSplits_cons sg.render (segs.map Seg.render ++ nxt :: post) tree v (by simp)
        (render_ne_root sg hsg) hv]
      simp only [saveInTreeStep, split_render sg hsg.2.1, Bool.false_eq_true, if_false]
      cases hidx : sg.idxs with
      | nil =>
        rw [hidx] at hy
        simp only [List.map_nil, Value.get] at hy
        injection hy with hy
        subst hy
        have hren : sg.render = sg.name := by simp [Seg.render, hidx, renderIdxs]
        simp only [List.map_nil, hren, hz, List.nil_append]
        obtain ⟨m1, h1, h2⟩ := ih old m hsegs hzget
        exact ⟨m1, by rw [get_mset_key]; exact h1, h2⟩
      | cons i rest =>
        rw [hidx] at hy
        obtain ⟨s, _, hs, _, _⟩ := get_idx_some _ _ i _ hy
        subst hs
        have hlt : ∀ a ∈ i :: rest, a < 2 ^ 63 := by
          intro a ha
          exact hsg.2.2.1 a (by rw [hidx]; exact ha)
        obtain ⟨r, hr, hval, hslice⟩ := saveInSlice_existing (i :: rest) s old (by simp) hlt hy
        obtain ⟨m2, hm2, hm2eq⟩ := get_pathSteps_mergeInto segs old m hzget
        obtain ⟨m1, h1, h2⟩ := ih (mergeInto old []) m2 hsegs hm2
        simp only [List.map_cons] at hr hslice ⊢
        simp only [sliceAt, hz, hr, hval]
        refine ⟨m1, ?_, ?_⟩
        · rw [get_mset_key, get_append, hslice]
          exact h1
        · intro key hkey
          rw [h2 key hkey, hm2eq]

/-- C13: frame of a save. Whatever the outcome of `saveInTree` (so in particular
when it succeeds): every key of the tree other than the key of the path's first
segment keeps its value; and for a path "$.s1.….sn.nxt.post" whose well-formed
segments `s1..sn` (n >= 0, plain or indexed) lead in the tree to the mapping `m` (a
mapping on the path, or an existing array element that is a mapping), the same steps
lead afterwards to a mapping in which every key other than the key of the next
segment `nxt` has the value it had in `m`. -/
theorem saveInTree_frame (tree : Tree) (v : Value) :
    (∀ (path key : String), rootKey path ≠ some key →
      mget (saveInTree tree path v).1 key = mget tree key) ∧
    (∀ (segs : List Seg) (nxt : String) (post : List String) (m : Tree),
      (∀ sg ∈ segs, sg.wf) → '.' ∉ nxt.data → nxt ≠ "$" → (∀ a ∈ post, '.' ∉ a.data) →
      (Value.map tree).get (pathSteps segs) = some (Value.map m) →
      ∃ m1,
        (Value.map (saveInTree tree
          ("$." ++ join (segs.map Seg.render ++ nxt :: post) ".") v).1).get (pathSteps segs)
          = some (Value.map m1) ∧
        ∀ key, key ≠ segKey nxt → mget m1 key = mget m key) := by
  constructor
  · intro path key hkey
    unfold saveInTree
    apply saveInTreeSplits_frame
    intro s hs
    intro heq
    apply hkey
    simp [rootKey, hs, heq]
  · intro segs nxt post m hsegs hnd hn hpost hget
    have hdot : ∀ a ∈ segs.map Seg.render ++ nxt :: post, '.' ∉ a.data := by
      intro a ha
      rcases List.mem_append.mp ha with h | h
      · obtain ⟨sg, hsg, rfl⟩ := List.mem_map.mp h
        exact render_no_dot sg (hsegs sg hsg).1
      · rcases List.mem_cons.mp h with rfl | h
        · exact hnd
        · exact hpost a h
    have hsplit := split_root_join (segs.map Seg.render ++ nxt :: post) (by simp) hdot
    unfold saveInTree
    rw [hsplit]
    cases hv : v.isNil with
    | true =>
      rw [saveInTreeSplits_isNil _ tree v hv]
      exact ⟨m, hget, fun _ _ => rfl⟩
    | false =>
      have main := saveInTreeSplits_path_frame nxt post v hn hv segs tree m hsegs hget
      cases segs with
      | nil =>
        simp only [List.map_nil, List.nil_append] at main ⊢
        rcases saveInTreeSplits_root nxt post tree v with h | h
        · rw [h]
          exact main
        · exact absurd h hn
      | cons sg rest =>
        simp only [List.map_cons, List.cons_append] at main ⊢
        rcases saveInTreeSplits_root sg.render (rest.map Seg.render ++ nxt :: post) tree v
          with h | h
        · rw [h]
          exact main
        · exact absurd h (render_ne_root sg (hsegs sg (by simp)))

/-- Witness of C13: "$.test1[0].b" in a tree whose `test1[0]` is the mapping `a: "aValue"`
and that has another key `other`. -/
theorem saveInTree_frame_witness :
    mget (saveInTree [("test1", Value.seq [Value.map [("a", Value.str "aValue")]]),
        ("other", Value.num 1)] "$.test1[0].b" (Value.str "bValue")).1 "other"
      = mget [("test1", Value.seq [Value.map [("a", Value.str "aValue")]]),
        ("other", Value.num 1)] "other" ∧
    ∃ m1,
      (Value.map (saveInTree [("test1", Value.seq [Value.map [("a", Value.str "aValue")]]),
        ("other", Value.num 1)]
        ("$." ++ join ([Seg.mk "test1" [0]].map Seg.render ++ "b" :: []) ".")
        (Value.str "bValue")).1).get (pathSteps [Seg.mk "test1" [0]]) = some (Value.map m1) ∧
      ∀ key, key ≠ segKey "b" → mget m1 key = mget [("a", Value.str "aValue")] key :=
  ⟨(saveInTree_frame [("test1", Value.seq [Value.map [("a", Value.str "aValue")]]),
      ("other", Value.num 1)] (Value.str "bValue")).1 "$.test1[0].b" "other" (by decide),
   (saveInTree_frame [("test1", Value.seq [Value.map [("a", Value.str "aValue")]]),
      ("other", Value.num 1)] (Value.str "bValue")).2 [Seg.mk "test1" [0]] "b" []
      [("a", Value.str "aValue")]
      (by
        intro sg hsg
        simp at hsg
        subst hsg
        refine ⟨by decide, by decide, ?_, by simp⟩
        intro i hi
        simp at hi
        subst hi
        decide)
      (by decide) (by decide) (by simp) rfl⟩

/-! ## The validator gate -/

theorem transformAndValidate_ok (c : Codec) (validate : String → Result Bool)
    (root : Context → Result Value) (input : Context) (out : String)
    (h : transformAndValidate c validate root input = Result.ok out) :
    ∃ t, root input = Result.ok t ∧ c.jsonMarshal t = Result.ok out ∧
      validate out = Result.ok true := by
  unfold transformAndValidate at h
  cases hr : root input with
  | panic m => simp [hr] at h
  | error e => simp [hr] at h
  | ok t =>
    simp only [hr] at h
    cases hm : c.jsonMarshal t with
    | panic m => simp [hm] at h
    | error e => simp [hm] at h
    | ok o =>
      simp only [hm] at h
      cases hval : validate o with
      | panic m => simp [hval] at h
      | error e => simp [hval] at h
      | ok b =>
        cases b with
        | false => simp [hval] at h
        | true =>
          simp only [hval, Result.ok.injEq] at h
          subst h
          exact ⟨t, rfl, hm, hval⟩

theorem validationFailure_ne (e : String) :
    "failed to parse input JSON: " ++ e ≠ validationFailure ∧
    "failed to parse input XML: " ++ e ≠ validationFailure ∧
    "failed transformation: " ++ e ≠ validationFailure ∧
    "failed to JSON marsal transformed data: " ++ e ≠ validationFailure ∧
    "transformed result validation error: " ++ e ≠ validationFailure := by
  refine ⟨?_, ?_, ?_, ?_, ?_⟩ <;>
  · intro h
    have h2 := congrArg (fun s : String => s.data.head?) h
    simp only [validationFailure, String.data_append] at h2
    revert h2
    first
      | (change some 'f' = some 's' → False; decide)
      | (change some 't' = some 's' → False; decide)

/-- The outcomes of the stages after parsing, and what the shared part of `Transform`
returns for each failure. -/
theorem transformAndValidate_failures (c : Codec) (validate : String → Result Bool)
    (root : Context → Result Value) (input : Context) :
    (∀ e, root input = Result.error e →
      transformAndValidate c validate root input
        = Result.error ("failed transformation: " ++ e)) ∧
    (∀ t e, root input = Result.ok t → c.jsonMarshal t = Result.error e →
      transformAndValidate c validate root input
        = Result.error ("failed to JSON marsal transformed data: " ++ e)) ∧
    (∀ t out e, root input = Result.ok t → c.jsonMarshal t = Result.ok out →
      validate out = Result.error e →
      transformAndValidate c validate root input
        = Result.error ("transformed result validation error: " ++ e)) ∧
    (∀ t out, root input = Result.ok t → c.jsonMarshal t = Result.ok out →
      validate out = Result.ok false →
      transformAndValidate c validate root input = Result.error validationFailure) := by
  refine ⟨?_, ?_, ?_, ?_⟩
  · intro e h
    simp [transformAndValidate, h]
  · intro t e h1 h2
    simp [transformAndValidate, h1, h2]
  · intro t out e h1 h2 h3
    simp [transformAndValidate, h1, h2, h3]
  · intro t out h1 h2 h3
    simp [transformAndValidate, h1, h2, h3]

/-- C14: validator gate. `JSONTransformer.Transform` and `XMLTransformer.Transform`
return a document only if the schema's `Validate`, applied to the returned bytes,
reported valid with no error; and on a parse failure, a transformation failure, an
encoding failure, a validator error or a result reported not valid they return an
error (and so no document). -/
theorem Transform_validator_gate (c : Codec) (jt : JSONTransformer) (xt : XMLTransformer)
    (raw : String) :
    (∀ out, jt.Transform c raw = Result.ok out → jt.validate out = Result.ok true) ∧
    (∀ out, xt.Transform c raw = Result.ok out → xt.validate out = Result.ok true) ∧
    (∀ e, c.jsonUnmarshal raw = Result.error e → ∃ msg, jt.Transform c raw = Result.error msg) ∧
    (∀ e, c.xmlParse raw = Result.error e → ∃ msg, xt.Transform c raw = Result.error msg) ∧
    (∀ v, c.jsonUnmarshal raw = Result.ok v →
      (∀ e, jt.root (Context.json v) = Result.error e →
        ∃ msg, jt.Transform c raw = Result.error msg) ∧
      (∀ t e, jt.root (Context.json v) = Result.ok t → c.jsonMarshal t = Result.error e →
        ∃ msg, jt.Transform c raw = Result.error msg) ∧
      (∀ t out e, jt.root (Context.json v) = Result.ok t → c.jsonMarshal t = Result.ok out →
        jt.validate out = Result.error e → ∃ msg, jt.Transform c raw = Result.error msg) ∧
      (∀ t out, jt.root (Context.json v) = Result.ok t → c.jsonMarshal t = Result.ok out →
        jt.validate out = Result.ok false → ∃ msg, jt.Transform c raw = Result.error msg)) ∧
    (∀ n, c.xmlParse raw = Result.ok n →
      (∀ e, xt.root (Context.xml n) = Result.error e →
        ∃ msg, xt.Transform c raw = Result.error msg) ∧
      (∀ t e, xt.root (Context.xml n) = Result.ok t → c.jsonMarshal t = Result.error e →
        ∃ msg, xt.Transform c raw = Result.error msg) ∧
      (∀ t out e, xt.root (Context.xml n) = Result.ok t → c.jsonMarshal t = Result.ok out →
        xt.validate out = Result.error e → ∃ msg, xt.Transform c raw = Result.error msg) ∧
      (∀ t out, xt.root (Context.xml n) = Result.ok t → c.jsonMarshal t = Result.ok out →
        xt.validate out = Result.ok false → ∃ msg, xt.Transform c raw = Result.error msg)) := by
  refine ⟨?_, ?_, ?_, ?_, ?_, ?_⟩
  · intro out h
    unfold JSONTransformer.Transform at h
    cases hp : c.jsonUnmarshal raw with
    | panic m => simp [hp] at h
    | error e => simp [hp] at h
    | ok v =>
      simp only [hp] at h
      obtain ⟨_, _, _, hv⟩ := transformAndValidate_ok c _ _ _ out h
      exact hv
  · intro out h
    unfold XMLTransformer.Transform at h
    cases hp : c.xmlParse raw with
    | panic m => simp [hp] at h
    | error e => simp [hp] at h
    | ok n =>
      simp only [hp] at h
      obtain ⟨_, _, _, hv⟩ := transformAndValidate_ok c _ _ _ out h
      exact hv
  · intro e h
    exact ⟨"failed to parse input JSON: " ++ e, by simp [JSONTransformer.Transform, h]⟩
  · intro e h
    exact ⟨"failed to parse input XML: " ++ e, by simp [XMLTransformer.Transform, h]⟩
  · intro v hp
    obtain ⟨f1, f2, f3, f4⟩ := transformAndValidate_failures c jt.validate jt.root (Context.json v)
    refine ⟨?_, ?_, ?_, ?_⟩
    · intro e h
      exact ⟨_, by simp only [JSONTransformer.Transform, hp]; exact f1 e h⟩
    · intro t e h1 h2
      exact ⟨_, by simp only [JSONTransformer.Transform, hp]; exact f2 t e h1 h2⟩
    · intro t out e h1 h2 h3
      exact ⟨_, by simp only [JSONTransformer.Transform, hp]; exact f3 t out e h1 h2 h3⟩
    · intro t out h1 h2 h3
      exact ⟨_, by simp only [JSONTransformer.Transform, hp]; exact f4 t out h1 h2 h3⟩
  · intro n hp
    obtain ⟨f1, f2, f3, f4⟩ := transformAndValidate_failures c xt.validate xt.root (Context.xml n)
    refine ⟨?_, ?_, ?_, ?_⟩
    · intro e h
      exact ⟨_, by simp only [XMLTransformer.Transform, hp]; exact f1 e h⟩
    · intro t e h1 h2
      exact ⟨_, by simp only [XMLTransformer.Transform, hp]; exact f2 t e h1 h2⟩
    · intro t out e h1 h2 h3
      exact ⟨_, by simp only [XMLTransformer.Transform, hp]; exact f3 t out e h1 h2 h3⟩
    · intro t out h1 h2 h3
      exact ⟨_, by simp only [XMLTransformer.Transform, hp]; exact f4 t out h1 h2 h3⟩

/-- Witness of C14 on the example transformers: a valid document, and one input for
each kind of failure. -/
theorem Transform_validator_gate_witness :
    exampleJSONTransformer.validate "doc" = Result.ok true ∧
    exampleXMLTransformer.validate "doc" = Result.ok true ∧
    (∃ msg, exampleJSONTransformer.Transform exampleCodec "bad" = Result.error msg) ∧
    (∃ msg, exampleXMLTransformer.Transform exampleCodec "bad" = Result.error msg) ∧
    (∃ msg, exampleJSONTransformer.Transform exampleCodec "fail" = Result.error msg) ∧
    (∃ msg, exampleJSONTransformer.Transform exampleCodec "num" = Result.error msg) ∧
    (∃ msg, exampleJSONTransformer.Transform exampleCodec "broken" = Result.error msg) ∧
    (∃ msg, exampleJSONTransformer.Transform exampleCodec "invalid" = Result.error msg) ∧
    (∃ msg, exampleXMLTransformer.Transform exampleCodec "fail" = Result.error msg) ∧
    (∃ msg, exampleXMLTransformer.Transform exampleCodec "num" = Result.error msg) ∧
    (∃ msg, exampleXMLTransformer.Transform exampleCodec "broken" = Result.error msg) ∧
    (∃ msg, exampleXMLTransformer.Transform exampleCodec "invalid" = Result.error msg) :=
  ⟨(Transform_validator_gate exampleCodec exampleJSONTransformer exampleXMLTransformer "doc").1 "doc" rfl,
   (Transform_validator_gate exampleCodec exampleJSONTransformer exampleXMLTransformer "x").2.1 "doc" rfl,
   (Transform_validator_gate exampleCodec exampleJSONTransformer exampleXMLTransformer "bad").2.2.1 "syntax" rfl,
   (Transform_validator_gate exampleCodec exampleJSONTransformer exampleXMLTransformer "bad").2.2.2.1 "syntax" rfl,
   ((Transform_validator_gate exampleCodec exampleJSONTransformer exampleXMLTransformer "fail").2.2.2.2.1 (Value.str "fail") rfl).1 "operation" rfl,
   ((Transform_validator_gate exampleCodec exampleJSONTransformer exampleXMLTransformer "num").2.2.2.2.1 (Value.str "num") rfl).2.1 (Value.num 1) "unsupported" rfl rfl,
   ((Transform_validator_gate exampleCodec exampleJSONTransformer exampleXMLTransformer "broken").2.2.2.2.1 (Value.str "broken") rfl).2.2.1 (Value.str "broken") "broken"
      "schema" rfl rfl rfl,
   ((Transform_validator_gate exampleCodec exampleJSONTransformer exampleXMLTransformer "invalid").2.2.2.2.1 (Value.str "invalid") rfl).2.2.2 (Value.str "invalid") "invalid"
      rfl rfl rfl,
   ((Transform_validator_gate exampleCodec exampleJSONTransformer exampleXMLTransformer "fail").2.2.2.2.2 ⟨4⟩ rfl).1 "operation" rfl,
   ((Transform_validator_gate exampleCodec exampleJSONTransformer exampleXMLTransformer "num").2.2.2.2.2 ⟨3⟩ rfl).2.1 (Value.num 1) "unsupported" rfl rfl,
   ((Transform_validator_gate exampleCodec exampleJSONTransformer exampleXMLTransformer "broken").2.2.2.2.2 ⟨6⟩ rfl).2.2.1 (Value.str "broken") "broken" "schema" rfl rfl rfl,
   ((Transform_validator_gate exampleCodec exampleJSONTransformer exampleXMLTransformer "invalid").2.2.2.2.2 ⟨7⟩ rfl).2.2.2 (Value.str "invalid") "invalid" rfl rfl rfl⟩

/-- C15: when the schema reports the assembled document as not valid (no error),
`Transform` returns the validation-failure error, and the error it returns for a
parse failure, a transformation failure, an encoding failure or a validator error is
never that error. -/
theorem Transform_validation_failure_distinct (c : Codec) (jt : JSONTransformer)
    (xt : XMLTransformer) (raw : String) :
    (∀ v t out, c.jsonUnmarshal raw = Result.ok v → jt.root (Context.json v) = Result.ok t →
      c.jsonMarshal t = Result.ok out → jt.validate out = Result.ok false →
      jt.Transform c raw = Result.error validationFailure) ∧
    (∀ n t out, c.xmlParse raw = Result.ok n → xt.root (Context.xml n) = Result.ok t →
      c.jsonMarshal t = Result.ok out → xt.validate out = Result.ok false →
      xt.Transform c raw = Result.error validationFailure) ∧
    (∀ e, c.jsonUnmarshal raw = Result.error e →
      ∃ msg, jt.Transform c raw = Result.error msg ∧ msg ≠ validationFailure) ∧
    (∀ e, c.xmlParse raw = Result.error e →
      ∃ msg, xt.Transform c raw = Result.error msg ∧ msg ≠ validationFailure) ∧
    (∀ v, c.jsonUnmarshal raw = Result.ok v →
      (∀ e, jt.root (Context.json v) = Result.error e →
        ∃ msg, jt.Transform c raw = Result.error msg ∧ msg ≠ validationFailure) ∧
      (∀ t e, jt.root (Context.json v) = Result.ok t → c.jsonMarshal t = Result.error e →
        ∃ msg, jt.Transform c raw = Result.error msg ∧ msg ≠ validationFailure) ∧
      (∀ t out e, jt.root (Context.json v) = Result.ok t → c.jsonMarshal t = Result.ok out →
        jt.validate out = Result.error e →
        ∃ msg, jt.Transform c raw = Result.error msg ∧ msg ≠ validationFailure)) ∧
    (∀ n, c.xmlParse raw = Result.ok n →
      (∀ e, xt.root (Context.xml n) = Result.error e →
        ∃ msg, xt.Transform c raw = Result.error msg ∧ msg ≠ validationFailure) ∧
      (∀ t e, xt.root (Context.xml n) = Result.ok t → c.jsonMarshal t = Result.error e →
        ∃ msg, xt.Transform c raw = Result.error msg ∧ msg ≠ validationFailure) ∧
      (∀ t out e, xt.root (Context.xml n) = Result.ok t → c.jsonMarshal t = Result.ok out →
        xt.validate out = Result.error e →
        ∃ msg, xt.Transform c raw = Result.error msg ∧ msg ≠ validationFailure)) := by
  refine ⟨?_, ?_, ?_, ?_, ?_, ?_⟩
  · intro v t out hp h1 h2 h3
    simp only [JSONTransformer.Transform, hp]
    exact (transformAndValidate_failures c jt.validate jt.root _).2.2.2 t out h1 h2 h3
  · intro n t out hp h1 h2 h3
    simp only [XMLTransformer.Transform, hp]
    exact (transformAndValidate_failures c xt.validate xt.root _).2.2.2 t out h1 h2 h3
  · intro e h
    exact ⟨"failed to parse input JSON: " ++ e, by simp [JSONTransformer.Transform, h],
      (validationFailure_ne e).1⟩
  · intro e h
    exact ⟨"failed to parse input XML: " ++ e, by simp [XMLTransformer.Transform, h],
      (validationFailure_ne e).2.1⟩
  · intro v hp
    obtain ⟨f1, f2, f3, _⟩ := transformAndValidate_failures c jt.validate jt.root (Context.json v)
    refine ⟨?_, ?_, ?_⟩
    · intro e h
      exact ⟨_, by simp only [JSONTransformer.Transform, hp]; exact f1 e h,
        (validationFailure_ne e).2.2.1⟩
    · intro t e h1 h2
      exact ⟨_, by simp only [JSONTransformer.Transform, hp]; exact f2 t e h1 h2,
        (validationFailure_ne e).2.2.2.1⟩
    · intro t out e h1 h2 h3
      exact ⟨_, by simp only [JSONTransformer.Transform, hp]; exact f3 t out e h1 h2 h3,
        (validationFailure_ne e).2.2.2.2⟩
  · intro n hp
    obtain ⟨f1, f2, f3, _⟩ := transformAndValidate_failures c xt.validate xt.root (Context.xml n)
    refine ⟨?_, ?_, ?_⟩
    · intro e h
      exact ⟨_, by simp only [XMLTransformer.Transform, hp]; exact f1 e h,
        (validationFailure_ne e).2.2.1⟩
    · intro t e h1 h2
      exact ⟨_, by simp only [XMLTransformer.Transform, hp]; exact f2 t e h1 h2,
        (validationFailure_ne e).2.2.2.1⟩
    · intro t out e h1 h2 h3
      exact ⟨_, by simp only [XMLTransformer.Transform, hp]; exact f3 t out e h1 h2 h3,
        (validationFailure_ne e).2.2.2.2⟩

/-- Witness of C15 on the example transformers: a result reported not valid, and one
input for each other kind of failure. -/
theorem Transform_validation_failure_distinct_witness :
    exampleJSONTransformer.Transform exampleCodec "invalid" = Result.error validationFailure ∧
    exampleXMLTransformer.Transform exampleCodec "invalid" = Result.error validationFailure ∧
    (∃ msg, exampleJSONTransformer.Transform exampleCodec "bad" = Result.error msg ∧
      msg ≠ validationFailure) ∧
    (∃ msg, exampleXMLTransformer.Transform exampleCodec "bad" = Result.error msg ∧
      msg ≠ validationFailure) ∧
    (∃ msg, exampleJSONTransformer.Transform exampleCodec "fail" = Result.error msg ∧
      msg ≠ validationFailure) ∧
    (∃ msg, exampleJSONTransformer.Transform exampleCodec "num" = Result.error msg ∧
      msg ≠ validationFailure) ∧
    (∃ msg, exampleJSONTransformer.Transform exampleCodec "broken" = Result.error msg ∧
      msg ≠ validationFailure) ∧
    (∃ msg, exampleXMLTransformer.Transform exampleCodec "fail" = Result.error msg ∧
      msg ≠ validationFailure) ∧
    (∃ msg, exampleXMLTransformer.Transform exampleCodec "num" = Result.error msg ∧
      msg ≠ validationFailure) ∧
    (∃ msg, exampleXMLTransformer.Transform exampleCodec "broken" = Result.error msg ∧
      msg ≠ validationFailure) :=
  ⟨(Transform_validation_failure_distinct exampleCodec exampleJSONTransformer exampleXMLTransformer "invalid").1 (Value.str "invalid") (Value.str "invalid") "invalid" rfl rfl rfl rfl,
   (Transform_validation_failure_distinct exampleCodec exampleJSONTransformer exampleXMLTransformer "invalid").2.1 ⟨7⟩ (Value.str "invalid") "invalid" rfl rfl rfl rfl,
   (Transform_validation_failure_distinct exampleCodec exampleJSONTransformer exampleXMLTransformer "bad").2.2.1 "syntax" rfl,
   (Transform_validation_failure_distinct exampleCodec exampleJSONTransformer exampleXMLTransformer "bad").2.2.2.1 "syntax" rfl,
   ((Transform_validation_failure_distinct exampleCodec exampleJSONTransformer exampleXMLTransformer "fail").2.2.2.2.1 (Value.str "fail") rfl).1 "operation" rfl,
   ((Transform_validation_failure_distinct exampleCodec exampleJSONTransformer exampleXMLTransformer "num").2.2.2.2.1 (Value.str "num") rfl).2.1 (Value.num 1) "unsupported" rfl rfl,
   ((Transform_validation_failure_distinct exampleCodec exampleJSONTransformer exampleXMLTransformer "broken").2.2.2.2.1 (Value.str "broken") rfl).2.2 (Value.str "broken") "broken"
      "schema" rfl rfl rfl,
   ((Transform_validation_failure_distinct exampleCodec exampleJSONTransformer exampleXMLTransformer "fail").2.2.2.2.2 ⟨4⟩ rfl).1 "operation" rfl,
   ((Transform_validation_failure_distinct exampleCodec exampleJSONTransformer exampleXMLTransformer "num").2.2.2.2.2 ⟨3⟩ rfl).2.1 (Value.num 1) "unsupported" rfl rfl,
   ((Transform_validation_failure_distinct exampleCodec exampleJSONTransformer exampleXMLTransformer "broken").2.2.2.2.2 ⟨6⟩ rfl).2.2 (Value.str "broken") "broken" "schema" rfl rfl rfl⟩

/-! ## The operation pipeline of a source -/

/-- C16: absence is never an error. When the (rewritten) path of a source matches
nothing in the XML context, or the matched nodes convert to nil, the source returns
nil with no error, whatever its operations are (none of them is applied). -/
theorem transformXML_absent (env : Env) (ti : transformInstructionXML) (node : XmlNode)
    (ft : String) (md : pathModifier) :
    (env.find node (rewrittenPath ti md) = some [] →
      ti.transform env (Context.xml node) ft md = Result.ok Value.null) ∧
    (∀ raw, raw ≠ [] → env.find node (rewrittenPath ti md) = some raw →
      env.convert raw ft = Result.ok Value.null →
      ti.transform env (Context.xml node) ft md = Result.ok Value.null) := by
  constructor
  · intro h
    cases md <;> simp_all [transformInstructionXML.transform, rewrittenPath]
  · intro raw hraw h hc
    obtain ⟨n, ns, rfl⟩ := List.exists_cons_of_ne_nil hraw
    cases md <;> simp_all [transformInstructionXML.transform, rewrittenPath, isNil_null]

/-- Witness of C16: a path that matches nothing, and a match that converts to nil,
both on a source whose operation would reject any input. -/
theorem transformXML_absent_witness :
    (transformInstructionXML.mk "/none" [⟨fun _ => Result.error "rejected"⟩]).transform
      exampleEnv exampleCtx "number" none = Result.ok Value.null ∧
    srcFail.transform (Env.mk (fun _ _ => some [⟨1⟩]) (fun _ _ => Result.ok Value.null)
      (fun _ => "")) exampleCtx "number" none = Result.ok Value.null :=
  ⟨(transformXML_absent exampleEnv ⟨"/none", [⟨fun _ => Result.error "rejected"⟩]⟩ ⟨0⟩
      "number" none).1 rfl,
   (transformXML_absent (Env.mk (fun _ _ => some [⟨1⟩]) (fun _ _ => Result.ok Value.null)
      (fun _ => "")) srcFail ⟨0⟩ "number" none).2 [⟨1⟩] (by simp) rfl rfl⟩

theorem applyOperations_chain (path : String) (ops : List transformOperation) :
    ∀ v w, chain ops v = some w → applyOperations path ops v = Result.ok w := by
  induction ops with
  | nil =>
    intro v w h
    simp only [chain, Option.some.injEq] at h
    subst h
    rfl
  | cons op ops ih =>
    intro v w h
    simp only [chain] at h
    simp only [applyOperations]
    cases hop : op.transform v with
    | ok x =>
      rw [hop] at h
      exact ih x w h
    | error e => simp [hop] at h
    | panic m => simp [hop] at h

theorem applyOperations_first_failure (path : String) (op : transformOperation)
    (post : List transformOperation) (e : String) (pre : List transformOperation) :
    ∀ v w, chain pre v = some w → op.transform w = Result.error e →
      applyOperations path (pre ++ op :: post) v
        = Result.error ("failed operation on value from JSONPath " ++ quote path ++ ": " ++ e) := by
  induction pre with
  | nil =>
    intro v w h hop
    simp only [chain, Option.some.injEq] at h
    subst h
    simp [applyOperations, hop]
  | cons p pre ih =>
    intro v w h hop
    simp only [chain] at h
    simp only [List.cons_append, applyOperations]
    cases hp : p.transform v with
    | ok x =>
      rw [hp] at h
      exact ih x w h hop
    | error e2 => simp [hp] at h
    | panic m => simp [hp] at h

theorem transformXML_extracted (env : Env) (ti : transformInstructionXML) (node : XmlNode)
    (ft : String) (md : pathModifier) (raw : List XmlNode) (v : Value) (hraw : raw ≠ [])
    (hfind : env.find node (rewrittenPath ti md) = some raw)
    (hval : env.convert raw ft = Result.ok v ∨
      ((∃ e, env.convert raw ft = Result.error e) ∧ v = Value.nodes raw))
    (hv : v.isNil = false) :
    ti.transform env (Context.xml node) ft md
      = applyOperations (rewrittenPath ti md) ti.Operations v := by
  obtain ⟨n, ns, rfl⟩ := List.exists_cons_of_ne_nil hraw
  rcases hval with h | ⟨⟨e, h⟩, rfl⟩
  · cases md <;> simp_all [transformInstructionXML.transform, rewrittenPath]
  · cases md <;> simp_all [transformInstructionXML.transform, rewrittenPath]

/-- C17: operations chain left to right. When extraction yields the non-nil `v` (the
converted match, or the raw match when the conversion fails), the source returns
`opn(…op1(v))` if every operation succeeds; and if `op` is the first operation to
fail, with error `e`, the call returns the error that quotes the rewritten path of
the source (and no value), whatever the operations after `op` are. -/
theorem transformXML_chain (env : Env) (ti : transformInstructionXML) (node : XmlNode)
    (ft : String) (md : pathModifier) (raw : List XmlNode) (v : Value) (hraw : raw ≠ [])
    (hfind : env.find node (rewrittenPath ti md) = some raw)
    (hval : env.convert raw ft = Result.ok v ∨
      ((∃ e, env.convert raw ft = Result.error e) ∧ v = Value.nodes raw))
    (hv : v.isNil = false) :
    (∀ w, chain ti.Operations v = some w →
      ti.transform env (Context.xml node) ft md = Result.ok w) ∧
    (∀ (pre post : List transformOperation) (op : transformOperation) (w : Value) (e : String),
      ti.Operations = pre ++ op :: post → chain pre v = some w →
      op.transform w = Result.error e →
      ti.transform env (Context.xml node) ft md
        = Result.error ("failed operation on value from JSONPath "
            ++ quote (rewrittenPath ti md) ++ ": " ++ e)) := by
  rw [transformXML_extracted env ti node ft md raw v hraw hfind hval hv]
  constructor
  · intro w h
    exact applyOperations_chain _ _ v w h
  · intro pre post op w e hops hpre hop
    rw [hops]
    exact applyOperations_first_failure _ op post e pre v w hpre hop

/-- Witness of C17: the path "a" rewritten to "/root/a" matches a node converted to 7;
`opInc` then `opDouble` give 16, and `opInc`, `opReject`, `opDouble` fail at the second
operation. -/
theorem transformXML_chain_witness :
    (transformInstructionXML.mk "a" [opInc, opDouble]).transform exampleEnv exampleCtx
      "number" underRoot = Result.ok (Value.num 16) ∧
    (transformInstructionXML.mk "a" [opInc, opReject, opDouble]).transform exampleEnv exampleCtx
      "number" underRoot
      = Result.error ("failed operation on value from JSONPath "
          ++ quote (rewrittenPath (transformInstructionXML.mk "a" [opInc, opReject, opDouble])
            underRoot) ++ ": " ++ "rejected") :=
  ⟨(transformXML_chain exampleEnv ⟨"a", [opInc, opDouble]⟩ ⟨0⟩ "number" underRoot [⟨7⟩]
      (Value.num 7) (by simp) rfl (Or.inl rfl) rfl).1 (Value.num 16) rfl,
   (transformXML_chain exampleEnv ⟨"a", [opInc, opReject, opDouble]⟩ ⟨0⟩ "number" underRoot
      [⟨7⟩] (Value.num 7) (by simp) rfl (Or.inl rfl) rfl).2 [opInc] [opDouble] opReject
      (Value.num 8) "rejected" rfl rfl rfl⟩

/-- C18, evaluated at a source without operations whose match cannot be converted:
the call returns the unconverted raw match and no error. -/
theorem transformXML_conversion_failure_returns_raw :
    convertFailsEnv.find ⟨0⟩ "/a" = some [⟨1⟩] ∧
    convertFailsEnv.convert [⟨1⟩] "number" = Result.error "cannot convert" ∧
    srcA.Operations.length = 0 ∧
    srcA.transform convertFailsEnv exampleCtx "number" none = Result.ok (Value.nodes [⟨1⟩]) :=
  ⟨rfl, rfl, rfl, rfl⟩

/-! ## Construction of rules and sources -/

/-- C19: construction of a rule. An absent (empty) method and "first" give First,
"last" gives Last, "concatenate" gives Concatenate, each with the declared sources
and options; every other method string gives an error. -/
theorem UnmarshalJSON_method (jtis : transformInstructionsJSON) :
    ((jtis.Method = "" ∨ jtis.Method = "first") →
      transformInstructions.UnmarshalJSON (Except.ok jtis)
        = Except.ok ⟨jtis.From, transformMethod.first, jtis.MethodOptions⟩) ∧
    (jtis.Method = "last" →
      transformInstructions.UnmarshalJSON (Except.ok jtis)
        = Except.ok ⟨jtis.From, transformMethod.last, jtis.MethodOptions⟩) ∧
    (jtis.Method = "concatenate" →
      transformInstructions.UnmarshalJSON (Except.ok jtis)
        = Except.ok ⟨jtis.From, transformMethod.concatenate, jtis.MethodOptions⟩) ∧
    (jtis.Method ∉ ["", "first", "last", "concatenate"] →
      transformInstructions.UnmarshalJSON (Except.ok jtis)
        = Except.error ("unknown method " ++ quote jtis.Method)) := by
  refine ⟨?_, ?_, ?_, ?_⟩
  · rintro (h | h) <;> simp [transformInstructions.UnmarshalJSON, h]
  · intro h
    simp [transformInstructions.UnmarshalJSON, h]
  · intro h
    simp [transformInstructions.UnmarshalJSON, h]
  · intro h
    simp only [List.mem_cons, List.mem_singleton, List.not_mem_nil, or_false, not_or] at h
    obtain ⟨h1, h2, h3, h4⟩ := h
    simp [transformInstructions.UnmarshalJSON, h1, h2, h3, h4]

/-- Witness of C19: the methods "", "first", "last", "concatenate", and the unknown
methods "First" and "latest". -/
theorem UnmarshalJSON_method_witness :
    transformInstructions.UnmarshalJSON (Except.ok ⟨[srcA], "", ⟨","⟩⟩)
      = Except.ok ⟨[srcA], transformMethod.first, ⟨","⟩⟩ ∧
    transformInstructions.UnmarshalJSON (Except.ok ⟨[srcA], "first", ⟨","⟩⟩)
      = Except.ok ⟨[srcA], transformMethod.first, ⟨","⟩⟩ ∧
    transformInstructions.UnmarshalJSON (Except.ok ⟨[srcA, srcBB], "last", ⟨","⟩⟩)
      = Except.ok ⟨[srcA, srcBB], transformMethod.last, ⟨","⟩⟩ ∧
    transformInstructions.UnmarshalJSON (Except.ok ⟨[srcA, srcBB], "concatenate", ⟨"-"⟩⟩)
      = Except.ok ⟨[srcA, srcBB], transformMethod.concatenate, ⟨"-"⟩⟩ ∧
    transformInstructions.UnmarshalJSON (Except.ok ⟨[srcA], "First", ⟨","⟩⟩)
      = Except.error ("unknown method " ++ quote "First") ∧
    transformInstructions.UnmarshalJSON (Except.ok ⟨[srcA], "latest", ⟨","⟩⟩)
      = Except.error ("unknown method " ++ quote "latest") :=
  ⟨(UnmarshalJSON_method ⟨[srcA], "", ⟨","⟩⟩).1 (Or.inl rfl),
   (UnmarshalJSON_method ⟨[srcA], "first", ⟨","⟩⟩).1 (Or.inr rfl),
   (UnmarshalJSON_method ⟨[srcA, srcBB], "last", ⟨","⟩⟩).2.1 rfl,
   (UnmarshalJSON_method ⟨[srcA, srcBB], "concatenate", ⟨"-"⟩⟩).2.2.1 rfl,
   (UnmarshalJSON_method ⟨[srcA], "First", ⟨","⟩⟩).2.2.2 (by decide),
   (UnmarshalJSON_method ⟨[srcA], "latest", ⟨","⟩⟩).2.2.2 (by decide)⟩

theorem opKind_known (name : String) :
    (∃ kind, opKind name = some kind) ↔ name ∈ knownOperations := by
  unfold opKind knownOperations
  constructor
  · rintro ⟨kind, h⟩
    split at h
    · simp [*]
    · split at h
      · simp [*]
      · split at h
        · simp [*]
        · split at h
          · simp [*]
          · split at h
            · simp [*]
            · split at h
              · simp [*]
              · simp at h
  · intro h
    simp only [List.mem_cons, List.mem_singleton, List.not_mem_nil, or_false] at h
    rcases h with h | h | h | h | h | h <;> subst h <;> exact ⟨_, rfl⟩

theorem initOperations_ok_iff (init : OpInit) (tojs : List transformOperationJSON) :
    ∀ acc, (∃ ops, initOperations init tojs acc = Except.ok ops) ↔
      ∀ toj ∈ tojs, ∃ kind op, opKind toj.Name = some kind ∧
        init kind toj.Args = Except.ok op := by
  induction tojs with
  | nil =>
    intro acc
    simp [initOperations]
  | cons toj rest ih =>
    intro acc
    simp only [initOperations, List.mem_cons, forall_eq_or_imp]
    cases hk : opKind toj.Name with
    | none => simp
    | some kind =>
      cases hi : init kind toj.Args with
      | error e => simp [hi]
      | ok op =>
        simp only [hi, ih (acc ++ [op])]
        constructor
        · intro h
          exact ⟨⟨kind, op, rfl, hi⟩, h⟩
        · intro h
          exact h.2

theorem initOperations_ok (init : OpInit) (tojs : List transformOperationJSON) :
    ∀ acc ops, initOperations init tojs acc = Except.ok ops →
      ∃ new, ops = acc ++ new ∧
        List.Forall₂ (fun toj op => ∃ kind, opKind toj.Name = some kind ∧
          init kind toj.Args = Except.ok op) tojs new := by
  induction tojs with
  | nil =>
    intro acc ops h
    simp only [initOperations, Except.ok.injEq] at h
    exact ⟨[], by simp [h], List.Forall₂.nil⟩
  | cons toj rest ih =>
    intro acc ops h
    simp only [initOperations] at h
    cases hk : opKind toj.Name with
    | none => simp [hk] at h
    | some kind =>
      simp only [hk] at h
      cases hi : init kind toj.Args with
      | error e => simp [hi] at h
      | ok op =>
        simp only [hi] at h
        obtain ⟨new, hnew, hall⟩ := ih (acc ++ [op]) ops h
        exact ⟨op :: new, by simp [hnew], List.Forall₂.cons ⟨kind, hk, hi⟩ hall⟩

/-- C20: construction of a source from its decoded form. It succeeds if and only if
every declared operation has one of the six known names and its `init` accepts its
arguments; on success the source has the declared path and its operations are, in
the declared order and number, the operations configured from the declared ones;
otherwise it returns an error. -/
theorem UnmarshalJSON_source (init : OpInit) (jti : transformInstructionJSON) :
    ((∃ ti, transformInstructionXML.UnmarshalJSON init (Except.ok jti) = Except.ok ti) ↔
      ∀ toj ∈ jti.Operations, toj.Name ∈ knownOperations ∧
        ∃ kind op, opKind toj.Name = some kind ∧ init kind toj.Args = Except.ok op) ∧
    (∀ ti, transformInstructionXML.UnmarshalJSON init (Except.ok jti) = Except.ok ti →
      ti.xmlPath = jti.XmlPath ∧ ti.Operations.length = jti.Operations.length ∧
      List.Forall₂ (fun toj op => ∃ kind, opKind toj.Name = some kind ∧
        init kind toj.Args = Except.ok op) jti.Operations ti.Operations) ∧
    ((¬ ∀ toj ∈ jti.Operations, toj.Name ∈ knownOperations ∧
        ∃ kind op, opKind toj.Name = some kind ∧ init kind toj.Args = Except.ok op) →
      ∃ e, transformInstructionXML.UnmarshalJSON init (Except.ok jti) = Except.error e) := by
  have hiff : (∃ ti, transformInstructionXML.UnmarshalJSON init (Except.ok jti) = Except.ok ti) ↔
      ∀ toj ∈ jti.Operations, toj.Name ∈ knownOperations ∧
        ∃ kind op, opKind toj.Name = some kind ∧ init kind toj.Args = Except.ok op := by
    have h0 := initOperations_ok_iff init jti.Operations []
    constructor
    · rintro ⟨ti, h⟩
      have hex : ∃ ops, initOperations init jti.Operations [] = Except.ok ops := by
        simp only [transformInstructionXML.UnmarshalJSON] at h
        cases ho : initOperations init jti.Operations [] with
        | error e => simp [ho] at h
        | ok ops => exact ⟨ops, rfl⟩
      intro toj htoj
      obtain ⟨kind, op, hk, hi⟩ := h0.mp hex toj htoj
      exact ⟨(opKind_known toj.Name).mp ⟨kind, hk⟩, kind, op, hk, hi⟩
    · intro h
      obtain ⟨ops, hops⟩ := h0.mpr (fun toj htoj => (h toj htoj).2)
      exact ⟨⟨jti.XmlPath, ops⟩, by simp [transformInstructionXML.UnmarshalJSON, hops]⟩
  refine ⟨hiff, ?_, ?_⟩
  · intro ti h
    simp only [transformInstructionXML.UnmarshalJSON] at h
    cases ho : initOperations init jti.Operations [] with
    | error e => simp [ho] at h
    | ok ops =>
      simp only [ho, Except.ok.injEq] at h
      subst h
      obtain ⟨new, hnew, hall⟩ := initOperations_ok init jti.Operations [] ops ho
      simp only [List.nil_append] at hnew
      subst hnew
      exact ⟨rfl, hall.length_eq.symm, hall⟩
  · intro hnot
    cases hu : transformInstructionXML.UnmarshalJSON init (Except.ok jti) with
    | error e => exact ⟨e, rfl⟩
    | ok ti => exact absurd (hiff.mp ⟨ti, hu⟩) hnot

/-- Witness of C20: the operations `max` then `split` are accepted and configured in
that order; the name "Max" is not known; the arguments of `replace` are refused. -/
theorem UnmarshalJSON_source_witness :
    (∃ ti, transformInstructionXML.UnmarshalJSON exampleInit
      (Except.ok ⟨"/a", [⟨"max", []⟩, ⟨"split", [("on", ",")]⟩]⟩) = Except.ok ti) ∧
    (transformInstructionXML.mk "/a" [opInc, opInc]).Operations.length
      = (transformInstructionJSON.mk "/a" [⟨"max", []⟩, ⟨"split", [("on", ",")]⟩]).Operations.length ∧
    (∃ e, transformInstructionXML.UnmarshalJSON exampleInit
      (Except.ok ⟨"/a", [⟨"Max", []⟩]⟩) = Except.error e) ∧
    (∃ e, transformInstructionXML.UnmarshalJSON exampleInit
      (Except.ok ⟨"/a", [⟨"max", []⟩, ⟨"replace", []⟩]⟩) = Except.error e) :=
  ⟨(UnmarshalJSON_source exampleInit ⟨"/a", [⟨"max", []⟩, ⟨"split", [("on", ",")]⟩]⟩).1.mpr
      (by
        intro toj htoj
        simp at htoj
        rcases htoj with rfl | rfl
        · exact ⟨by decide, OpKind.max, opInc, rfl, rfl⟩
        · exact ⟨by decide, OpKind.split, opInc, rfl, rfl⟩),
   ((UnmarshalJSON_source exampleInit ⟨"/a", [⟨"max", []⟩, ⟨"split", [("on", ",")]⟩]⟩).2.1
      ⟨"/a", [opInc, opInc]⟩ rfl).2.1,
   (UnmarshalJSON_source exampleInit ⟨"/a", [⟨"Max", []⟩]⟩).2.2
      (by
        intro h
        have := (h ⟨"Max", []⟩ (by simp)).1
        exact absurd this (by decide)),
   (UnmarshalJSON_source exampleInit ⟨"/a", [⟨"max", []⟩, ⟨"replace", []⟩]⟩).2.2
      (by
        intro h
        obtain ⟨_, kind, op, hk, hi⟩ := h ⟨"replace", []⟩ (by simp)
        have hk2 : opKind "replace" = some OpKind.replace := rfl
        simp only [hk2, Option.some.injEq] at hk
        subst hk
        simp [exampleInit] at hi)⟩

/-! ## Sources declared in the rule grammar -/

/-- C21, refuted as stated: the source declared as `"path": "/a", "operations": []` is
constructed with the empty path, not with "/a". -/
theorem constructSource_path_key_counterexample :
    constructSource exampleInit exampleDecodeOps
      (Value.map [("path", Value.str "/a"), ("operations", Value.seq [])])
      = Except.ok ⟨"", []⟩ ∧
    (transformInstructionXML.mk "" []).xmlPath ≠ "/a" :=
  ⟨rfl, by decide⟩

/-- C21, amended: a source declared with the key "xmlPath" (the tag of the field in
the sources), as in `"xmlPath": p, "operations": [...]`, is constructed as a source
whose path is `p`, for every string `p` and all operations that decode and
initialise; declared with the key "path" it is constructed with the empty path. -/
theorem constructSource_xmlPath_key (init : OpInit)
    (decodeOps : Value → Except String (List transformOperationJSON)) (p : String)
    (ops : Value) (decoded : List transformOperationJSON) (built : List transformOperation)
    (hd : decodeOps ops = Except.ok decoded)
    (hi : initOperations init decoded [] = Except.ok built) :
    constructSource init decodeOps
        (Value.map [("xmlPath", Value.str p), ("operations", ops)]) = Except.ok ⟨p, built⟩ ∧
    constructSource init decodeOps
        (Value.map [("path", Value.str p), ("operations", ops)]) = Except.ok ⟨"", built⟩ := by
  have h1 : keyBinds "xmlPath" "xmlPath" = true := by decide
  have h2 : keyBinds "xmlPath" "operations" = false := by decide
  have h3 : keyBinds "operations" "operations" = true := by decide
  have h4 : keyBinds "xmlPath" "path" = false := by decide
  have h5 : keyBinds "operations" "path" = false := by decide
  constructor
  · simp only [constructSource, decodeInstructionJSON, decodeMembers, h1, h2, h3,
      decodeStringField, if_true, Bool.false_eq_true, if_false, hd,
      transformInstructionXML.UnmarshalJSON, hi]
  · simp only [constructSource, decodeInstructionJSON, decodeMembers, h2, h3, h4, h5,
      if_true, Bool.false_eq_true, if_false, hd, transformInstructionXML.UnmarshalJSON, hi]

/-- Witness of C21 amended: the same declaration under the key "xmlPath" and under
the key "path". -/
theorem constructSource_xmlPath_key_witness :
    exampleDecodeOps (Value.seq [Value.map [("type", Value.str "max")]])
      = Except.ok [⟨"max", []⟩] ∧
    initOperations exampleInit [⟨"max", []⟩] [] = Except.ok [opInc] ∧
    (constructSource exampleInit exampleDecodeOps
      (Value.map [("xmlPath", Value.str "/a"),
        ("operations", Value.seq [Value.map [("type", Value.str "max")]])])
      = Except.ok ⟨"/a", [opInc]⟩ ∧
    constructSource exampleInit exampleDecodeOps
      (Value.map [("path", Value.str "/a"),
        ("operations", Value.seq [Value.map [("type", Value.str "max")]])])
      = Except.ok ⟨"", [opInc]⟩) :=
  ⟨rfl, rfl,
   constructSource_xmlPath_key exampleInit exampleDecodeOps "/a"
      (Value.seq [Value.map [("type", Value.str "max")]]) [⟨"max", []⟩] [opInc] rfl rfl⟩

/-- C22, evaluated at the rule `from: [/a], method: first` and a structured (parsed
JSON) context: the type assertion `in.(*xmlquery.Node)` of the source fails at run
time, and the call returns no (value, error) pair. -/
theorem transform_json_context_panics :
    (firstSpec.transform exampleEnv (Context.json (Value.map [("a", Value.num 1)]))
      "number" none).1
      = Result.panic "interface conversion: interface is not *xmlquery.Node" ∧
    firstSpec.From.length = 1 :=
  ⟨rfl, rfl⟩

/-- C25, evaluated at "$.a[0][x]": the second index is not a decimal integer, yet
the call reports success and the value is not in the tree; the same bad index at the
first level, "$.a[x]", gives an error. -/
theorem saveInTree_nested_index_error_dropped :
    saveInTree [] "$.a[0][x]" (Value.str "v")
      = ([("a", Value.seq [Value.seq []])], Status.ok) ∧
    saveInTree [] "$.a[x]" (Value.str "v")
      = ([], Status.error ("failed to determine index of " ++ quote "x]")) :=
  ⟨rfl, rfl⟩

/-! ## Failure of a save -/

/-- C26, refuted as stated: "$.a.b[x]" on the empty tree returns an error and leaves
the parent mapping `a` it created on the way. -/
theorem saveInTree_not_atomic_counterexample :
    saveInTree [] "$.a.b[x]" (Value.str "v")
      = ([("a", Value.map [])], Status.error ("failed to determine index of " ++ quote "x]")) ∧
    (saveInTree [] "$.a.b[x]" (Value.str "v")).2.isError = true ∧
    (saveInTree [] "$.a.b[x]" (Value.str "v")).1 ≠ [] :=
  ⟨rfl, rfl, fun h => List.cons_ne_nil _ _ h⟩

theorem saveLeaf_error (tree : Tree) (seg : String) (v : Value)
    (h : (saveLeaf tree seg v).2.isError = true) : (saveLeaf tree seg v).1 = tree := by
  unfold saveLeaf at h ⊢
  rcases hsp : split seg '[' with _ | ⟨a0, _ | ⟨i1, idx⟩⟩
  · rfl
  · rw [hsp] at h
    simp [Status.isError] at h
  · rw [hsp] at h
    simp only [] at h ⊢
    cases hs : sliceAt tree a0 with
    | panic m => rfl
    | error m => rfl
    | ok sValue =>
      rw [hs] at h
      simp only [] at h ⊢
      cases hsl : saveInSlice (i1 :: idx) sValue v with
      | panic m => rfl
      | error m => rfl
      | ok r =>
        rw [hsl] at h
        simp [Status.isError] at h

/-- C26, amended: `saveInTree` is atomic on failure for a path with a single segment
(after the root marker, if any): if it then returns an error, the tree is equal to
the tree before the call. For every path, an error leaves every key of the tree
other than the key of the path's first segment with its value; parent mappings and
array slots created under that key on the way to the failing segment remain. -/
theorem saveInTree_error_frame (tree : Tree) (path : String) (v : Value)
    (herr : (saveInTree tree path v).2.isError = true) :
    ((∃ seg, split path '.' = [seg] ∨ split path '.' = ["$", seg]) →
      (saveInTree tree path v).1 = tree) ∧
    (∀ key, rootKey path ≠ some key →
      mget (saveInTree tree path v).1 key = mget tree key) := by
  constructor
  · rintro ⟨seg, hs | hs⟩
    · unfold saveInTree at herr ⊢
      rw [hs] at herr ⊢
      simp only [saveInTreeSplits] at herr ⊢
      split
      · rfl
      · rename_i hv
        simp only [hv] at herr
        split
        · rfl
        · rename_i h0
          simp only [h0, if_false, saveInTreeStep, List.isEmpty_nil, if_true] at herr ⊢
          exact saveLeaf_error tree seg v herr
    · unfold saveInTree at herr ⊢
      rw [hs] at herr ⊢
      simp only [saveInTreeSplits] at herr ⊢
      split
      · rfl
      · rename_i hv
        simp only [hv, if_true, saveInTreeStep, List.isEmpty_nil] at herr ⊢
        exact saveLeaf_error tree seg v herr
  · intro key hkey
    unfold saveInTree
    apply saveInTreeSplits_frame
    intro s hs heq
    apply hkey
    simp [rootKey, hs, heq]

/-- Witness of C26 amended: "$.b[x]" on a tree with the key `c` fails and leaves the
tree as it was; "$.a.b[x]" fails and leaves the key `c` as it was. -/
theorem saveInTree_error_frame_witness :
    (saveInTree [("c", Value.num 1)] "$.b[x]" (Value.str "v")).2.isError = true ∧
    (saveInTree [("c", Value.num 1)] "$.b[x]" (Value.str "v")).1 = [("c", Value.num 1)] ∧
    (saveInTree [("c", Value.num 1)] "$.a.b[x]" (Value.str "v")).2.isError = true ∧
    mget (saveInTree [("c", Value.num 1)] "$.a.b[x]" (Value.str "v")).1 "c"
      = mget [("c", Value.num 1)] "c" :=
  ⟨rfl,
   (saveInTree_error_frame [("c", Value.num 1)] "$.b[x]" (Value.str "v") rfl).1
      ⟨"b[x]", Or.inr (by decide)⟩,
   rfl,
   (saveInTree_error_frame [("c", Value.num 1)] "$.a.b[x]" (Value.str "v") rfl).2 "c"
      (by decide)⟩

/-! ## Path rewriting -/

theorem startsWith_iff (s old : List Char) :
    startsWith s old = true ↔ ∃ rest, s = old ++ rest := by
  induction old generalizing s with
  | nil => simp [startsWith]
  | cons d ds ih =>
    cases s with
    | nil => simp [startsWith]
    | cons c cs =>
      simp only [startsWith, Bool.and_eq_true, decide_eq_true_eq, ih]
      constructor
      · rintro ⟨rfl, rest, rfl⟩
        exact ⟨rest, rfl⟩
      · rintro ⟨rest, h⟩
        simp only [List.cons_append, List.cons.injEq] at h
        obtain ⟨h1, h2⟩ := h
        exact ⟨h1, rest, h2⟩

theorem replaceOnce_startsWith (s old new : List Char) (h : startsWith s old = true) :
    replaceOnce s old new = new ++ s.drop old.length := by
  cases s with
  | nil =>
    simp only [replaceOnce, h, if_true]
    cases old with
    | nil => simp
    | cons d ds => simp [startsWith] at h
  | cons c cs => simp [replaceOnce, h]

theorem string_append_iff (a old : String) :
    (∃ rest : String, a = old ++ rest) ↔ ∃ rest : List Char, a.data = old.data ++ rest := by
  constructor
  · rintro ⟨rest, rfl⟩
    exact ⟨rest.data, by simp [String.data_append]⟩
  · rintro ⟨rest, h⟩
    refine ⟨String.mk rest, ?_⟩
    apply String.ext
    simp [String.data_append, h]

/-- C27: `replaceJSONPathPrefix(old, new)` re-roots paths. The sources after the call
correspond one to one, in order, to the sources before it, with the same operations;
a source whose path was `old` followed by `rest` has the path `new` followed by
`rest`; a source whose path did not start with `old` has its path unchanged; the
method and its options are unchanged. -/
theorem replaceJSONPathPrefix_reroots (tis : transformInstructions) (old new : String) :
    (tis.replaceJSONPathPrefix old new).Method = tis.Method ∧
    (tis.replaceJSONPathPrefix old new).MethodOptions = tis.MethodOptions ∧
    (tis.replaceJSONPathPrefix old new).From.length = tis.From.length ∧
    List.Forall₂
      (fun a b => b.Operations = a.Operations ∧
        (∀ rest : String, a.xmlPath = old ++ rest → b.xmlPath = new ++ rest) ∧
        ((¬ ∃ rest : String, a.xmlPath = old ++ rest) → b.xmlPath = a.xmlPath))
      tis.From (tis.replaceJSONPathPrefix old new).From := by
  refine ⟨rfl, rfl, by simp [transformInstructions.replaceJSONPathPrefix], ?_⟩
  simp only [transformInstructions.replaceJSONPathPrefix]
  induction tis.From with
  | nil => exact List.Forall₂.nil
  | cons a rest ih =>
    rw [List.map_cons]
    refine List.Forall₂.cons ?_ ih
    by_cases hp : startsWith a.xmlPath.data old.data = true
    · rw [if_pos hp]
      refine ⟨rfl, ?_, ?_⟩
      · intro r hr
        apply String.ext
        rw [replaceOnce_startsWith _ _ _ hp, hr]
        simp [String.data_append]
      · intro hno
        exact absurd ((string_append_iff a.xmlPath old).mpr ((startsWith_iff _ _).mp hp)) hno
    · rw [if_neg hp]
      refine ⟨rfl, ?_, fun _ => rfl⟩
      intro r hr
      exact absurd ((startsWith_iff _ _).mpr ((string_append_iff a.xmlPath old).mp ⟨r, hr⟩)) hp

/-- Witness of C27: replacing "$.a" by "$.x[0]" in the rule `from: [$.a.b, $.c]`. -/
theorem replaceJSONPathPrefix_reroots_witness :
    (pathsSpec.replaceJSONPathPrefix "$.a" "$.x[0]").From.map (fun src => src.xmlPath)
      = ["$.x[0].b", "$.c"] ∧
    (pathsSpec.replaceJSONPathPrefix "$.a" "$.x[0]").From.length = pathsSpec.From.length ∧
    List.Forall₂
      (fun a b => b.Operations = a.Operations ∧
        (∀ rest : String, a.xmlPath = "$.a" ++ rest → b.xmlPath = "$.x[0]" ++ rest) ∧
        ((¬ ∃ rest : String, a.xmlPath = "$.a" ++ rest) → b.xmlPath = a.xmlPath))
      pathsSpec.From (pathsSpec.replaceJSONPathPrefix "$.a" "$.x[0]").From :=
  ⟨rfl, (replaceJSONPathPrefix_reroots pathsSpec "$.a" "$.x[0]").2.2.1,
   (replaceJSONPathPrefix_reroots pathsSpec "$.a" "$.x[0]").2.2.2⟩

/-! ## Parents in the transformer tree -/

/-- C28: `findParent`, on the segments of the path in which every "[" starts a segment
of its own (`parentSegments`). It returns the error "paths must start with '$'"
exactly when the first segment is not "$"; when "$" is followed by at least one
segment it returns, with no error, the node reached from the root by every segment
but the last, through `child` for "[*]" and `selectChild` for any other segment; and
the method of `JSONTransformer` and the method of `XMLTransformer` agree on every path. -/
theorem findParent_spec {N : Type} (child : N → N) (selectChild : N → String → N)
    (root : N) (path : String) :
    (JSONTransformer.findParent child selectChild root path
        = Result.error "paths must start with \x27$\x27" ↔
      (parentSegments path).head? ≠ some "$") ∧
    (∀ rest, parentSegments path = "$" :: rest → rest ≠ [] →
      JSONTransformer.findParent child selectChild root path
        = Result.ok (rest.dropLast.foldl
            (fun parent sp => if sp = "[*]" then child parent else selectChild parent sp)
            root)) ∧
    XMLTransformer.findParent child selectChild root path
      = JSONTransformer.findParent child selectChild root path := by
  have hne : parentSegments path ≠ [] := by
    simp only [parentSegments, split]
    intro h
    exact splitChars_ne_nil '.' _ (List.map_eq_nil_iff.mp h)
  have hfold : ∀ (l : List String) (n : N),
      walkParents child selectChild l n
        = l.foldl (fun parent sp => if sp = "[*]" then child parent else selectChild parent sp)
            n := by
    intro l
    induction l with
    | nil => intro n; rfl
    | cons sp l ih =>
      intro n
      by_cases h : sp = "[*]"
      · simp [walkParents, h, ih]
      · simp [walkParents, h, ih]
  refine ⟨?_, ?_, rfl⟩
  · unfold JSONTransformer.findParent
    rcases hs : parentSegments path with _ | ⟨s0, rest⟩
    · exact absurd hs hne
    · by_cases h0 : s0 = "$"
      · subst h0
        cases rest <;> simp
      · simp [h0]
  · intro rest hs hrest
    unfold JSONTransformer.findParent
    rw [hs]
    obtain ⟨r0, rs, rfl⟩ := List.exists_cons_of_ne_nil hrest
    simp [hfold]

/-- Witness of C28: the parent of "$.array1[*].array2[*].name", with nodes written as
the list of the steps that lead to them, and the path "array1.name" without "$". -/
theorem findParent_spec_witness :
    JSONTransformer.findParent (fun n : List String => n ++ ["*"]) (fun n sp => n ++ [sp]) []
      "$.array1[*].array2[*].name" = Result.ok ["array1", "*", "array2", "*"] ∧
    XMLTransformer.findParent (fun n : List String => n ++ ["*"]) (fun n sp => n ++ [sp]) []
      "$.array1[*].array2[*].name" = Result.ok ["array1", "*", "array2", "*"] ∧
    JSONTransformer.findParent (fun n : List String => n ++ ["*"]) (fun n sp => n ++ [sp]) []
      "array1.name" = Result.error "paths must start with \x27$\x27" :=
  ⟨(findParent_spec (fun n : List String => n ++ ["*"]) (fun n sp => n ++ [sp]) []
      "$.array1[*].array2[*].name").2.1 ["array1", "[*]", "array2", "[*]", "name"]
      (by decide) (by simp),
   ((findParent_spec (fun n : List String => n ++ ["*"]) (fun n sp => n ++ [sp]) []
      "$.array1[*].array2[*].name").2.2).trans rfl,
   (findParent_spec (fun n : List String => n ++ ["*"]) (fun n sp => n ++ [sp]) []
      "array1.name").1.mpr (by decide)⟩

/-! ## JSON references -/

theorem parseReference_not_map (v : Value) (keys : List String) (h : v.isMap = false) :
    parseReference v keys = Result.ok Value.null := by
  cases v with
  | map m => simp [Value.isMap] at h
  | null => rcases keys with _ | ⟨k, _ | ⟨k2, ks⟩⟩ <;> rfl
  | str _ => rcases keys with _ | ⟨k, _ | ⟨k2, ks⟩⟩ <;> rfl
  | num _ => rcases keys with _ | ⟨k, _ | ⟨k2, ks⟩⟩ <;> rfl
  | bool _ => rcases keys with _ | ⟨k, _ | ⟨k2, ks⟩⟩ <;> rfl
  | nodes _ => rcases keys with _ | ⟨k, _ | ⟨k2, ks⟩⟩ <;> rfl
  | seq _ => rcases keys with _ | ⟨k, _ | ⟨k2, ks⟩⟩ <;> rfl

theorem get_key_not_map (v : Value) (k : String) (ps : List Step) (h : v.isMap = false) :
    v.get (Step.key k :: ps) = none := by
  cases v <;> first | rfl | simp [Value.isMap] at h

/-- C29: `parseReference` follows the reference path key by key. For a mapping
source and a non-empty key list whose last key is not empty: when following the keys
from the source reaches a value, that value is returned; when it does not (a key is
missing, or an intermediate value is not a mapping), nil is returned. For the key
list [""] the source itself is returned. -/
theorem parseReference_follows (keys : List String) :
    ∀ (m : Tree), keys ≠ [] → keys.getLast? ≠ some "" →
      (∀ x, (Value.map m).get (keys.map Step.key) = some x →
        parseReference (Value.map m) keys = Result.ok x) ∧
      ((Value.map m).get (keys.map Step.key) = none →
        parseReference (Value.map m) keys = Result.ok Value.null) ∧
      parseReference (Value.map m) [""] = Result.ok (Value.map m) := by
  induction keys with
  | nil => intro m h; exact absurd rfl h
  | cons k rest ih =>
    intro m _ hlast
    cases rest with
    | nil =>
      have hk : k ≠ "" := by
        intro h
        apply hlast
        simp [h]
      refine ⟨?_, ?_, rfl⟩
      · intro x hx
        simp only [List.map_cons, List.map_nil, Value.get] at hx
        cases hg : mget m k with
        | none => simp [hg] at hx
        | some y =>
          simp only [hg, Value.get, Option.some.injEq] at hx
          subst hx
          simp [parseReference, hk, mgetD, hg]
      · intro hx
        simp only [List.map_cons, List.map_nil, Value.get] at hx
        cases hg : mget m k with
        | none => simp [parseReference, hk, mgetD, hg]
        | some y => simp [hg, Value.get] at hx
    | cons k2 ks =>
      have hlast2 : (k2 :: ks).getLast? ≠ some "" := by
        simpa [List.getLast?_cons_cons] using hlast
      have hstep : parseReference (Value.map m) (k :: k2 :: ks)
          = parseReference (mgetD m k) (k2 :: ks) := rfl
      rw [hstep]
      simp only [List.map_cons, Value.get]
      cases hg : mget m k with
      | none =>
        refine ⟨fun x hx => ?_, fun _ => ?_, rfl⟩
        · simp at hx
        · simp [mgetD, hg, parseReference]
      | some y =>
        have hy : mgetD m k = y := by simp [mgetD, hg]
        rw [hy]
        cases hm : y.isMap with
        | false =>
          refine ⟨fun x hx => ?_, fun _ => parseReference_not_map y _ hm, rfl⟩
          simp only [] at hx
          rw [get_key_not_map y k2 _ hm] at hx
          simp at hx
        | true =>
          cases y with
          | map m2 =>
            obtain ⟨h1, h2, _⟩ := ih m2 (by simp) hlast2
            exact ⟨h1, h2, rfl⟩
          | null => simp [Value.isMap] at hm
          | str _ => simp [Value.isMap] at hm
          | num _ => simp [Value.isMap] at hm
          | bool _ => simp [Value.isMap] at hm
          | nodes _ => simp [Value.isMap] at hm
          | seq _ => simp [Value.isMap] at hm

/-- Witness of C29: "#/definitions/a" style keys in a document, a missing
intermediate, an intermediate that is not a mapping, and the key list [""]. -/
theorem parseReference_follows_witness :
    parseReference (Value.map [("definitions", Value.map [("a", Value.str "x")]),
        ("t", Value.str "s")]) ["definitions", "a"] = Result.ok (Value.str "x") ∧
    parseReference (Value.map [("definitions", Value.map [("a", Value.str "x")]),
        ("t", Value.str "s")]) ["missing", "a"] = Result.ok Value.null ∧
    parseReference (Value.map [("definitions", Value.map [("a", Value.str "x")]),
        ("t", Value.str "s")]) ["t", "a"] = Result.ok Value.null ∧
    parseReference (Value.map [("definitions", Value.map [("a", Value.str "x")]),
        ("t", Value.str "s")]) [""]
      = Result.ok (Value.map [("definitions", Value.map [("a", Value.str "x")]),
        ("t", Value.str "s")]) :=
  ⟨(parseReference_follows ["definitions", "a"] _ (by simp) (by decide)).1 (Value.str "x") rfl,
   (parseReference_follows ["missing", "a"] _ (by simp) (by decide)).2.1 rfl,
   (parseReference_follows ["t", "a"] _ (by simp) (by decide)).2.1 rfl,
   (parseReference_follows ["definitions", "a"] _ (by simp) (by decide)).2.2⟩

theorem RefAt_cons {hd : String × Value} {tl : List (String × Value)}
    {p : List String} {t : String} (h : RefAt (Value.map (hd :: tl)) p t) :
    RefAt (Value.map tl) p t ∨ (hd = ("$ref", Value.str t) ∧ p = []) ∨
      (∃ (k : String) (e : Tree) (q : List String),
        hd = (k, Value.map e) ∧ p = k :: q ∧ RefAt (Value.map e) q t) ∨
      (∃ (k : String) (xs : List Value) (i : Nat) (e : Tree) (q : List String),
        hd = (k, Value.seq xs) ∧ p = k :: toString i :: q ∧
        xs[i]? = some (Value.map e) ∧ RefAt (Value.map e) q t) := by
  cases h with
  | here _ _ hm =>
    rcases List.mem_cons.mp hm with h | h
    · exact Or.inr (Or.inl ⟨h.symm, rfl⟩)
    · exact Or.inl (RefAt.here _ _ h)
  | member _ k e q _ hm hq =>
    rcases List.mem_cons.mp hm with h | h
    · exact Or.inr (Or.inr (Or.inl ⟨k, e, q, h.symm, rfl, hq⟩))
    · exact Or.inl (RefAt.member _ _ _ _ _ h hq)
  | item _ k xs i e q _ hm hi hq =>
    rcases List.mem_cons.mp hm with h | h
    · exact Or.inr (Or.inr (Or.inr ⟨k, xs, i, e, q, h.symm, rfl, hi, hq⟩))
    · exact Or.inl (RefAt.item _ _ _ _ _ _ _ h hi hq)

theorem RefAt_nil {p : List String} {t : String} (h : RefAt (Value.map []) p t) : False := by
  cases h with
  | here _ _ hm => simp at hm
  | member _ k e q _ hm hq => simp at hm
  | item _ k xs i e q _ hm hi hq => simp at hm

theorem walk_walked :
    ∀ v : Value, (∀ m, v = Value.map m → MembersWalked m) ∧
      (∀ xs, v = Value.seq xs → ItemsWalked xs) := by
  apply @Value.rec
    (fun v => (∀ m, v = Value.map m → MembersWalked m) ∧
      (∀ xs, v = Value.seq xs → ItemsWalked xs))
    (fun xs => ItemsWalked xs) (fun m => MembersWalked m)
    (fun kv => (∀ m, kv.2 = Value.map m → MembersWalked m) ∧
      (∀ xs, kv.2 = Value.seq xs → ItemsWalked xs))
  · exact ⟨fun m h => (by cases h), fun xs h => (by cases h)⟩
  · intro s
    exact ⟨fun m h => (by cases h), fun xs h => (by cases h)⟩
  · intro n
    exact ⟨fun m h => (by cases h), fun xs h => (by cases h)⟩
  · intro b
    exact ⟨fun m h => (by cases h), fun xs h => (by cases h)⟩
  · intro ns
    exact ⟨fun m h => (by cases h), fun xs h => (by cases h)⟩
  · intro xs hxs
    refine ⟨fun m h => (by cases h), fun ys h => ?_⟩
    injection h with h
    subst h
    exact hxs
  · intro m hm
    refine ⟨fun m2 h => ?_, fun xs h => (by cases h)⟩
    injection h with h
    subst h
    exact hm
  · -- the empty array
    intro i0 key source refs _
    exact ⟨refs, rfl, fun x hx => hx, fun j e p t h => (by simp at h)⟩
  · -- an element, then the other elements
    intro head tail hhead htail i0 key source refs hno
    have skip : noNilItems tail = true → (∀ e, head ≠ Value.map e) →
        walkItems (head :: tail) i0 key source refs =
          walkItems tail (i0 + 1) key source refs →
        ∃ r, walkItems (head :: tail) i0 key source refs = Result.ok r ∧
          (∀ x ∈ refs, x ∈ r) ∧
          (∀ (j : Nat) (e : Tree) (p : List String) (t : String),
            (head :: tail)[j]? = some (Value.map e) → RefAt (Value.map e) p t →
            (⟨source ++ key :: toString (i0 + j) :: p, t⟩ : jsonRef) ∈ r) := by
      intro hno2 hne heq
      obtain ⟨r, hr, hsub, hitems⟩ := htail (i0 + 1) key source refs hno2
      refine ⟨r, heq.trans hr, hsub, ?_⟩
      intro j e2 p t hj ht
      cases j with
      | zero =>
        simp only [List.getElem?_cons_zero, Option.some.injEq] at hj
        exact absurd hj (hne e2)
      | succ j =>
        simp only [List.getElem?_cons_succ] at hj
        have := hitems j e2 p t hj ht
        rwa [Nat.add_assoc, Nat.add_comm 1 j] at this
    cases head with
    | map e =>
      simp only [noNilItems, noNilMember, Bool.and_eq_true] at hno
      obtain ⟨r1, hr1, hsub1, hdirect⟩ :=
        hhead.1 e rfl (source ++ [key, toString i0]) refs hno.1
      obtain ⟨r, hr, hsub, hitems⟩ := htail (i0 + 1) key source r1 hno.2
      refine ⟨r, ?_, fun x hx => hsub x (hsub1 x hx), ?_⟩
      · simp only [walkItems, walkInterface, hr1, hr]
      · intro j e2 p t hj ht
        cases j with
        | zero =>
          simp only [List.getElem?_cons_zero, Option.some.injEq, Value.map.injEq] at hj
          subst hj
          have := hsub _ (hdirect p t ht)
          simpa using this
        | succ j =>
          simp only [List.getElem?_cons_succ] at hj
          have := hitems j e2 p t hj ht
          rwa [Nat.add_assoc, Nat.add_comm 1 j] at this
    | null => exact skip (by simpa [noNilItems] using hno) (fun e h => (by cases h)) rfl
    | str _ => exact skip (by simpa [noNilItems] using hno) (fun e h => (by cases h)) rfl
    | num _ => exact skip (by simpa [noNilItems] using hno) (fun e h => (by cases h)) rfl
    | bool _ => exact skip (by simpa [noNilItems] using hno) (fun e h => (by cases h)) rfl
    | nodes _ => exact skip (by simpa [noNilItems] using hno) (fun e h => (by cases h)) rfl
    | seq _ => exact skip (by simpa [noNilItems] using hno) (fun e h => (by cases h)) rfl
  · -- the empty object
    intro source refs _
    exact ⟨refs, rfl, fun x hx => hx, fun p t h => (RefAt_nil h).elim⟩
  · -- a member, then the other members
    intro head tail hhead htail source refs hno
    obtain ⟨key, val⟩ := head
    have skip : noNilMembers tail = true →
        (∀ t, val ≠ Value.str t) → (∀ e, val ≠ Value.map e) → (∀ xs, val ≠ Value.seq xs) →
        walkMembers ((key, val) :: tail) source refs = walkMembers tail source refs →
        ∃ r, walkMembers ((key, val) :: tail) source refs = Result.ok r ∧
          (∀ x ∈ refs, x ∈ r) ∧
          (∀ (p : List String) (t : String), RefAt (Value.map ((key, val) :: tail)) p t →
            (⟨source ++ p, t⟩ : jsonRef) ∈ r) := by
      intro hno2 hs hm hx heq
      obtain ⟨r, hr, hsub, hrefs⟩ := htail source refs hno2
      refine ⟨r, heq.trans hr, hsub, ?_⟩
      intro p t hp
      rcases RefAt_cons hp with h | ⟨h, _⟩ | ⟨k, e, q, h, _, _⟩ | ⟨k, xs, i, e, q, h, _, _, _⟩
      · exact hrefs p t h
      · exact absurd (congrArg Prod.snd h) (hs t)
      · exact absurd (congrArg Prod.snd h) (hm e)
      · exact absurd (congrArg Prod.snd h) (hx xs)
    cases val with
    | null => simp [noNilMembers] at hno
    | str target =>
      simp only [noNilMembers] at hno
      by_cases hk : key = "$ref"
      · subst hk
        obtain ⟨r, hr, hsub, hrefs⟩ :=
          htail source (refs ++ [⟨source, target⟩]) hno
        refine ⟨r, by simp only [walkMembers, if_true, hr],
          fun x hx => hsub x (List.mem_append_left _ hx), ?_⟩
        intro p t hp
        rcases RefAt_cons hp with h | ⟨h, rfl⟩ | ⟨k, e, q, h, _, _⟩ |
          ⟨k, xs, i, e, q, h, _, _, _⟩
        · exact hrefs p t h
        · simp only [Prod.mk.injEq, Value.str.injEq, true_and] at h
          subst h
          exact hsub _ (by simp)
        · simp at h
        · simp at h
      · obtain ⟨r, hr, hsub, hrefs⟩ := htail source refs hno
        refine ⟨r, by simp only [walkMembers, hk, if_false, hr], hsub, ?_⟩
        intro p t hp
        rcases RefAt_cons hp with h | ⟨h, rfl⟩ | ⟨k, e, q, h, _, _⟩ |
          ⟨k, xs, i, e, q, h, _, _, _⟩
        · exact hrefs p t h
        · simp only [Prod.mk.injEq] at h
          exact absurd h.1 hk
        · simp at h
        · simp at h
    | seq xs =>
      simp only [noNilMembers, Bool.and_eq_true] at hno
      obtain ⟨r1, hr1, hsub1, hitems⟩ := hhead.2 xs rfl 0 key source refs hno.1
      obtain ⟨r, hr, hsub, hrefs⟩ := htail source r1 hno.2
      refine ⟨r, by simp only [walkMembers, hr1, hr], fun x hx => hsub x (hsub1 x hx), ?_⟩
      intro p t hp
      rcases RefAt_cons hp with h | ⟨h, rfl⟩ | ⟨k, e, q, h, _, _⟩ |
        ⟨k, ys, i, e, q, h, rfl, hi, hq⟩
      · exact hrefs p t h
      · simp at h
      · simp at h
      · simp only [Prod.mk.injEq, Value.seq.injEq] at h
        obtain ⟨rfl, rfl⟩ := h
        have := hitems i e q t hi hq
        rw [Nat.zero_add] at this
        exact hsub _ this
    | map e =>
      simp only [noNilMembers, noNilMember, Bool.and_eq_true] at hno
      obtain ⟨r1, hr1, hsub1, hin⟩ := hhead.1 e rfl (source ++ [key]) refs hno.1
      obtain ⟨r, hr, hsub, hrefs⟩ := htail source r1 hno.2
      refine ⟨r, by simp only [walkMembers, walkInterface, hr1, hr],
        fun x hx => hsub x (hsub1 x hx), ?_⟩
      intro p t hp
      rcases RefAt_cons hp with h | ⟨h, rfl⟩ | ⟨k, e2, q, h, rfl, hq⟩ |
        ⟨k, ys, i, e2, q, h, _, _, _⟩
      · exact hrefs p t h
      · simp at h
      · simp only [Prod.mk.injEq, Value.map.injEq] at h
        obtain ⟨rfl, rfl⟩ := h
        have := hsub _ (hin q t hq)
        simpa using this
      · simp at h
    | num _ =>
      exact skip (by simpa [noNilMembers] using hno) (fun _ h => (by cases h))
        (fun _ h => (by cases h)) (fun _ h => (by cases h)) rfl
    | bool _ =>
      exact skip (by simpa [noNilMembers] using hno) (fun _ h => (by cases h))
        (fun _ h => (by cases h)) (fun _ h => (by cases h)) rfl
    | nodes _ =>
      exact skip (by simpa [noNilMembers] using hno) (fun _ h => (by cases h))
        (fun _ h => (by cases h)) (fun _ h => (by cases h)) rfl
  · intro fst snd h
    exact h

theorem walkItems_skips (xs : List Value) :
    ∀ (i0 : Nat) (key : String) (source : List String) (refs : List jsonRef),
      (∀ x ∈ xs, x.isMap = false) → walkItems xs i0 key source refs = Result.ok refs := by
  induction xs with
  | nil => intro i0 key source refs _; rfl
  | cons x rest ih =>
    intro i0 key source refs h
    have hx := h x (List.mem_cons_self _ _)
    have hrest := ih (i0 + 1) key source refs (fun y hy => h y (List.mem_cons_of_mem _ hy))
    cases x with
    | map m => simp [Value.isMap] at hx
    | null => exact hrest
    | str _ => exact hrest
    | num _ => exact hrest
    | bool _ => exact hrest
    | nodes _ => exact hrest
    | seq _ => exact hrest

/-- C24: a null inside a JSON array does not crash the reference walk. For every
JSON object in which no object that the walk reaches has a null member (nulls and
other non-objects may be elements of its arrays), `walkInterface` returns, with no
run-time failure and no error, a list that keeps the references it was given and
holds the reference of every object reached by member keys and by positions of
object elements in member arrays, with its key path and its target; and the walk
of an array that has no object element adds no reference. -/
theorem walkInterface_nil_in_array (m : Tree) (source : List String) (refs : List jsonRef)
    (h : noNilMember (Value.map m) = true) :
    (∃ r, walkInterface (Value.map m) source refs = Result.ok r ∧
      (∀ x ∈ refs, x ∈ r) ∧
      (∀ (p : List String) (t : String), RefAt (Value.map m) p t →
        (⟨source ++ p, t⟩ : jsonRef) ∈ r)) ∧
    (∀ (xs : List Value) (i0 : Nat) (key : String), (∀ x ∈ xs, x.isMap = false) →
      walkItems xs i0 key source refs = Result.ok refs) := by
  refine ⟨?_, fun xs i0 key hxs => walkItems_skips xs i0 key source refs hxs⟩
  have hw := (walk_walked (Value.map m)).1 m rfl source refs
    (by simpa [noNilMember] using h)
  simpa only [walkInterface] using hw

theorem walkInterface_nil_in_array_witness :
    noNilMember (Value.map nilInArrayDoc) = true ∧
    walkInterface (Value.map nilInArrayDoc) [] [] = Result.ok [⟨["a", "1"], "#/x"⟩] ∧
    RefAt (Value.map nilInArrayDoc) ["a", "1"] "#/x" ∧
    ((∃ r, walkInterface (Value.map nilInArrayDoc) [] [] = Result.ok r ∧
      (∀ x ∈ ([] : List jsonRef), x ∈ r) ∧
      (∀ (p : List String) (t : String), RefAt (Value.map nilInArrayDoc) p t →
        (⟨[] ++ p, t⟩ : jsonRef) ∈ r)) ∧
    (∀ (xs : List Value) (i0 : Nat) (key : String), (∀ x ∈ xs, x.isMap = false) →
      walkItems xs i0 key [] [] = Result.ok [])) :=
  ⟨rfl, rfl,
    RefAt.item nilInArrayDoc "a" _ 1 [("$ref", Value.str "#/x")] [] "#/x"
      (List.mem_cons_self _ _) rfl (RefAt.here _ _ (List.mem_cons_self _ _)),
    walkInterface_nil_in_array nilInArrayDoc [] [] rfl⟩

/-- C30: `walkInterface` does not locate every reference. In the document
`{"a": [[{"$ref": "#/x"}]], "x": {"type": "string"}}` an object with a "$ref"
member of string value stands in an array that is itself an element of an array:
the walk returns with no error and no reference at all, where one reference with
source ["a", "0", "0"] and target "#/x" is due. The document has no null member. -/
theorem walkInterface_misses_nested_array :
    walkInterface nestedArrayDoc [] [] = Result.ok [] ∧
    noNilMember nestedArrayDoc = true ∧
    nestedArrayDoc.get [Step.key "a", Step.idx 0, Step.idx 0, Step.key "$ref"] =
      some (Value.str "#/x") :=
  ⟨rfl, rfl, rfl⟩

/-- C23: `dereference` does not replace a reference at the document root. The
document `{"$ref": "#/definitions/a", "definitions": {"a": {"type": "string"}}}`
has one reference, internal and resolvable; the walk records it with an empty
source, the loop over the source has no pass, and whatever a pass of that loop
does, `dereference` returns the encoding of the document as it was decoded, whose
root still has the member "$ref". -/
theorem dereference_root_ref_kept {H C : Type} (g : RefGraph H C) (schemaPath input : String)
    (isTop : Bool) (hc : containsChars input.data "$ref".data = true)
    (hd : g.content (g.unmarshal input) = rootRefDoc) :
    dereference g schemaPath input isTop = g.marshal (g.unmarshal input) ∧
    walkInterface rootRefDoc [] [] = Result.ok [⟨[], "#/definitions/a"⟩] ∧
    rootRefDoc.get [Step.key "$ref"] = some (Value.str "#/definitions/a") ∧
    parseReference rootRefDoc ["definitions", "a"] =
      Result.ok (Value.map [("type", Value.str "string")]) := by
  refine ⟨?_, rfl, rfl, rfl⟩
  have hw : walkInterface rootRefDoc [] [] = Result.ok [⟨[], "#/definitions/a"⟩] := rfl
  simp only [dereference, hc, hd, hw, dereferenceRefs, dereferenceSource]
  rfl

theorem dereference_root_ref_kept_witness :
    containsChars rootRefText.data "$ref".data = true ∧
    rootRefGraph.content (rootRefGraph.unmarshal rootRefText) = rootRefDoc ∧
    dereference rootRefGraph "schema.json" rootRefText false = Result.ok rootRefText ∧
    (dereference rootRefGraph "schema.json" rootRefText false =
        rootRefGraph.marshal (rootRefGraph.unmarshal rootRefText) ∧
      walkInterface rootRefDoc [] [] = Result.ok [⟨[], "#/definitions/a"⟩] ∧
      rootRefDoc.get [Step.key "$ref"] = some (Value.str "#/definitions/a") ∧
      parseReference rootRefDoc ["definitions", "a"] =
        Result.ok (Value.map [("type", Value.str "string")])) :=
  ⟨rfl, rfl, rfl, dereference_root_ref_kept rootRefGraph "schema.json" rootRefText false rfl rfl⟩

/-- C31: `walkInterface` is not total on JSON object trees. An object whose first
member has the value null ends the walk in a run-time failure, whatever the other
members, the source and the references collected so far; so does the schema
`{"type": "string", "default": null}`, and an object with a null member anywhere
below the root, here under a member object and in an object element of an array.
A null that is an element of an array is passed over. -/
theorem walkInterface_null_member_panics :
    (∀ (key : String) (rest : Tree) (source : List String) (refs : List jsonRef),
      walkInterface (Value.map ((key, Value.null) :: rest)) source refs
        = Result.panic "invalid memory address or nil pointer dereference") ∧
    walkInterface nullMemberDoc [] []
      = Result.panic "invalid memory address or nil pointer dereference" ∧
    walkInterface (Value.map [("properties", Value.map [("a", nullMemberDoc)])]) [] []
      = Result.panic "invalid memory address or nil pointer dereference" ∧
    walkInterface (Value.map [("allOf", Value.seq [nullMemberDoc])]) [] []
      = Result.panic "invalid memory address or nil pointer dereference" ∧
    walkInterface (Value.map [("enum", Value.seq [Value.null])]) [] [] = Result.ok [] :=
  ⟨fun _ _ _ _ => rfl, rfl, rfl, rfl, rfl⟩

/-- C32: `buildReference` is not total on internal references. For every mapping
document the reference "#" (the empty fragment) ends in a run-time failure:
the fragment gives no key, and `parseReference` reads the first key of an empty
list; so does a fragment without "/", as in "#definitions". The reference "#/"
gives the document itself, "#/definitions/a" the value under those keys. A
reference with no "#" part gives the whole source document: the document itself
for the empty reference, and for any other the mapping that the URL or the file
holds. -/
theorem buildReference_empty_fragment_panics :
    (∀ (loader : RefLoader) (schemaPath : String) (m : Tree),
      buildReference loader schemaPath (Value.map m) "#"
        = Result.panic "index out of range") ∧
    (∀ (loader : RefLoader) (schemaPath : String) (m : Tree),
      buildReference loader schemaPath (Value.map m) "#definitions"
        = Result.panic "index out of range") ∧
    (∀ (loader : RefLoader) (schemaPath : String) (m : Tree),
      buildReference loader schemaPath (Value.map m) "#/" = Result.ok (Value.map m)) ∧
    buildReference noLoader "schema.json" rootRefDoc "#/definitions/a"
      = Result.ok (Value.map [("type", Value.str "string")]) ∧
    (∀ (loader : RefLoader) (schemaPath : String) (m : Tree),
      buildReference loader schemaPath (Value.map m) "" = Result.ok (Value.map m)) ∧
    (∀ (loader : RefLoader) (schemaPath : String) (top : Value) (ref : String)
      (sourceMap : Tree), '#' ∉ ref.data → ref ≠ "" →
      (if startsWith ref.data "http".data then loader.http ref
        else loader.file schemaPath ref) = Result.ok (Value.map sourceMap) →
      buildReference loader schemaPath top ref = Result.ok (Value.map sourceMap)) := by
  refine ⟨fun _ _ _ => rfl, fun _ _ _ => rfl, fun _ _ _ => rfl, rfl, fun _ _ _ => rfl, ?_⟩
  intro loader schemaPath top ref sourceMap hno hne hsrc
  have hlen : ref.length ≠ 0 := by
    intro h
    apply hne
    have hd : ref.data = [] := List.length_eq_zero.mp h
    exact String.ext hd
  have hparse : parseReference (Value.map sourceMap) ((split "/" '/').drop 1)
      = Result.ok (Value.map sourceMap) := rfl
  simp only [buildReference, split_not_mem '#' ref hno, List.length_singleton,
    Nat.one_lt_ofNat, if_true, List.singleton_append, hlen, if_false, hsrc, hparse]

theorem buildReference_empty_fragment_panics_witness :
    '#' ∉ "defs.json".data ∧ "defs.json" ≠ "" ∧
    (if startsWith "defs.json".data "http".data then oneFileLoader.http "defs.json"
      else oneFileLoader.file "schema.json" "defs.json")
      = Result.ok (Value.map [("type", Value.str "string")]) ∧
    buildReference oneFileLoader "schema.json" rootRefDoc "defs.json"
      = Result.ok (Value.map [("type", Value.str "string")]) ∧
    buildReference oneFileLoader "schema.json" rootRefDoc "#"
      = Result.panic "index out of range" :=
  ⟨by decide, by decide, rfl,
   buildReference_empty_fragment_panics.2.2.2.2.2 oneFileLoader "schema.json" rootRefDoc
      "defs.json" [("type", Value.str "string")] (by decide) (by decide) rfl,
   buildReference_empty_fragment_panics.1 oneFileLoader "schema.json"
      [("$ref", Value.str "#/definitions/a"),
        ("definitions", Value.map [("a", Value.map [("type", Value.str "string")])])]⟩

/-! ## Struct generation -/

/-- C33: `splitJSONPath` does not normalise every path item. For the nested-array
path "$.double[*][*]" it returns the item "double[*]": one array marker is removed
from the end of a segment, not all of them. For "$[*].a" it returns the item "$":
the segment "$[*]" is not the segment "$" and loses its marker. For "$.a[*].b" it
returns the items "a" and "b". -/
theorem splitJSONPath_keeps_marker :
    splitJSONPath "$.double[*][*]" = ["double[*]"] ∧
    splitJSONPath "$[*].a" = ["$", "a"] ∧
    splitJSONPath "$.a[*].b" = ["a", "b"] :=
  ⟨rfl, rfl, rfl⟩

end JsTransform
